import Mathlib

/-!
Nodeset.c: the in-memory model builder of the nodeset loader

A shallow embedding of `src/src/Nodeset.c` and the properties of it that the
specification states.

Conventions of the embedding

* A C string (`char *`) is an `Option String`: `none` is `NULL`; an index into the string
  counts the bytes of its UTF-8 encoding.
* Undefined behaviour of the C code (an index outside an array, a read behind
  the end of a string, `atoi` of a number that does not fit `int`, a dangling
  pointer) is the result `none` of the embedded function.
* Pointers to nodes and references are handles: the index of the record in the
  list of all records allocated so far.
* A linked list threaded through `Reference.next` is the `List` of the handles
  on it, head first; `next` is written once, when the record is pushed, so the
  list read off a head pointer never changes behind it.
* A function of the repository whose source is not at hand (`Sort_start` in
  `Sort.c`, the alias list, `TNodeId_cmp`) is modelled from the specification;
  its doc comment says so and quotes the words it follows.
-/

namespace NodesetLoader

/-! ## Data model -/

/-- The seven node classes (`TNodeClass`, used as the index of `Nodeset.nodes`). -/
inductive TNodeClass
  | NODECLASS_OBJECT
  | NODECLASS_OBJECTTYPE
  | NODECLASS_VARIABLE
  | NODECLASS_DATATYPE
  | NODECLASS_METHOD
  | NODECLASS_REFERENCETYPE
  | NODECLASS_VARIABLETYPE
  deriving DecidableEq, Repr

open TNodeClass

/-- `TNodeId`: `nsIdx` is an `int` (see the cast in `translateNodeId`), `id` a C string. -/
structure TNodeId where
  nsIdx : Int
  id : Option String
  deriving DecidableEq, Repr

/-- `TBrowseName`: `nsIdx` is a `uint16_t` (see the casts in `extractBrowseName`). -/
structure TBrowseName where
  nsIdx : Nat
  name : Option String
  deriving DecidableEq, Repr

/-- `TNamespace`: `idx` is a `size_t`, `name` the URI. -/
structure TNamespace where
  idx : Nat
  name : Option String
  deriving DecidableEq, Repr

/-! ## Integer conversions -/

/-- Conversion of a `size_t` to `int` (`(int)namespaces[..].idx`): the low 32 bits, signed. -/
def toInt32 (n : Nat) : Int :=
  if n % 2 ^ 32 < 2 ^ 31 then ((n % 2 ^ 32 : Nat) : Int) else ((n % 2 ^ 32 : Nat) : Int) - 2 ^ 32

/-- Conversion of an `int` to `uint16_t`. -/
def toUInt16 (i : Int) : Nat := (i % 65536).toNat

/-- Conversion of an `int` to `size_t` (64 bit). -/
def toSizeT (i : Int) : Nat := (i % 2 ^ 64).toNat

/-! ## C library functions on strings -/

/-- `strchr(s, c)` for a character `c` other than NUL: the suffix of `s` that starts at the
first `c`, or `none` (`NULL`) when `c` does not occur. -/
def strchr : List Char → Char → Option (List Char)
  | [], _ => none
  | x :: xs, c => if x = c then some (x :: xs) else strchr xs c

/-- The bytes of a text in memory: its UTF-8 encoding. -/
def utf8Bytes (s : List Char) : List UInt8 := s.flatMap String.utf8EncodeChar

/-- A byte as the `char` that the functions of the C library look at. -/
def byteChar (b : UInt8) : Char := Char.ofNat b.toNat

/-- The text as C sees it, one `char` for every byte. -/
def cBytes (s : List Char) : List Char := (utf8Bytes s).map byteChar

/-- The pointer `&s[n]` read as a string: the bytes of `s` from byte `n` on, defined as long
as `n` does not pass the terminator. -/
def strFrom (s : List Char) (n : Nat) : Option (List Char) :=
  if n ≤ (cBytes s).length then some ((cBytes s).drop n) else none

/-- `isspace` in the C locale. -/
def isspace (c : Char) : Bool :=
  c = ' ' || c = '\t' || c = '\n' || c = '\x0b' || c = '\x0c' || c = '\r'

/-- The value of the leading run of decimal digits, continuing from `acc`. -/
def digitsValue (acc : Nat) : List Char → Nat
  | [] => acc
  | c :: cs => if c.isDigit then digitsValue (10 * acc + (c.toNat - 48)) cs else acc

/-- The number that `atoi` reads: white space, an optional sign, then decimal digits. -/
def atoiValue (s : List Char) : Int :=
  match s.dropWhile isspace with
  | '-' :: r => -((digitsValue 0 r : Nat) : Int)
  | '+' :: r => ((digitsValue 0 r : Nat) : Int)
  | r => ((digitsValue 0 r : Nat) : Int)

/-- `atoi`; a value outside `int` is undefined behaviour. -/
def atoi (s : List Char) : Option Int :=
  if -(2 ^ 31) ≤ atoiValue s ∧ atoiValue s < 2 ^ 31 then some (atoiValue s) else none

/-! ## Namespace translation and the textual forms -/

/-- `translateNodeId`: a positive file-local index is replaced by the table entry's index. -/
def translateNodeId (namespaces : List TNamespace) (id : TNodeId) : Option TNodeId :=
  if id.nsIdx > 0 then
    match namespaces[id.nsIdx.toNat]? with
    | some e => some { id with nsIdx := toInt32 e.idx }
    | none => none
  else some id

/-- `translateBrowseName`. -/
def translateBrowseName (namespaces : List TNamespace) (bn : TBrowseName) : Option TBrowseName :=
  if bn.nsIdx > 0 then
    match namespaces[bn.nsIdx]? with
    | some e => some { bn with nsIdx := e.idx % 65536 }
    | none => none
  else some bn

/-- `extractNodedId`. The namespace index is read by `atoi` at byte 3 of the text; the `;` is a
single byte that occurs in no other character's encoding, so `strchr` cuts the text at the
same place in bytes and in characters. -/
def extractNodedId (namespaces : List TNamespace) (s : Option String) : Option TNodeId :=
  match s with
  | none => some { nsIdx := 0, id := none }
  | some s =>
    match strchr s.data ';' with
    | none => some { nsIdx := 0, id := some s }
    | some idxSemi =>
      match strFrom s.data 3 with
      | none => none
      | some t =>
        match atoi t with
        | none => none
        | some n => translateNodeId namespaces { nsIdx := n, id := some (String.mk idxSemi.tail) }

/-- `extractBrowseName`; `strchr(NULL, ..)` is undefined. `atoi` reads from the start of the
text, where white space, sign and digits are single bytes and every other character ends the
number, in bytes as in characters. -/
def extractBrowseName (namespaces : List TNamespace) (s : Option String) : Option TBrowseName :=
  match s with
  | none => none
  | some s =>
    match strchr s.data ':' with
    | none => some { nsIdx := 0, name := some s }
    | some bnName =>
      match atoi s.data with
      | none => none
      | some n =>
        translateBrowseName namespaces
          { nsIdx := toUInt16 n, name := some (String.mk bnName.tail) }

/-- Modelled from the spec: `TNodeId_cmp` is declared outside `Nodeset.c`; the spec gives
"Equality is by both fields". The result is `0` exactly for equal ids, as for `strcmp`. -/
def TNodeId_cmp (a b : TNodeId) : Int := if a = b then 0 else 1

/-! ## Records -/

/-- `Reference`; `next` is the tail of the list the record is pushed on. Until
`Nodeset_newReferenceFinish` the C record has `target.id = NULL` and an unset `target.nsIdx`,
which is `0` here. -/
structure Reference where
  isForward : Bool
  refType : TNodeId
  target : TNodeId
  deriving DecidableEq, Repr

/-- `TNode` with the fields of all class-specific extensions; the record comes from `calloc`,
so a field that the node's class does not set is `NULL` (or the zero id). The two reference
lists hold handles into `Nodeset.countedRefs`, head first. -/
structure TNode where
  nodeClass : TNodeClass
  id : TNodeId
  browseName : TBrowseName
  displayName : Option String := none
  description : Option String := none
  writeMask : Option String := none
  hierachicalRefs : List Nat := []
  nonHierachicalRefs : List Nat := []
  parentNodeId : TNodeId := ⟨0, none⟩
  eventNotifier : Option String := none
  datatype : TNodeId := ⟨0, none⟩
  valueRank : Option String := none
  arrayDimensions : Option String := none
  accessLevel : Option String := none
  userAccessLevel : Option String := none
  isAbstract : Option String := none
  executable : Option String := none
  userExecutable : Option String := none
  symmetric : Option String := none
  deriving DecidableEq, Repr

/-- `Alias`. -/
structure Alias where
  name : Option String
  id : TNodeId
  deriving DecidableEq, Repr

/-- `NodeAttribute`: the attribute's name and its default (`NULL` when there is none). -/
structure NodeAttribute where
  name : String
  defaultValue : Option String

/-- One five-field attribute record of the parser: `localname`, `prefix`, `uri` and the bytes
between `value_start` and `value_end`. -/
structure XmlAttribute where
  localname : String
  pfx : String := ""
  uri : String := ""
  value : String
  deriving DecidableEq, Repr

def attrNodeId : NodeAttribute := ⟨"NodeId", none⟩
def attrBrowseName : NodeAttribute := ⟨"BrowseName", none⟩
def attrParentNodeId : NodeAttribute := ⟨"ParentNodeId", none⟩
def attrEventNotifier : NodeAttribute := ⟨"EventNotifier", none⟩
def attrDataType : NodeAttribute := ⟨"DataType", some "i=24"⟩
def attrValueRank : NodeAttribute := ⟨"ValueRank", some "-1"⟩
def attrArrayDimensions : NodeAttribute := ⟨"ArrayDimensions", some ""⟩
def attrIsAbstract : NodeAttribute := ⟨"IsAbstract", some "false"⟩
def attrIsForward : NodeAttribute := ⟨"IsForward", some "true"⟩
def attrReferenceType : NodeAttribute := ⟨"ReferenceType", none⟩
def attrAlias : NodeAttribute := ⟨"Alias", none⟩
def attrExecutable : NodeAttribute := ⟨"Executable", some "true"⟩
def attrUserExecutable : NodeAttribute := ⟨"UserExecutable", some "true"⟩
def attrAccessLevel : NodeAttribute := ⟨"AccessLevel", some "1"⟩
def attrUserAccessLevel : NodeAttribute := ⟨"UserAccessLevel", some "1"⟩
def attrSymmetric : NodeAttribute := ⟨"Symmetric", some "false"⟩

/-- One entry of the static table `hierachicalRefs`. -/
def seedRef (id name : String) : TNode :=
  { nodeClass := NODECLASS_REFERENCETYPE, id := ⟨0, some id⟩, browseName := ⟨0, some name⟩ }

/-- The initialised part of the static array `hierachicalRefs[MAX_HIERACHICAL_REFS]`. -/
def hierachicalRefs : List TNode :=
  [ seedRef "i=35" "Organizes",
    seedRef "i=36" "HasEventSource",
    seedRef "i=48" "HasNotifier",
    seedRef "i=44" "Aggregates",
    seedRef "i=45" "HasSubtype",
    seedRef "i=47" "HasComponent",
    seedRef "i=46" "HasProperty",
    seedRef "i=47" "HasEncoding" ]

def MAX_HIERACHICAL_REFS : Nat := 50

/-- The builder state: the fields of `struct Nodeset` that `Nodeset.c` uses, and the memory
that its pointers reach.

* `countedRefs`: every reference record, in allocation order (`refsSize` is the length);
* `nodes c`: the node handles in the container of class `c` (`cnt` is the length);
* `hierachicalRefs`: the first `hierachicalRefsSize` entries of the array of that name;
* `namespaceTable`: `namespaceTable->ns` (`size` is the length);
* `heap`: the node records allocated by `Nodeset_newNode`, a node's handle is its index;
* `sortNodes`: the handles passed to `Sort_addNode`, in call order.

The array capacities (`MAX_*`) are checked nowhere in the code; the lists are unbounded and a
capacity is a property of a length. -/
structure Nodeset where
  aliasList : List Alias
  countedRefs : List Reference
  nodes : TNodeClass → List Nat
  hierachicalRefs : List TNode
  namespaceTable : List TNamespace
  heap : List TNode
  sortNodes : List Nat

/-- `Nodeset_new`. -/
def Nodeset_new : Nodeset :=
  { aliasList := []
    countedRefs := []
    nodes := fun _ => []
    hierachicalRefs := hierachicalRefs.take 8
    namespaceTable := [⟨0, some "http://opcfoundation.org/UA/"⟩]
    heap := []
    sortNodes := [] }

/-! ## Alias table -/

/-- Modelled from the spec: `AliasList_getNodeId` is in `AliasList.c`, which is not part of
the sources at hand. The spec: "if `s` matches an alias name, return its NodeId"; the first
alias of that name is returned, `none` (`NULL`) if there is none. -/
def AliasList_getNodeId (aliasList : List Alias) (name : Option String) : Option TNodeId :=
  match name with
  | none => none
  | some s => (aliasList.find? (fun a => a.name = some s)).map (fun a => a.id)

/-- Modelled from the spec: `AliasList_newAlias` is in `AliasList.c`, which is not part of
the sources at hand. The spec: "Entries added by `newAlias(name)` (name captured
immediately)"; the entry is appended with an unset id and its handle is returned. -/
def AliasList_newAlias (aliasList : List Alias) (name : Option String) : List Alias × Nat :=
  (aliasList ++ [⟨name, ⟨0, none⟩⟩], aliasList.length)

/-- `alias2Id`. -/
def alias2Id (nodeset : Nodeset) (name : Option String) : Option TNodeId :=
  match AliasList_getNodeId nodeset.aliasList name with
  | none => extractNodedId nodeset.namespaceTable name
  | some id => some id

/-! ## Attributes and nodes -/

/-- `getAttributeValue`: the value of the first attribute with the name, else the default. -/
def getAttributeValue (attr : NodeAttribute) (attributes : List XmlAttribute) : Option String :=
  match attributes.find? (fun a => a.localname = attr.name) with
  | some a => some a.value
  | none => attr.defaultValue

/-- `extractAttributes`. -/
def extractAttributes (nodeset : Nodeset) (namespaces : List TNamespace) (node : TNode)
    (attributes : List XmlAttribute) : Option TNode := do
  let id ← extractNodedId namespaces (getAttributeValue attrNodeId attributes)
  let browseName ← extractBrowseName namespaces (getAttributeValue attrBrowseName attributes)
  let node := { node with id := id, browseName := browseName }
  match node.nodeClass with
  | NODECLASS_OBJECTTYPE =>
    some { node with isAbstract := getAttributeValue attrIsAbstract attributes }
  | NODECLASS_OBJECT =>
    let parentNodeId ← extractNodedId namespaces (getAttributeValue attrParentNodeId attributes)
    some { node with
      parentNodeId := parentNodeId
      eventNotifier := getAttributeValue attrEventNotifier attributes }
  | NODECLASS_VARIABLE =>
    let parentNodeId ← extractNodedId namespaces (getAttributeValue attrParentNodeId attributes)
    let datatype ← alias2Id nodeset (getAttributeValue attrDataType attributes)
    some { node with
      parentNodeId := parentNodeId
      datatype := datatype
      valueRank := getAttributeValue attrValueRank attributes
      arrayDimensions := getAttributeValue attrArrayDimensions attributes
      accessLevel := getAttributeValue attrAccessLevel attributes
      userAccessLevel := getAttributeValue attrUserAccessLevel attributes }
  | NODECLASS_VARIABLETYPE =>
    let datatype ← alias2Id nodeset (getAttributeValue attrDataType attributes)
    some { node with
      valueRank := getAttributeValue attrValueRank attributes
      datatype := datatype
      arrayDimensions := getAttributeValue attrArrayDimensions attributes
      isAbstract := getAttributeValue attrIsAbstract attributes }
  | NODECLASS_DATATYPE => some node
  | NODECLASS_METHOD =>
    let parentNodeId ← extractNodedId namespaces (getAttributeValue attrParentNodeId attributes)
    some { node with
      parentNodeId := parentNodeId
      executable := getAttributeValue attrExecutable attributes
      userExecutable := getAttributeValue attrUserExecutable attributes }
  | NODECLASS_REFERENCETYPE =>
    some { node with symmetric := getAttributeValue attrSymmetric attributes }

/-- `initNode` on a record fresh from `calloc`. -/
def initNode (nodeset : Nodeset) (namespaces : List TNamespace) (nodeClass : TNodeClass)
    (attributes : List XmlAttribute) : Option TNode :=
  extractAttributes nodeset namespaces
    { nodeClass := nodeClass, id := ⟨0, none⟩, browseName := ⟨0, none⟩ } attributes

/-- `Nodeset_newNode`: the new record is stored behind a fresh handle, which is returned. -/
def Nodeset_newNode (nodeset : Nodeset) (nodeClass : TNodeClass)
    (attributes : List XmlAttribute) : Option (Nodeset × Nat) :=
  match initNode nodeset nodeset.namespaceTable nodeClass attributes with
  | none => none
  | some node => some ({ nodeset with heap := nodeset.heap ++ [node] }, nodeset.heap.length)

/-! ## References -/

/-- `isHierachicalReference`, on the reference type. -/
def isHierachicalReference (nodeset : Nodeset) (refType : TNodeId) : Bool :=
  nodeset.hierachicalRefs.any (fun h => TNodeId_cmp refType h.id = 0)

/-- The `for` loop of `isKnownReferenceType` over the rest of the ReferenceType container. -/
def isKnownReferenceTypeLoop (heap : List TNode) (refTypeId : TNodeId) : List Nat → Option Bool
  | [] => some false
  | h :: rest =>
    match heap[h]? with
    | none => none
    | some n =>
      if TNodeId_cmp refTypeId n.id = 0 then some true
      else isKnownReferenceTypeLoop heap refTypeId rest

/-- `isKnownReferenceType`. -/
def isKnownReferenceType (nodeset : Nodeset) (refTypeId : TNodeId) : Option Bool :=
  if refTypeId.nsIdx = 0 then some true
  else isKnownReferenceTypeLoop nodeset.heap refTypeId (nodeset.nodes NODECLASS_REFERENCETYPE)

/-- `Nodeset_newReference`: the new record gets the handle `refsSize` and is pushed on the head
of one of the two lists of `node`; the handle is returned. -/
def Nodeset_newReference (nodeset : Nodeset) (node : Nat) (attributes : List XmlAttribute) :
    Option (Nodeset × Nat) := do
  let newRef := nodeset.countedRefs.length
  let isForwardText ← getAttributeValue attrIsForward attributes
  let isForward := decide (isForwardText = "true")
  let refType ← alias2Id nodeset (getAttributeValue attrReferenceType attributes)
  let isKnownRef ← isKnownReferenceType nodeset refType
  let owner ← nodeset.heap[node]?
  let record : Reference := { isForward := isForward, refType := refType, target := ⟨0, none⟩ }
  let owner :=
    if isHierachicalReference nodeset refType || !isKnownRef then
      { owner with hierachicalRefs := newRef :: owner.hierachicalRefs }
    else
      { owner with nonHierachicalRefs := newRef :: owner.nonHierachicalRefs }
  some ({ nodeset with
            countedRefs := nodeset.countedRefs ++ [record]
            heap := nodeset.heap.set node owner }, newRef)

/-- `Nodeset_newReferenceFinish`. -/
def Nodeset_newReferenceFinish (nodeset : Nodeset) (ref : Nat) (targetId : Option String) :
    Option Nodeset := do
  let record ← nodeset.countedRefs[ref]?
  let target ← extractNodedId nodeset.namespaceTable targetId
  some { nodeset with countedRefs := nodeset.countedRefs.set ref { record with target := target } }

/-! ## Aliases and namespaces -/

/-- `Nodeset_newAlias`; the alias's handle is returned. -/
def Nodeset_newAlias (nodeset : Nodeset) (attributes : List XmlAttribute) : Nodeset × Nat :=
  let r := AliasList_newAlias nodeset.aliasList (getAttributeValue attrAlias attributes)
  ({ nodeset with aliasList := r.1 }, r.2)

/-- `Nodeset_newAliasFinish`. -/
def Nodeset_newAliasFinish (nodeset : Nodeset) (a : Nat) (idString : Option String) :
    Option Nodeset := do
  let entry ← nodeset.aliasList[a]?
  let id ← extractNodedId nodeset.namespaceTable idString
  some { nodeset with aliasList := nodeset.aliasList.set a { entry with id := id } }

/-- `Nodeset_newNamespace`: one more entry, `name = NULL`; its `idx` is unset in C until
`Nodeset_newNamespaceFinish`, and `0` here. -/
def Nodeset_newNamespace (nodeset : Nodeset) : Nodeset :=
  { nodeset with namespaceTable := nodeset.namespaceTable ++ [⟨0, none⟩] }

/-- `Nodeset_newNamespaceFinish`; `globalIdx` is the `int` that the host callback
`namespaceTable->cb` returned for the URI. -/
def Nodeset_newNamespaceFinish (nodeset : Nodeset) (globalIdx : Int)
    (namespaceUri : Option String) : Option Nodeset :=
  if nodeset.namespaceTable.length = 0 then none
  else
    some { nodeset with
      namespaceTable :=
        nodeset.namespaceTable.set (nodeset.namespaceTable.length - 1)
          ⟨toSizeT globalIdx, namespaceUri⟩ }

/-! ## Promotion of reference types -/

/-- The `while` loop of `addIfHierachicalReferenceType` over the rest of the node's
hierarchical list: `H` is the table so far, `node` the record that a match appends. -/
def addIfHierachicalReferenceTypeLoop (countedRefs : List Reference) (node : TNode) :
    List Nat → List TNode → Option (List TNode)
  | [], H => some H
  | ref :: next, H =>
    match countedRefs[ref]? with
    | none => none
    | some r =>
      if !r.isForward && H.any (fun h => TNodeId_cmp h.id r.target = 0) then
        addIfHierachicalReferenceTypeLoop countedRefs node next (H ++ [node])
      else
        addIfHierachicalReferenceTypeLoop countedRefs node next H

/-- `addIfHierachicalReferenceType`. -/
def addIfHierachicalReferenceType (nodeset : Nodeset) (node : Nat) : Option Nodeset := do
  let n ← nodeset.heap[node]?
  let H ← addIfHierachicalReferenceTypeLoop nodeset.countedRefs n n.hierachicalRefs
    nodeset.hierachicalRefs
  some { nodeset with hierachicalRefs := H }

/-- `Nodeset_newNodeFinish`; `Sort_addNode` (in `Sort.c`) records the handle. -/
def Nodeset_newNodeFinish (nodeset : Nodeset) (node : Nat) : Option Nodeset := do
  let n ← nodeset.heap[node]?
  let nodeset := { nodeset with sortNodes := nodeset.sortNodes ++ [node] }
  if n.nodeClass = NODECLASS_REFERENCETYPE then addIfHierachicalReferenceType nodeset node
  else some nodeset

/-! ## Emission -/

/-- `Nodeset_addNode`: the callback given to `Sort_start`. -/
def Nodeset_addNode (nodeset : Nodeset) (node : Nat) : Option Nodeset := do
  let n ← nodeset.heap[node]?
  some { nodeset with
    nodes := fun c => if c = n.nodeClass then nodeset.nodes c ++ [node] else nodeset.nodes c }

/-- What a call of `Sort_start(nodeset, Nodeset_addNode)` does, as far as `Nodeset.c` can
tell: the nodes it hands to the callback, in order, and the value it returns. `Sort.c` is not
part of the sources at hand: a property stated for an arbitrary `SortRun` holds for whatever
the sorter does, and `Sort_start` further down is the sorter as the specification describes
it. -/
structure SortRun where
  delivered : List Nat
  result : Bool
  deriving DecidableEq, Repr

/-- A call made by `Nodeset_getSortedNodes` to the host. -/
inductive Call
  | addNode (node : Nat)
  | deleteValue (node : Nat)
  deriving DecidableEq, Repr

/-- The order of the seven loops of `Nodeset_getSortedNodes`. -/
def phaseOrder : List TNodeClass :=
  [NODECLASS_REFERENCETYPE, NODECLASS_DATATYPE, NODECLASS_OBJECTTYPE, NODECLASS_OBJECT,
   NODECLASS_METHOD, NODECLASS_VARIABLETYPE, NODECLASS_VARIABLE]

/-- The calls of the seven loops of `Nodeset_getSortedNodes`, in order. -/
def emit (nodeset : Nodeset) : List Call :=
  (nodeset.nodes NODECLASS_REFERENCETYPE).map Call.addNode
  ++ (nodeset.nodes NODECLASS_DATATYPE).map Call.addNode
  ++ (nodeset.nodes NODECLASS_OBJECTTYPE).map Call.addNode
  ++ (nodeset.nodes NODECLASS_OBJECT).map Call.addNode
  ++ (nodeset.nodes NODECLASS_METHOD).map Call.addNode
  ++ (nodeset.nodes NODECLASS_VARIABLETYPE).map Call.addNode
  ++ (nodeset.nodes NODECLASS_VARIABLE).flatMap (fun n => [Call.addNode n, Call.deleteValue n])

/-- `Nodeset_getSortedNodes`: the state afterwards, the return value and the calls made to
`callback` and `valIf->deleteValue`, in order. -/
def Nodeset_getSortedNodes (nodeset : Nodeset) (sort : SortRun) :
    Option (Nodeset × Bool × List Call) := do
  let nodeset ← sort.delivered.foldlM Nodeset_addNode nodeset
  if !sort.result then some (nodeset, false, [])
  else some (nodeset, true, emit nodeset)

/-- The nodes passed to the `addNode` callback, in call order. -/
def emitted (calls : List Call) : List Nat :=
  calls.filterMap (fun c => match c with
    | Call.addNode n => some n
    | Call.deleteValue _ => none)

/-- The position of a class in the emission: 0 for ReferenceType up to 6 for Variable. -/
def phase : TNodeClass → Nat
  | NODECLASS_REFERENCETYPE => 0
  | NODECLASS_DATATYPE => 1
  | NODECLASS_OBJECTTYPE => 2
  | NODECLASS_OBJECT => 3
  | NODECLASS_METHOD => 4
  | NODECLASS_VARIABLETYPE => 5
  | NODECLASS_VARIABLE => 6

/-! ## Event sequences -/

/-- A call of the parser into the builder, with its arguments. -/
inductive Event
  | newNode (nodeClass : TNodeClass) (attributes : List XmlAttribute)
  | newNodeFinish (node : Nat)
  | newReference (node : Nat) (attributes : List XmlAttribute)
  | newReferenceFinish (ref : Nat) (targetId : Option String)
  | newAlias (attributes : List XmlAttribute)
  | newAliasFinish (a : Nat) (idString : Option String)
  | newNamespace
  | newNamespaceFinish (globalIdx : Int) (namespaceUri : Option String)

/-- The builder state after one event. -/
def step (nodeset : Nodeset) : Event → Option Nodeset
  | Event.newNode c attrs => (Nodeset_newNode nodeset c attrs).map (fun r => r.1)
  | Event.newNodeFinish n => Nodeset_newNodeFinish nodeset n
  | Event.newReference n attrs => (Nodeset_newReference nodeset n attrs).map (fun r => r.1)
  | Event.newReferenceFinish r t => Nodeset_newReferenceFinish nodeset r t
  | Event.newAlias attrs => some (Nodeset_newAlias nodeset attrs).1
  | Event.newAliasFinish a t => Nodeset_newAliasFinish nodeset a t
  | Event.newNamespace => some (Nodeset_newNamespace nodeset)
  | Event.newNamespaceFinish g uri => Nodeset_newNamespaceFinish nodeset g uri

/-- The builder state after a sequence of events. -/
def run (nodeset : Nodeset) (events : List Event) : Option Nodeset :=
  events.foldlM step nodeset

/-! ## Vocabulary of the statements -/

/-- The number written by a string of decimal digits. -/
def decimalValue (ds : List Char) : Nat :=
  ds.foldl (fun acc c => 10 * acc + (c.toNat - 48)) 0

/-- Every character is a decimal digit. -/
def allDigits (ds : List Char) : Prop := ∀ c ∈ ds, c.isDigit = true

instance (ds : List Char) : Decidable (allDigits ds) := by
  unfold allDigits; infer_instance

/-- The class of the node behind a handle. -/
def classOf (heap : List TNode) (h : Nat) : Option TNodeClass :=
  (heap[h]?).map (fun n => n.nodeClass)

/-- Every container holds nodes of its own class only, as `Nodeset_addNode` files them. -/
def classContainers (nodeset : Nodeset) : Prop :=
  ∀ c h, h ∈ nodeset.nodes c → classOf nodeset.heap h = some c

/-- Node `u` owns, in its hierarchical list, a forward reference to node `v` whose reference
type is in the hierarchical set. -/
def hierarchicalForwardEdge (nodeset : Nodeset) (u v : Nat) : Bool :=
  match nodeset.heap[u]?, nodeset.heap[v]? with
  | some nu, some nv =>
    nu.hierachicalRefs.any (fun r =>
      match nodeset.countedRefs[r]? with
      | some ref =>
        ref.isForward && decide (ref.target = nv.id)
          && isHierachicalReference nodeset ref.refType
      | none => false)
  | _, _ => false

/-- An attribute record with a name and a value. -/
def attr (localname value : String) : XmlAttribute := { localname := localname, value := value }

/-- Events of a small nodeset: the Object `i=5001`, node 0, with a forward `Organizes`
(`i=35`) reference to the ObjectType `i=5000`, node 1. -/
def machineEvents : List Event :=
  [ Event.newNode NODECLASS_OBJECT [attr "NodeId" "i=5001", attr "BrowseName" "Machine"],
    Event.newReference 0 [attr "ReferenceType" "i=35"],
    Event.newReferenceFinish 0 (some "i=5000"),
    Event.newNodeFinish 0,
    Event.newNode NODECLASS_OBJECTTYPE [attr "NodeId" "i=5000", attr "BrowseName" "MachineType"],
    Event.newNodeFinish 1 ]

/-- The builder state after `machineEvents`. -/
def machineState : Nodeset := (run Nodeset_new machineEvents).getD Nodeset_new

/-- The Object node 0 of `machineEvents` as it is in `machineState`. -/
def machineNode : TNode :=
  { nodeClass := NODECLASS_OBJECT, id := ⟨0, some "i=5001"⟩, browseName := ⟨0, some "Machine"⟩,
    hierachicalRefs := [0] }

/-- The events of a list of namespace declarations, each with the index that the host
callback returns for it and its URI. -/
def namespaceEvents (decls : List (Nat × String)) : List Event :=
  decls.flatMap (fun d =>
    [Event.newNamespace, Event.newNamespaceFinish (d.1 : Int) (some d.2)])

/-- In the state `nodeset` the NodeId text `text` is parsed to `id`, and `id` is what each of
the operations that parse a NodeId stores for it: `Nodeset_newNode` for the `NodeId` and
`ParentNodeId` attributes, `Nodeset_newReferenceFinish` for the target and
`Nodeset_newAliasFinish` for the alias value. -/
def storesNodeId (nodeset : Nodeset) (text : String) (id : TNodeId) : Prop :=
  extractNodedId nodeset.namespaceTable (some text) = some id ∧
  (∀ c attrs st h, getAttributeValue attrNodeId attrs = some text →
    Nodeset_newNode nodeset c attrs = some (st, h) →
    (st.heap[h]?).map (fun n => n.id) = some id) ∧
  (∀ c attrs st h,
    c = NODECLASS_OBJECT ∨ c = NODECLASS_VARIABLE ∨ c = NODECLASS_METHOD →
    getAttributeValue attrParentNodeId attrs = some text →
    Nodeset_newNode nodeset c attrs = some (st, h) →
    (st.heap[h]?).map (fun n => n.parentNodeId) = some id) ∧
  (∀ r st, Nodeset_newReferenceFinish nodeset r (some text) = some st →
    (st.countedRefs[r]?).map (fun x => x.target) = some id) ∧
  (∀ a st, Nodeset_newAliasFinish nodeset a (some text) = some st →
    (st.aliasList[a]?).map (fun x => x.id) = some id)

/-- The id is in the hierarchical set `H`: it is the id of an entry of `hierachicalRefs`. -/
def inH (nodeset : Nodeset) (id : TNodeId) : Prop :=
  id ∈ nodeset.hierachicalRefs.map (fun h => h.id)

instance (nodeset : Nodeset) (id : TNodeId) : Decidable (inH nodeset id) := by
  unfold inH; infer_instance

/-- The id is the id of a node in the ReferenceType container. -/
def inReferenceTypeContainer (nodeset : Nodeset) (id : TNodeId) : Prop :=
  ∃ h ∈ nodeset.nodes NODECLASS_REFERENCETYPE, ∃ n, nodeset.heap[h]? = some n ∧ n.id = id

/-- Events with the alias `HasComponent = i=47` declared before a reference of node 0 uses
it as its reference type. -/
def aliasBeforeUse : List Event :=
  [ Event.newNode NODECLASS_OBJECT [attr "NodeId" "i=5001", attr "BrowseName" "Machine"],
    Event.newAlias [attr "Alias" "HasComponent"],
    Event.newAliasFinish 0 (some "i=47"),
    Event.newReference 0 [attr "ReferenceType" "HasComponent"] ]

/-- The events of `aliasBeforeUse` with the alias declaration moved behind the use. -/
def aliasAfterUse : List Event :=
  [ Event.newNode NODECLASS_OBJECT [attr "NodeId" "i=5001", attr "BrowseName" "Machine"],
    Event.newReference 0 [attr "ReferenceType" "HasComponent"],
    Event.newAlias [attr "Alias" "HasComponent"],
    Event.newAliasFinish 0 (some "i=47") ]

/-- Events of the scenario of the spec: the namespace `urn:acme` with global index 1, and
the ReferenceType `ns=1;i=5000` "Controls", node 0, with an inverse `HasSubtype` (`i=45`)
reference to `HasComponent` (`i=47`), not yet finished. -/
def controlsEvents : List Event :=
  [ Event.newNamespace,
    Event.newNamespaceFinish 1 (some "urn:acme"),
    Event.newNode NODECLASS_REFERENCETYPE
      [attr "NodeId" "ns=1;i=5000", attr "BrowseName" "1:Controls"],
    Event.newReference 0 [attr "ReferenceType" "i=45", attr "IsForward" "false"],
    Event.newReferenceFinish 0 (some "i=47") ]

/-- The builder state after `controlsEvents`. -/
def controlsState : Nodeset := (run Nodeset_new controlsEvents).getD Nodeset_new

/-- Events in which the ReferenceType `ns=1;i=5001` "Drives", node 0, a subtype of "Controls",
is parsed and finished before "Controls", `ns=1;i=5000`, node 1, itself a subtype of
`HasComponent` (`i=47`). -/
def subtypeFirstEvents : List Event :=
  [ Event.newNamespace,
    Event.newNamespaceFinish 1 (some "urn:acme"),
    Event.newNode NODECLASS_REFERENCETYPE
      [attr "NodeId" "ns=1;i=5001", attr "BrowseName" "1:Drives"],
    Event.newReference 0 [attr "ReferenceType" "i=45", attr "IsForward" "false"],
    Event.newReferenceFinish 0 (some "ns=1;i=5000"),
    Event.newNodeFinish 0,
    Event.newNode NODECLASS_REFERENCETYPE
      [attr "NodeId" "ns=1;i=5000", attr "BrowseName" "1:Controls"],
    Event.newReference 1 [attr "ReferenceType" "i=45", attr "IsForward" "false"],
    Event.newReferenceFinish 1 (some "i=47"),
    Event.newNodeFinish 1 ]

/-- The builder state after `subtypeFirstEvents`. -/
def subtypeFirstState : Nodeset := (run Nodeset_new subtypeFirstEvents).getD Nodeset_new

/-- Events right after `Nodeset_new`: the Object `i=5001`, node 0, gets a reference with the
reference type `i=38`, the id of HasEncoding in the OPC UA namespace. -/
def encodingEvents : List Event :=
  [ Event.newNode NODECLASS_OBJECT [attr "NodeId" "i=5001", attr "BrowseName" "Machine"],
    Event.newReference 0 [attr "ReferenceType" "i=38"] ]

/-- The value that an attribute list supplies for an attribute name, if it has the
attribute. -/
def suppliedValue (name : String) (attributes : List XmlAttribute) : Option String :=
  (attributes.find? (fun a => a.localname = name)).map (fun a => a.value)

/-- The supplied value of an attribute, or the documented default when the list omits it. -/
def valueOrDefault (name dflt : String) (attributes : List XmlAttribute) : String :=
  (suppliedValue name attributes).getD dflt

/-- The nodes whose value is passed to `valueInterface.deleteValue`, in call order. -/
def deleted (calls : List Call) : List Nat :=
  calls.filterMap (fun c => match c with
    | Call.addNode _ => none
    | Call.deleteValue n => some n)

/-- Events of a nodeset with the Variable `i=1001`, node 0, and the Object `i=5001`,
node 1. -/
def speedEvents : List Event :=
  [ Event.newNode NODECLASS_VARIABLE [attr "NodeId" "i=1001", attr "BrowseName" "Speed"],
    Event.newNodeFinish 0,
    Event.newNode NODECLASS_OBJECT [attr "NodeId" "i=5001", attr "BrowseName" "Machine"],
    Event.newNodeFinish 1 ]

/-- The builder state after `speedEvents`. -/
def speedState : Nodeset := (run Nodeset_new speedEvents).getD Nodeset_new

/-- The state `st'` continues `st`: reference records keep their type and direction, nodes keep
class and id and only get new, later references pushed on their lists, nodes allocated since
hold later references only, the hierarchical set is extended at its end and the containers
are untouched. -/
structure Extends (st st' : Nodeset) : Prop where
  refs_len : st.countedRefs.length ≤ st'.countedRefs.length
  refs_keep : ∀ (i : Nat) (ref : Reference), st.countedRefs[i]? = some ref →
    ∃ ref' : Reference, st'.countedRefs[i]? = some ref' ∧ ref'.refType = ref.refType ∧
      ref'.isForward = ref.isForward
  heap_len : st.heap.length ≤ st'.heap.length
  heap_keep : ∀ (k : Nat) (n : TNode), st.heap[k]? = some n →
    ∃ (n' : TNode) (new1 new2 : List Nat), st'.heap[k]? = some n' ∧ n'.nodeClass = n.nodeClass ∧ n'.id = n.id ∧
      n'.hierachicalRefs = new1 ++ n.hierachicalRefs ∧
      n'.nonHierachicalRefs = new2 ++ n.nonHierachicalRefs ∧
      ∀ x, x ∈ new1 ∨ x ∈ new2 → st.countedRefs.length ≤ x ∧ x < st'.countedRefs.length
  heap_new : ∀ (k : Nat) (n' : TNode), st.heap.length ≤ k → st'.heap[k]? = some n' →
    ∀ x, x ∈ n'.hierachicalRefs ∨ x ∈ n'.nonHierachicalRefs →
      st.countedRefs.length ≤ x ∧ x < st'.countedRefs.length
  h_keep : ∃ added, st'.hierachicalRefs = st.hierachicalRefs ++ added
  nodes_keep : st'.nodes = st.nodes

/-- Events in which the user-defined ReferenceType `ns=1;i=6000`, node 0, is parsed and
finished with no reference of its own, and afterwards the Object `ns=1;i=10`, node 1, gets a
reference of that type. -/
def parsedTypeEvents : List Event :=
  [ Event.newNamespace,
    Event.newNamespaceFinish 1 (some "urn:acme"),
    Event.newNode NODECLASS_REFERENCETYPE
      [attr "NodeId" "ns=1;i=6000", attr "BrowseName" "1:Mentions"],
    Event.newNodeFinish 0,
    Event.newNode NODECLASS_OBJECT [attr "NodeId" "ns=1;i=10", attr "BrowseName" "1:Machine"],
    Event.newReference 1 [attr "ReferenceType" "ns=1;i=6000"] ]

/-- The builder state after `parsedTypeEvents`. -/
def parsedTypeState : Nodeset := (run Nodeset_new parsedTypeEvents).getD Nodeset_new

/-- Events in which the ReferenceType `ns=1;i=5000`, node 0, has two inverse `HasSubtype`
(`i=45`) references, to `i=47` and to `i=35`, and is finished by the last event. -/
def twoParentsEvents : List Event :=
  [ Event.newNamespace,
    Event.newNamespaceFinish 1 (some "urn:acme"),
    Event.newNode NODECLASS_REFERENCETYPE
      [attr "NodeId" "ns=1;i=5000", attr "BrowseName" "1:Controls"],
    Event.newReference 0 [attr "ReferenceType" "i=45", attr "IsForward" "false"],
    Event.newReferenceFinish 0 (some "i=47"),
    Event.newReference 0 [attr "ReferenceType" "i=45", attr "IsForward" "false"],
    Event.newReferenceFinish 1 (some "i=35"),
    Event.newNodeFinish 0 ]

/-- The builder state of `twoParentsEvents` before the last event, the finish of node 0. -/
def twoParentsState : Nodeset := (run Nodeset_new (twoParentsEvents.take 7)).getD Nodeset_new

/-- The ReferenceType node 0 of `twoParentsEvents` as it is in `twoParentsState`. -/
def twoParentsNode : TNode :=
  { nodeClass := NODECLASS_REFERENCETYPE, id := ⟨1, some "i=5000"⟩,
    browseName := ⟨1, some "Controls"⟩, hierachicalRefs := [1, 0], symmetric := some "false" }

/-- The reference `r` is inverse and its target is in the hierarchical set of `nodeset`. -/
def promotes (nodeset : Nodeset) (r : Nat) : Bool :=
  match nodeset.countedRefs[r]? with
  | some ref => !ref.isForward && decide (inH nodeset ref.target)
  | none => false

/-- The references on the hierarchical list of the node `n` that are inverse and have their
target in the hierarchical set of `nodeset`, in the order of the list. -/
def promotingRefs (nodeset : Nodeset) (n : TNode) : List Nat :=
  n.hierachicalRefs.filter (promotes nodeset)

/-- The events of one user-defined ReferenceType `ns=1;i=<5000+k>`, node `k` with reference
`k`, a subtype of `HasComponent` (`i=47`), parsed and finished. -/
def subtypeEvents (k : Nat) : List Event :=
  [ Event.newNode NODECLASS_REFERENCETYPE
      [attr "NodeId" ("ns=1;i=" ++ toString (5000 + k)), attr "BrowseName" "1:Controls"],
    Event.newReference k [attr "ReferenceType" "i=45", attr "IsForward" "false"],
    Event.newReferenceFinish k (some "i=47"),
    Event.newNodeFinish k ]

/-- Events of a nodeset that declares the namespace `urn:acme` and `count` ReferenceTypes
`ns=1;i=5000`, `ns=1;i=5001`, ..., each a subtype of `HasComponent`. -/
def manySubtypesEvents (count : Nat) : List Event :=
  [Event.newNamespace, Event.newNamespaceFinish 1 (some "urn:acme")]
    ++ (List.range count).flatMap subtypeEvents

/-! ## The sorter -/

/-- Modelled from the spec: `Sort.c` is missing, and with it the pass of `Sort_start` over the
references; the spec gives "At finalize, the sorter (a) re-classifies every reference using
the now-closed `H` (a reference conservatively marked hierarchical at creation but whose type
is still unknown remains hierarchical" and "a reference once classified hierarchical stays
hierarchical unless its type is proven non-hierarchical by being in namespace 0 and not in H
at finalize". The function is applied to references on a hierarchical list. -/
def staysHierarchical (nodeset : Nodeset) (ref : Reference) : Bool :=
  !(decide (ref.refType.nsIdx = 0) && !isHierachicalReference nodeset ref.refType)

/-- Modelled from the spec: `Sort.c` is missing, and with it the edges that `Sort_start`
orders by; the spec gives "for each hierarchical reference `u —r→ v` where `r ∈ H` at emission
time and `isForward=true`, `u` precedes `v`. Equivalently, the inverse edges
(`isForward=false`) in `v`'s list identify v's parents" and "Non-hierarchical references do
not contribute to ordering". There is an edge from `u` to `v` when `u` has a forward
hierarchical reference to the id of `v` or `v` has an inverse one to the id of `u`. -/
def sortEdge (nodeset : Nodeset) (u v : Nat) : Bool :=
  match nodeset.heap[u]?, nodeset.heap[v]? with
  | some nu, some nv =>
    nu.hierachicalRefs.any (fun r =>
      match nodeset.countedRefs[r]? with
      | some ref =>
        ref.isForward && decide (ref.target = nv.id) && staysHierarchical nodeset ref
      | none => false)
    || nv.hierachicalRefs.any (fun r =>
      match nodeset.countedRefs[r]? with
      | some ref =>
        !ref.isForward && decide (ref.target = nu.id) && staysHierarchical nodeset ref
      | none => false)
  | _, _ => false

/-- Modelled from the spec: `Sort.c` is missing, and with it the check of `Sort_start` for
the failure "a node referenced as parent is missing": every inverse hierarchical reference of
a node given to the sorter has the id of a node given to the sorter as its target. -/
def parentsPresent (nodeset : Nodeset) : Bool :=
  nodeset.sortNodes.all (fun v =>
    match nodeset.heap[v]? with
    | some nv =>
      nv.hierachicalRefs.all (fun r =>
        match nodeset.countedRefs[r]? with
        | some ref =>
          ref.isForward || !staysHierarchical nodeset ref
            || nodeset.sortNodes.any (fun p =>
              decide ((nodeset.heap[p]?).map (fun n => n.id) = some ref.target))
        | none => true)
    | none => true)

/-- Modelled from the spec: `Sort.c` is missing, and with it the nodes of one phase of
`Sort_start`; the spec gives "phase-partitioned" and "insertion order (the order
`newNodeFinish` was called)". The nodes of class `c` that `Sort_addNode` recorded, in the
order in which they were finished. -/
def phaseNodes (nodeset : Nodeset) (c : TNodeClass) : List Nat :=
  nodeset.sortNodes.filter (fun h => classOf nodeset.heap h = some c)

/-- Modelled from the spec: `Sort.c` is missing, and with it the loop of `Sort_start` within
a phase; the spec gives "Kahn-style topological sort" and "(c) emits nodes in FIFO queue
order within phase". The head `n` of the queue is emitted, the in-degree of its successors
goes down by one, and the successors that reach zero join the queue at its end, in insertion
order. `fuel` bounds the number of nodes emitted; `sortPhase` gives it the number of nodes of
the phase. -/
def kahnLoop (edge : Nat → Nat → Bool) (nodes : List Nat) :
    Nat → (Nat → Nat) → List Nat → List Nat → List Nat
  | 0, _, _, out => out
  | _ + 1, _, [], out => out
  | fuel + 1, indeg, n :: queue, out =>
    kahnLoop edge nodes fuel (fun s => if edge n s then indeg s - 1 else indeg s)
      (queue ++ nodes.filter (fun s => edge n s && (indeg s - 1 == 0))) (out ++ [n])

/-- Modelled from the spec: `Sort.c` is missing, and with it the sort of one phase by
`Sort_start`; the spec gives "(b) builds in-degree per node over hierarchical forward edges,
(c) emits nodes in FIFO queue order within phase" and "A cycle within a phase is a hard
error". The queue starts with the nodes of in-degree zero in insertion order; when the queue
is empty and a node of the phase is not emitted, the phase has a cycle and the result is
`none`. -/
def sortPhase (edge : Nat → Nat → Bool) (nodes : List Nat) : Option (List Nat) :=
  let indeg := fun s => (nodes.filter (fun m => edge m s)).length
  let out := kahnLoop edge nodes nodes.length indeg (nodes.filter (fun s => indeg s == 0)) []
  if out.length = nodes.length then some out else none

/-- Modelled from the spec: `Sort.c` is missing, and with it the walk of `Sort_start` over
the phases; the spec gives "advancing phases when the current phase's queue empties". The
nodes of the phases `cs`, phase after phase, or `none` when a phase has a cycle. -/
def sortPhases (nodeset : Nodeset) : List TNodeClass → Option (List Nat)
  | [] => some []
  | c :: cs => do
    let out ← sortPhase (sortEdge nodeset) (phaseNodes nodeset c)
    let rest ← sortPhases nodeset cs
    some (out ++ rest)

/-- Modelled from the spec: `Sort_start` is called by `Nodeset_getSortedNodes` and defined in
`Sort.c`, which is missing; the spec gives "Kahn-style topological sort over the sub-DAG
induced by hierarchical references only, phase-partitioned", with the phases "ReferenceType →
DataType → ObjectType → Object → Method → VariableType → Variable", and "Sort failure — cycle
detected in hierarchical forward edges within a phase, or a node referenced as parent is
missing. `getSortedNodes` returns `false`; no partial emission". On a failure no node is
handed to `Nodeset_addNode`. -/
def Sort_start (nodeset : Nodeset) : SortRun :=
  if parentsPresent nodeset then
    match sortPhases nodeset phaseOrder with
    | some delivered => ⟨delivered, true⟩
    | none => ⟨[], false⟩
  else ⟨[], false⟩

/-- The state of the loop of `kahnLoop` is consistent: queue and output hold nodes of the
phase, none twice; the counter of a node is at least the number of its predecessors not yet
emitted; the predecessors of a node in the queue or in the output are in the output; and in
the output no node has an edge to itself or to a node before it. -/
structure KahnInv (edge : Nat → Nat → Bool) (nodes : List Nat) (indeg : Nat → Nat)
    (queue out : List Nat) : Prop where
  nodup : (queue ++ out).Nodup
  queue_sub : ∀ s ∈ queue, s ∈ nodes
  out_sub : ∀ s ∈ out, s ∈ nodes
  indeg_ge : ∀ s, (nodes.filter (fun m => edge m s && !decide (m ∈ out))).length ≤ indeg s
  queue_free : ∀ s ∈ queue, ∀ m ∈ nodes, edge m s = true → m ∈ out
  closed : ∀ v ∈ out, ∀ m ∈ nodes, edge m v = true → m ∈ out
  topo : out.Pairwise (fun a b => edge b a = false)
  noloop : ∀ x ∈ out, edge x x = false

/-- Events of a nodeset in which the child is finished before its parent: the Object
`i=5002`, node 0, and then the Object `i=5001`, node 1, with a forward `Organizes` (`i=35`)
reference to `i=5002`. -/
def parentLastEvents : List Event :=
  [ Event.newNode NODECLASS_OBJECT [attr "NodeId" "i=5002", attr "BrowseName" "Axis"],
    Event.newNodeFinish 0,
    Event.newNode NODECLASS_OBJECT [attr "NodeId" "i=5001", attr "BrowseName" "Machine"],
    Event.newReference 1 [attr "ReferenceType" "i=35"],
    Event.newReferenceFinish 0 (some "i=5002"),
    Event.newNodeFinish 1 ]

/-- The builder state after `parentLastEvents`. -/
def parentLastState : Nodeset := (run Nodeset_new parentLastEvents).getD Nodeset_new

/-- Events of the cycle of the spec: the ObjectTypes `i=5000`, node 0, and `i=5001`, node 1,
each with a forward `HasSubtype` (`i=45`) reference to the other. -/
def cycleEvents : List Event :=
  [ Event.newNode NODECLASS_OBJECTTYPE [attr "NodeId" "i=5000", attr "BrowseName" "A"],
    Event.newReference 0 [attr "ReferenceType" "i=45"],
    Event.newReferenceFinish 0 (some "i=5001"),
    Event.newNodeFinish 0,
    Event.newNode NODECLASS_OBJECTTYPE [attr "NodeId" "i=5001", attr "BrowseName" "B"],
    Event.newReference 1 [attr "ReferenceType" "i=45"],
    Event.newReferenceFinish 1 (some "i=5000"),
    Event.newNodeFinish 1 ]

/-- The builder state after `cycleEvents`. -/
def cycleState : Nodeset := (run Nodeset_new cycleEvents).getD Nodeset_new

/-! ## Lemmas on the string functions -/

theorem strchr_eq_none {c : Char} : ∀ {s : List Char}, c ∉ s → strchr s c = none
  | [], _ => rfl
  | x :: xs, h => by
    have hx : x ≠ c := fun e => h (by simp [e])
    have hxs : c ∉ xs := fun e => h (by simp [e])
    simp [strchr, hx, strchr_eq_none hxs]

theorem strchr_append {c : Char} (r : List Char) :
    ∀ {p : List Char}, c ∉ p → strchr (p ++ c :: r) c = some (c :: r)
  | [], _ => by simp [strchr]
  | x :: xs, h => by
    have hx : x ≠ c := fun e => h (by simp [e])
    have hxs : c ∉ xs := fun e => h (by simp [e])
    simp [strchr, hx, strchr_append r hxs]

theorem cBytes_cons_ascii (c : Char) (l : List Char) (h : c.val ≤ 0x7f) :
    cBytes (c :: l) = c :: cBytes l := by
  have h1 : String.utf8EncodeChar c = [c.val.toUInt8] := by
    simp [String.utf8EncodeChar, h]
  have h2 : byteChar c.val.toUInt8 = c := by
    unfold byteChar
    have hlt : c.val.toNat < 256 := by
      have : c.val.toNat ≤ 127 := h
      omega
    have : (c.val.toUInt8).toNat = c.toNat := by
      show (UInt8.ofNat c.val.toNat).toNat = c.val.toNat
      exact UInt8.toNat_ofNat_of_lt hlt
    rw [this, Char.ofNat_toNat]
  simp [cBytes, utf8Bytes, List.flatMap_cons, h1, h2]

theorem isDigit_ascii {c : Char} (h : c.isDigit = true) : c.val ≤ 0x7f := by
  simp only [Char.isDigit, Bool.and_eq_true, decide_eq_true_eq] at h
  have h2 : c.val.toNat ≤ 57 := h.2
  show c.val.toNat ≤ 127
  omega

/-- Decimal digits are single bytes: a text that starts with digits starts with the same
digits in bytes. -/
theorem cBytes_digits_append : ∀ (ds l : List Char), (∀ c ∈ ds, c.isDigit = true) →
    cBytes (ds ++ l) = ds ++ cBytes l
  | [], _, _ => rfl
  | d :: ds, l, h => by
    rw [List.cons_append, cBytes_cons_ascii d _ (isDigit_ascii (h d (by simp))),
      cBytes_digits_append ds l (fun c hc => h c (by simp [hc]))]
    rfl

theorem digitsValue_append {c : Char} (hc : c.isDigit = false) (r : List Char) :
    ∀ (ds : List Char) (acc : Nat), allDigits ds →
      digitsValue acc (ds ++ c :: r) = ds.foldl (fun a d => 10 * a + (d.toNat - 48)) acc
  | [], acc, _ => by simp [digitsValue, hc]
  | d :: ds, acc, h => by
    have hd : d.isDigit = true := h d (by simp)
    have hds : allDigits ds := fun x hx => h x (by simp [hx])
    simp [digitsValue, hd, digitsValue_append hc r ds _ hds]

theorem isDigit_not_special {d : Char} (hd : d.isDigit = true) :
    isspace d = false ∧ d ≠ '-' ∧ d ≠ '+' := by
  refine ⟨?_, ?_, ?_⟩
  · cases h : isspace d
    · rfl
    · exfalso
      simp only [isspace, Bool.or_eq_true, decide_eq_true_eq] at h
      rcases h with ((((h | h) | h) | h) | h) | h <;> subst h <;> simp at hd
  · rintro rfl; revert hd; decide
  · rintro rfl; revert hd; decide

theorem atoiValue_digits {c : Char} (hc : c.isDigit = false) (hs : isspace c = false)
    (hm : c ≠ '-') (hp : c ≠ '+') (ds r : List Char) (hds : allDigits ds) :
    atoiValue (ds ++ c :: r) = (decimalValue ds : Int) := by
  have hval := digitsValue_append hc r ds 0 hds
  cases ds with
  | nil =>
    simp only [List.nil_append] at hval ⊢
    unfold atoiValue
    simp only [List.dropWhile, hs]
    split
    · rename_i h; simp at h; exact absurd h.1 hm
    · rename_i h; simp at h; exact absurd h.1 hp
    · rw [hval]; rfl
  | cons d ds =>
    have hd : d.isDigit = true := hds d (by simp)
    obtain ⟨h1, h2, h3⟩ := isDigit_not_special hd
    simp only [List.cons_append] at hval ⊢
    unfold atoiValue
    simp only [List.dropWhile, h1]
    split
    · rename_i h; simp at h; exact absurd h.1 h2
    · rename_i h; simp at h; exact absurd h.1 h3
    · rw [hval]; rfl

/-- `atoi` of a string of digits followed by a separator is the number written. -/
theorem atoi_digits {c : Char} (hc : c.isDigit = false) (hs : isspace c = false)
    (hm : c ≠ '-') (hp : c ≠ '+') (ds r : List Char) (hds : allDigits ds)
    (hv : decimalValue ds < 2 ^ 31) :
    atoi (ds ++ c :: r) = some (decimalValue ds : Int) := by
  have hrange : -(2 ^ 31 : Int) ≤ (decimalValue ds : Int) ∧ (decimalValue ds : Int) < 2 ^ 31 := by
    constructor
    · have : (0 : Int) ≤ (decimalValue ds : Int) := Int.ofNat_nonneg _
      omega
    · exact_mod_cast hv
  unfold atoi
  rw [atoiValue_digits hc hs hm hp ds r hds, if_pos hrange]

/-! ## NodeId and BrowseName texts -/

/-- C3, as stated, fails: the text `s=a;b` does not begin with `ns=`, and `extractNodedId`
does not return it whole with namespace 0; it cuts at the `;` and returns `(0, "b")`. -/
theorem extractNodedId_semicolon_without_prefix :
    ¬ ("ns=".data <+: "s=a;b".data) ∧
    extractNodedId Nodeset_new.namespaceTable (some "s=a;b") = some ⟨0, some "b"⟩ ∧
    extractNodedId Nodeset_new.namespaceTable (some "s=a;b") ≠ some ⟨0, some "s=a;b"⟩ := by
  decide

/-- C3, amended: for every namespace table, `extractNodedId` returns `(0, s)` for every text
`s` without a `;`, and for a text `ns=<k>;<rest>`, `k` written in decimal digits and an index
of the table, it returns `rest` with the translation of `k`: `0` for `k = 0` and the index
stored in entry `k` of the table (as an `int`) otherwise. -/
theorem extractNodedId_forms (namespaces : List TNamespace) (s ds rest : String)
    (e : TNamespace) (hs : ';' ∉ s.data) (hds : allDigits ds.data)
    (hv : decimalValue ds.data < 2 ^ 31)
    (he : namespaces[decimalValue ds.data]? = some e) :
    extractNodedId namespaces (some s) = some ⟨0, some s⟩ ∧
    extractNodedId namespaces (some ("ns=" ++ ds ++ ";" ++ rest)) =
      some ⟨if 0 < decimalValue ds.data then toInt32 e.idx else 0, some rest⟩ := by
  constructor
  · simp [extractNodedId, strchr_eq_none hs]
  · have hsemi : ';' ∉ 'n' :: 's' :: '=' :: ds.data := by
      intro h
      simp only [List.mem_cons] at h
      rcases h with h | h | h | h
      · exact absurd h (by decide)
      · exact absurd h (by decide)
      · exact absurd h (by decide)
      · exact absurd (hds _ h) (by decide)
    have hdata : ("ns=" ++ ds ++ ";" ++ rest).data
        = ('n' :: 's' :: '=' :: ds.data) ++ ';' :: rest.data := by
      simp [String.data_append]
    have hchr := strchr_append rest.data hsemi
    have hatoi := atoi_digits (c := ';') (by decide) (by decide) (by decide) (by decide)
      ds.data (cBytes rest.data) hds hv
    unfold extractNodedId
    simp only [hdata, hchr]
    have hbytes : cBytes ('n' :: 's' :: '=' :: ds.data ++ ';' :: rest.data)
        = 'n' :: 's' :: '=' :: (ds.data ++ ';' :: cBytes rest.data) := by
      rw [List.cons_append, List.cons_append, List.cons_append,
        cBytes_cons_ascii 'n' _ (by decide), cBytes_cons_ascii 's' _ (by decide),
        cBytes_cons_ascii '=' _ (by decide), cBytes_digits_append ds.data _ hds,
        cBytes_cons_ascii ';' _ (by decide)]
    have hfrom : strFrom ('n' :: 's' :: '=' :: ds.data ++ ';' :: rest.data) 3
        = some (ds.data ++ ';' :: cBytes rest.data) := by
      unfold strFrom
      rw [hbytes]
      simp
    simp only [hfrom, hatoi, translateNodeId, List.tail_cons]
    by_cases hk : 0 < decimalValue ds.data
    · have hk2 : ((decimalValue ds.data : Nat) : Int) > 0 := by exact_mod_cast hk
      simp [hk, hk2, he]
    · have hk2 : ¬ ((decimalValue ds.data : Nat) : Int) > 0 := by
        simp only [gt_iff_lt, Int.natCast_pos]; exact hk
      have h0 : decimalValue ds.data = 0 := by omega
      simp [hk2, h0]

/-- The amended C3 at the texts of the spec: `i=85`, and `ns=1;i=10` with global index 7. -/
theorem extractNodedId_forms_witness :
    extractNodedId [⟨0, some "http://opcfoundation.org/UA/"⟩, ⟨7, some "urn:acme"⟩]
        (some "i=85") = some ⟨0, some "i=85"⟩ ∧
    extractNodedId [⟨0, some "http://opcfoundation.org/UA/"⟩, ⟨7, some "urn:acme"⟩]
        (some "ns=1;i=10") = some ⟨7, some "i=10"⟩ :=
  extractNodedId_forms [⟨0, some "http://opcfoundation.org/UA/"⟩, ⟨7, some "urn:acme"⟩]
    "i=85" "1" "i=10" ⟨7, some "urn:acme"⟩ (by decide) (by decide) (by decide) (by decide)

/-- The namespace index is read at byte 3 of the text, not at its fourth character: in
`é=1;x` the `é` takes two bytes and `atoi` reads `1;x`, in `s=é1;x` it reads the second byte of
`é` and returns 0. -/
theorem extractNodedId_index_at_byte_three :
    extractNodedId [⟨0, some "http://opcfoundation.org/UA/"⟩, ⟨7, some "urn:acme"⟩]
        (some "é=1;x") = some ⟨7, some "x"⟩ ∧
    extractNodedId [⟨0, some "http://opcfoundation.org/UA/"⟩, ⟨7, some "urn:acme"⟩]
        (some "s=é1;x") = some ⟨0, some "x"⟩ := by
  decide

/-- C4, as stated, fails: the text `a:b` has no numeric index in front of its `:`, and
`extractBrowseName` does not return it whole; it cuts at the `:` and returns `(0, "b")`. -/
theorem extractBrowseName_colon_in_bare_name :
    (∀ ds name : List Char, ds ≠ [] → allDigits ds → "a:b".data ≠ ds ++ ':' :: name) ∧
    extractBrowseName Nodeset_new.namespaceTable (some "a:b") = some ⟨0, some "b"⟩ ∧
    extractBrowseName Nodeset_new.namespaceTable (some "a:b") ≠ some ⟨0, some "a:b"⟩ := by
  refine ⟨?_, by decide, by decide⟩
  intro ds name hne hds h
  cases ds with
  | nil => exact hne rfl
  | cons d ds =>
    have hd : d.isDigit = true := hds d (by simp)
    have : d = 'a' := by
      have := congrArg List.head? h
      simpa using this.symm
    subst this
    exact absurd hd (by decide)

/-- C4, amended: for every namespace table, `extractBrowseName` returns `(0, s)` for every
text `s` without a `:`, and for a text `<k>:<name>`, `k` written in decimal digits, below
65536 and an index of the table, it returns `name` with the translation of `k`: `0` for
`k = 0` and the index stored in entry `k` of the table (as a `uint16_t`) otherwise. -/
theorem extractBrowseName_forms (namespaces : List TNamespace) (s ds name : String)
    (e : TNamespace) (hs : ':' ∉ s.data) (hds : allDigits ds.data)
    (hv : decimalValue ds.data < 65536)
    (he : namespaces[decimalValue ds.data]? = some e) :
    extractBrowseName namespaces (some s) = some ⟨0, some s⟩ ∧
    extractBrowseName namespaces (some (ds ++ ":" ++ name)) =
      some ⟨if 0 < decimalValue ds.data then e.idx % 65536 else 0, some name⟩ := by
  constructor
  · simp [extractBrowseName, strchr_eq_none hs]
  · have hcolon : ':' ∉ ds.data := fun h => absurd (hds _ h) (by decide)
    have hdata : (ds ++ ":" ++ name).data = ds.data ++ ':' :: name.data := by
      simp [String.data_append]
    have hchr := strchr_append name.data hcolon
    have hatoi := atoi_digits (c := ':') (by decide) (by decide) (by decide) (by decide)
      ds.data name.data hds (by omega)
    have h16 : toUInt16 (decimalValue ds.data : Int) = decimalValue ds.data := by
      unfold toUInt16
      have : ((decimalValue ds.data : Nat) : Int) % 65536 = (decimalValue ds.data : Int) := by
        omega
      rw [this]; simp
    unfold extractBrowseName
    simp only [hdata, hchr, hatoi, h16, translateBrowseName, List.tail_cons]
    by_cases hk : 0 < decimalValue ds.data
    · simp [hk, he]
    · have h0 : decimalValue ds.data = 0 := by omega
      simp [h0]

/-- The amended C4 at the texts of the spec: `Temperature`, and `1:Temperature` with global
index 7. -/
theorem extractBrowseName_forms_witness :
    extractBrowseName [⟨0, some "http://opcfoundation.org/UA/"⟩, ⟨7, some "urn:acme"⟩]
        (some "Temperature") = some ⟨0, some "Temperature"⟩ ∧
    extractBrowseName [⟨0, some "http://opcfoundation.org/UA/"⟩, ⟨7, some "urn:acme"⟩]
        (some "1:Temperature") = some ⟨7, some "Temperature"⟩ :=
  extractBrowseName_forms [⟨0, some "http://opcfoundation.org/UA/"⟩, ⟨7, some "urn:acme"⟩]
    "Temperature" "1" "Temperature" ⟨7, some "urn:acme"⟩
    (by decide) (by decide) (by decide) (by decide)

/-! ## Emission order -/

theorem Nodeset_addNode_eq {st st' : Nodeset} {h : Nat} (e : Nodeset_addNode st h = some st') :
    ∃ c, classOf st.heap h = some c ∧ st'.heap = st.heap ∧
      ∀ k, st'.nodes k = if k = c then st.nodes k ++ [h] else st.nodes k := by
  unfold Nodeset_addNode at e
  cases hn : st.heap[h]? with
  | none => simp [hn] at e
  | some n =>
    simp only [hn, Option.bind_eq_bind, Option.some_bind, Option.some.injEq] at e
    subst e
    exact ⟨n.nodeClass, by simp [classOf, hn], rfl, fun k => rfl⟩

theorem foldlM_addNode_eq : ∀ (delivered : List Nat) (st st' : Nodeset),
    delivered.foldlM Nodeset_addNode st = some st' →
    st'.heap = st.heap ∧
    ∀ c, st'.nodes c = st.nodes c ++ delivered.filter (fun h => classOf st.heap h = some c)
  | [], st, st', e => by
    simp only [List.foldlM_nil, pure, Option.some.injEq] at e
    subst e; simp
  | h :: rest, st, st', e => by
    simp only [List.foldlM_cons, Option.bind_eq_bind] at e
    cases h1 : Nodeset_addNode st h with
    | none => simp [h1] at e
    | some st1 =>
      simp only [h1, Option.some_bind] at e
      obtain ⟨c, hc, hheap, hnodes⟩ := Nodeset_addNode_eq h1
      obtain ⟨hheap', hnodes'⟩ := foldlM_addNode_eq rest st1 st' e
      refine ⟨hheap'.trans hheap, fun k => ?_⟩
      rw [hnodes' k, hnodes k, hheap]
      by_cases hk : k = c
      · subst hk; simp [List.filter_cons, hc]
      · have : ¬ (c = k) := fun e => hk e.symm
        simp [List.filter_cons, hc, hk, this]

theorem foldlM_addNode_isSome : ∀ (delivered : List Nat) (st : Nodeset),
    (∀ h ∈ delivered, h < st.heap.length) →
    ∃ st', delivered.foldlM Nodeset_addNode st = some st'
  | [], st, _ => ⟨st, rfl⟩
  | h :: rest, st, hv => by
    have hh : h < st.heap.length := hv h (by simp)
    have h1 : ∃ st1, Nodeset_addNode st h = some st1 := by
      unfold Nodeset_addNode
      simp [List.getElem?_eq_getElem hh]
    obtain ⟨st1, h1⟩ := h1
    obtain ⟨_, _, hheap, _⟩ := Nodeset_addNode_eq h1
    obtain ⟨st', h'⟩ := foldlM_addNode_isSome rest st1
      (fun x hx => by rw [hheap]; exact hv x (by simp [hx]))
    exact ⟨st', by simp [List.foldlM_cons, h1, h']⟩

theorem emitted_emit (st : Nodeset) : emitted (emit st) = phaseOrder.flatMap st.nodes := by
  have hv : ∀ l : List Nat, List.filterMap (fun c => match c with
      | Call.addNode n => some n
      | Call.deleteValue _ => none)
      (l.flatMap (fun n => [Call.addNode n, Call.deleteValue n])) = l := by
    intro l
    induction l with
    | nil => rfl
    | cons a l ih => simp [List.flatMap_cons, List.filterMap_cons, ih]
  have hm : ∀ l : List Nat, List.filterMap (fun c => match c with
      | Call.addNode n => some n
      | Call.deleteValue _ => none) (l.map Call.addNode) = l := by
    intro l
    induction l with
    | nil => rfl
    | cons a l ih => simp [List.filterMap_cons, ih]
  simp only [emitted, emit, List.filterMap_append, hv, hm, phaseOrder, List.flatMap_cons,
    List.flatMap_nil, List.append_nil, List.append_assoc]

theorem pairwise_flatMap_phase (f : TNodeClass → List Nat) (k : Nat → Nat)
    (hk : ∀ c h, h ∈ f c → k h = phase c) :
    ∀ cs : List TNodeClass, cs.Pairwise (fun a b => phase a ≤ phase b) →
      (cs.flatMap f).Pairwise (fun a b => k a ≤ k b)
  | [], _ => by simp
  | c :: cs, h => by
    rw [List.pairwise_cons] at h
    rw [List.flatMap_cons, List.pairwise_append]
    refine ⟨?_, pairwise_flatMap_phase f k hk cs h.2, ?_⟩
    · apply List.pairwise_of_forall_mem_list
      intro a ha b hb
      rw [hk c a ha, hk c b hb]
    · intro a ha b hb
      obtain ⟨c', hc', hb'⟩ := List.mem_flatMap.mp hb
      rw [hk c a ha, hk c' b hb']
      exact h.1 c' hc'

/-- In the list of the containers taken in the order of the phases, a node of an earlier
phase stands before every node of a later phase. -/
theorem phase_positions (st : Nodeset) (hwf : classContainers st) (i j : Nat)
    (c1 c2 : TNodeClass)
    (h1 : ((phaseOrder.flatMap st.nodes)[i]?).bind (classOf st.heap) = some c1)
    (h2 : ((phaseOrder.flatMap st.nodes)[j]?).bind (classOf st.heap) = some c2)
    (hlt : phase c1 < phase c2) : i < j := by
  have hp := pairwise_flatMap_phase st.nodes
    (fun h => match classOf st.heap h with
      | some c => phase c
      | none => 0)
    (fun c h hm => by simp [hwf c h hm]) phaseOrder (by decide)
  rw [List.pairwise_iff_getElem] at hp
  cases ha : (phaseOrder.flatMap st.nodes)[i]? with
  | none => simp [ha] at h1
  | some a =>
    cases hb : (phaseOrder.flatMap st.nodes)[j]? with
    | none => simp [hb] at h2
    | some b =>
      simp only [ha, hb, Option.some_bind] at h1 h2
      obtain ⟨hi, hai⟩ := List.getElem?_eq_some.mp ha
      obtain ⟨hj, hbj⟩ := List.getElem?_eq_some.mp hb
      by_contra hij
      rcases Nat.lt_or_ge j i with hji | hji
      · have := hp j i hj hi hji
        rw [hai, hbj] at this
        simp only [h1, h2] at this
        omega
      · have hij' : i = j := by omega
        subst hij'
        rw [hai] at hbj
        subst hbj
        rw [h1] at h2
        cases h2
        omega

theorem classContainers_foldlM {delivered : List Nat} {st st' : Nodeset}
    (hwf : classContainers st) (e : delivered.foldlM Nodeset_addNode st = some st') :
    classContainers st' := by
  obtain ⟨hheap, hnodes⟩ := foldlM_addNode_eq delivered st st' e
  intro c h hm
  rw [hnodes c, List.mem_append] at hm
  rw [hheap]
  rcases hm with hm | hm
  · exact hwf c h hm
  · simpa using (List.mem_filter.mp hm).2

/-- C1: whenever the sort step succeeds, on a state whose containers hold nodes of their own
class and with the sorter handing over allocated nodes, `Nodeset_getSortedNodes` returns `true`
and calls `addNode` in the order of the phases: a call for a node of a strictly earlier phase
(ReferenceType, DataType, ObjectType, Object, Method, VariableType, Variable) comes before
every call for a node of a later phase. -/
theorem getSortedNodes_phase_order (nodeset : Nodeset) (sort : SortRun)
    (hwf : classContainers nodeset)
    (hvalid : ∀ h ∈ sort.delivered, h < nodeset.heap.length)
    (hok : sort.result = true) :
    ∃ after calls, Nodeset_getSortedNodes nodeset sort = some (after, true, calls) ∧
      ∀ (i j : Nat) (c1 c2 : TNodeClass),
        ((emitted calls)[i]?).bind (classOf nodeset.heap) = some c1 →
        ((emitted calls)[j]?).bind (classOf nodeset.heap) = some c2 →
        phase c1 < phase c2 → i < j := by
  obtain ⟨st', hst'⟩ := foldlM_addNode_isSome sort.delivered nodeset hvalid
  refine ⟨st', emit st', by simp [Nodeset_getSortedNodes, hst', hok], ?_⟩
  have hheap := (foldlM_addNode_eq _ _ _ hst').1
  have hwf' := classContainers_foldlM hwf hst'
  intro i j c1 c2 h1 h2 hlt
  rw [emitted_emit, ← hheap] at h1 h2
  exact phase_positions st' hwf' i j c1 c2 h1 h2 hlt

theorem machineState_nodes : machineState.nodes = fun _ => [] := rfl

theorem machineState_heap_length : machineState.heap.length = 2 := by decide

/-- C1 at the nodeset `machineEvents` with the sorter handing over node 0, then node 1. -/
theorem getSortedNodes_phase_order_witness :
    ∃ after calls, Nodeset_getSortedNodes machineState ⟨[0, 1], true⟩
        = some (after, true, calls) ∧
      ∀ (i j : Nat) (c1 c2 : TNodeClass),
        ((emitted calls)[i]?).bind (classOf machineState.heap) = some c1 →
        ((emitted calls)[j]?).bind (classOf machineState.heap) = some c2 →
        phase c1 < phase c2 → i < j :=
  getSortedNodes_phase_order machineState ⟨[0, 1], true⟩
    (fun c h hm => by simp [machineState_nodes] at hm)
    (fun h hm => by
      rw [machineState_heap_length]
      simp only [List.mem_cons, List.mem_singleton, List.not_mem_nil, or_false] at hm
      omega)
    rfl

theorem filter_class_filter (heap : List TNode) (k c : TNodeClass) (l : List Nat) :
    (l.filter (fun h => classOf heap h = some k)).filter (fun h => classOf heap h = some c)
      = if k = c then l.filter (fun h => classOf heap h = some c) else [] := by
  by_cases hkc : k = c
  · subst hkc
    simp [List.filter_filter]
  · simp only [hkc, if_false, List.filter_filter, List.filter_eq_nil_iff]
    intro a _
    simp only [Bool.and_eq_true, decide_eq_true_eq, not_and]
    intro h1 h2
    rw [h1] at h2
    exact hkc (Option.some.inj h2).symm

/-- The emitted nodes of a class are the nodes of that class that the sorter handed over, in
the sorter's order, when the containers were empty before. -/
theorem emitted_filter_class (st st' : Nodeset) (delivered : List Nat)
    (hempty : ∀ c, st.nodes c = [])
    (e : delivered.foldlM Nodeset_addNode st = some st') (c : TNodeClass) :
    (emitted (emit st')).filter (fun h => classOf st.heap h = some c)
      = delivered.filter (fun h => classOf st.heap h = some c) := by
  obtain ⟨_, hnodes⟩ := foldlM_addNode_eq delivered st st' e
  rw [emitted_emit]
  simp only [phaseOrder, List.flatMap_cons, List.flatMap_nil, List.append_nil, hnodes, hempty,
    List.nil_append, List.filter_append, filter_class_filter]
  cases c <;> simp

/-- C2, as stated, fails: in the nodeset `machineEvents` the Object node 0 owns a forward
`Organizes` reference to the ObjectType node 1, and `Nodeset_getSortedNodes` delivers node 1
first, whichever of the two the sorter hands over first. -/
theorem getSortedNodes_edge_across_phases :
    (run Nodeset_new machineEvents).isSome = true ∧
    classOf machineState.heap 0 = some NODECLASS_OBJECT ∧
    classOf machineState.heap 1 = some NODECLASS_OBJECTTYPE ∧
    hierarchicalForwardEdge machineState 0 1 = true ∧
    (Nodeset_getSortedNodes machineState ⟨[0, 1], true⟩).map (fun r => (r.2.1, emitted r.2.2))
      = some (true, [1, 0]) ∧
    (Nodeset_getSortedNodes machineState ⟨[1, 0], true⟩).map (fun r => (r.2.1, emitted r.2.2))
      = some (true, [1, 0]) := by
  decide

theorem filter_length_mono {P Q : Nat → Bool} (h : ∀ m, Q m = true → P m = true) :
    ∀ l : List Nat, (l.filter Q).length ≤ (l.filter P).length
  | [] => by simp
  | x :: l => by
    have ih := filter_length_mono h l
    rw [List.filter_cons, List.filter_cons]
    by_cases hq : Q x = true
    · rw [if_pos hq, if_pos (h x hq)]
      simp only [List.length_cons]; omega
    · rw [if_neg hq]
      split
      · simp only [List.length_cons]; omega
      · exact ih

theorem filter_length_lt {P Q : Nat → Bool} (h : ∀ m, Q m = true → P m = true) {n : Nat}
    (hP : P n = true) (hQ : Q n = false) :
    ∀ l : List Nat, n ∈ l → (l.filter Q).length + 1 ≤ (l.filter P).length
  | [], hn => by simp at hn
  | x :: l, hn => by
    rw [List.filter_cons, List.filter_cons]
    by_cases hx : x = n
    · subst hx
      rw [if_pos hP, hQ]
      simp only [Bool.false_eq_true, if_false, List.length_cons]
      have := filter_length_mono h l
      omega
    · have hn' : n ∈ l := by
        rcases List.mem_cons.mp hn with e | e
        · exact absurd e.symm hx
        · exact e
      have ih := filter_length_lt h hP hQ l hn'
      by_cases hq : Q x = true
      · rw [if_pos hq, if_pos (h x hq)]
        simp only [List.length_cons]; omega
      · rw [if_neg hq]
        split
        · simp only [List.length_cons]; omega
        · exact ih

theorem KahnInv.init (edge : Nat → Nat → Bool) (nodes : List Nat) (hnd : nodes.Nodup) :
    KahnInv edge nodes (fun s => (nodes.filter (fun m => edge m s)).length)
      (nodes.filter (fun s => (nodes.filter (fun m => edge m s)).length == 0)) [] where
  nodup := by simpa using hnd.filter _
  queue_sub := fun s hs => (List.mem_filter.mp hs).1
  out_sub := fun s hs => by simp at hs
  indeg_ge := fun s => by simp
  queue_free := fun s hs m hm he => by
    have h0 := (List.mem_filter.mp hs).2
    simp only [beq_iff_eq, List.length_eq_zero, List.filter_eq_nil_iff] at h0
    exact absurd he (h0 m hm)
  closed := fun v hv => by simp at hv
  topo := List.Pairwise.nil
  noloop := fun x hx => by simp at hx

theorem KahnInv.step {edge : Nat → Nat → Bool} {nodes : List Nat} {indeg : Nat → Nat}
    {n : Nat} {queue out : List Nat} (hnd : nodes.Nodup)
    (inv : KahnInv edge nodes indeg (n :: queue) out) :
    KahnInv edge nodes (fun s => if edge n s then indeg s - 1 else indeg s)
      (queue ++ nodes.filter (fun s => edge n s && (indeg s - 1 == 0))) (out ++ [n]) := by
  have hnd0 := inv.nodup
  rw [List.cons_append, List.nodup_cons, List.mem_append, List.nodup_append] at hnd0
  obtain ⟨hn_not, hq_nd, ho_nd, hdisj⟩ := hnd0
  have hn_q : n ∉ queue := fun h => hn_not (Or.inl h)
  have hn_o : n ∉ out := fun h => hn_not (Or.inr h)
  have hn_nodes : n ∈ nodes := inv.queue_sub n (by simp)
  have hn_free : ∀ m ∈ nodes, edge m n = true → m ∈ out := inv.queue_free n (by simp)
  have hnn : edge n n = false := by
    cases h : edge n n with
    | false => rfl
    | true => exact absurd (hn_free n hn_nodes h) hn_o
  -- the counters after the step
  have hge : ∀ s, (nodes.filter (fun m => edge m s && !decide (m ∈ out ++ [n]))).length
      ≤ (if edge n s then indeg s - 1 else indeg s) := by
    intro s
    have hmono : ∀ m, (edge m s && !decide (m ∈ out ++ [n])) = true →
        (edge m s && !decide (m ∈ out)) = true := by
      intro m hm
      simp only [Bool.and_eq_true, Bool.not_eq_true', decide_eq_false_iff_not,
        List.mem_append, List.mem_singleton, not_or] at hm ⊢
      exact ⟨hm.1, hm.2.1⟩
    by_cases hs : edge n s = true
    · rw [if_pos hs]
      have := filter_length_lt hmono (n := n) (by simp [hs, hn_o]) (by simp) nodes hn_nodes
      have := inv.indeg_ge s
      omega
    · rw [if_neg hs]
      exact le_trans (filter_length_mono hmono nodes) (inv.indeg_ge s)
  -- a freed node has all its predecessors in the output
  have hfreed : ∀ s ∈ nodes.filter (fun s => edge n s && (indeg s - 1 == 0)),
      s ∈ nodes ∧ edge n s = true ∧ ∀ m ∈ nodes, edge m s = true → m ∈ out ++ [n] := by
    intro s hs
    obtain ⟨hs1, hs2⟩ := List.mem_filter.mp hs
    simp only [Bool.and_eq_true, beq_iff_eq] at hs2
    refine ⟨hs1, hs2.1, fun m hm he => ?_⟩
    have h0 := hge s
    rw [if_pos hs2.1, hs2.2, Nat.le_zero, List.length_eq_zero, List.filter_eq_nil_iff] at h0
    have := h0 m hm
    simp only [he, Bool.true_and, Bool.not_eq_true', decide_eq_false_iff_not, not_not] at this
    exact this
  have hfreed_new : ∀ s ∈ nodes.filter (fun s => edge n s && (indeg s - 1 == 0)),
      s ∉ queue ∧ s ≠ n ∧ s ∉ out := by
    intro s hs
    obtain ⟨_, he, _⟩ := hfreed s hs
    refine ⟨fun h => ?_, fun h => ?_, fun h => ?_⟩
    · exact hn_o (inv.queue_free s (by simp [h]) n hn_nodes he)
    · rw [h, hnn] at he; cases he
    · exact hn_o (inv.closed s h n hn_nodes he)
  refine ⟨?_, ?_, ?_, hge, ?_, ?_, ?_, ?_⟩
  · -- nodup
    rw [List.nodup_append]
    refine ⟨?_, ?_, ?_⟩
    · rw [List.nodup_append]
      exact ⟨hq_nd, hnd.filter _, fun x hx1 hx2 => (hfreed_new x hx2).1 hx1⟩
    · rw [List.nodup_append]
      refine ⟨ho_nd, by simp, fun x hx1 hx2 => ?_⟩
      simp only [List.mem_singleton] at hx2
      exact hn_o (hx2 ▸ hx1)
    · intro x hx1 hx2
      rcases List.mem_append.mp hx1 with h | h
      · rcases List.mem_append.mp hx2 with h2 | h2
        · exact hdisj h h2
        · simp only [List.mem_singleton] at h2
          exact hn_q (h2 ▸ h)
      · rcases List.mem_append.mp hx2 with h2 | h2
        · exact (hfreed_new x h).2.2 h2
        · simp only [List.mem_singleton] at h2
          exact (hfreed_new x h).2.1 h2
  · intro s hs
    rcases List.mem_append.mp hs with h | h
    · exact inv.queue_sub s (by simp [h])
    · exact (hfreed s h).1
  · intro s hs
    rcases List.mem_append.mp hs with h | h
    · exact inv.out_sub s h
    · simp only [List.mem_singleton] at h
      exact h ▸ hn_nodes
  · intro s hs m hm he
    rcases List.mem_append.mp hs with h | h
    · exact List.mem_append.mpr (Or.inl (inv.queue_free s (by simp [h]) m hm he))
    · exact (hfreed s h).2.2 m hm he
  · intro v hv m hm he
    rcases List.mem_append.mp hv with h | h
    · exact List.mem_append.mpr (Or.inl (inv.closed v h m hm he))
    · simp only [List.mem_singleton] at h
      subst h
      exact List.mem_append.mpr (Or.inl (hn_free m hm he))
  · rw [List.pairwise_append]
    refine ⟨inv.topo, by simp, fun a ha b hb => ?_⟩
    simp only [List.mem_singleton] at hb
    subst hb
    cases h : edge b a with
    | false => rfl
    | true => exact absurd (inv.closed a ha b hn_nodes h) hn_o
  · intro x hx
    rcases List.mem_append.mp hx with h | h
    · exact inv.noloop x h
    · simp only [List.mem_singleton] at h
      exact h ▸ hnn

theorem kahnLoop_inv {edge : Nat → Nat → Bool} {nodes : List Nat} (hnd : nodes.Nodup) :
    ∀ (fuel : Nat) (indeg : Nat → Nat) (queue out : List Nat),
      KahnInv edge nodes indeg queue out →
      ∃ indeg' queue', KahnInv edge nodes indeg' queue' (kahnLoop edge nodes fuel indeg queue out)
  | 0, indeg, queue, out, inv => ⟨indeg, queue, inv⟩
  | _ + 1, indeg, [], out, inv => ⟨indeg, [], inv⟩
  | fuel + 1, indeg, n :: queue, out, inv => by
    rw [kahnLoop]
    exact kahnLoop_inv hnd fuel _ _ _ (inv.step hnd)

/-- The fuel of `sortPhase` is enough: with fuel for every node of the phase that is not yet
emitted, the loop ends with an empty queue. -/
theorem kahnLoop_queue_empty {edge : Nat → Nat → Bool} {nodes : List Nat} (hnd : nodes.Nodup) :
    ∀ (fuel : Nat) (indeg : Nat → Nat) (queue out : List Nat),
      KahnInv edge nodes indeg queue out → nodes.length ≤ fuel + out.length →
      ∃ indeg', KahnInv edge nodes indeg' [] (kahnLoop edge nodes fuel indeg queue out)
  | 0, indeg, queue, out, inv, hfuel => by
    have hsub : queue ++ out ⊆ nodes := fun x hx => by
      rcases List.mem_append.mp hx with h | h
      · exact inv.queue_sub x h
      · exact inv.out_sub x h
    have hlen := (List.subperm_of_subset inv.nodup hsub).length_le
    rw [List.length_append] at hlen
    have hq : queue = [] := List.length_eq_zero.mp (by omega)
    subst hq
    exact ⟨indeg, inv⟩
  | _ + 1, indeg, [], out, inv, _ => ⟨indeg, inv⟩
  | fuel + 1, indeg, n :: queue, out, inv, hfuel => by
    rw [kahnLoop]
    exact kahnLoop_queue_empty hnd fuel _ _ _ (inv.step hnd)
      (by rw [List.length_append, List.length_singleton]; omega)

/-- A successful sort of a phase: the output has no node twice, holds nodes of the phase only,
no node has an edge to a node before it, and no node has an edge to itself. -/
theorem sortPhase_order {edge : Nat → Nat → Bool} {nodes out : List Nat} (hnd : nodes.Nodup)
    (h : sortPhase edge nodes = some out) :
    out.Nodup ∧ (∀ x ∈ out, x ∈ nodes) ∧ out.Pairwise (fun a b => edge b a = false) ∧
      ∀ x ∈ out, edge x x = false := by
  unfold sortPhase at h
  simp only at h
  split at h
  · simp only [Option.some.injEq] at h
    obtain ⟨indeg', queue', inv⟩ := kahnLoop_inv hnd nodes.length _ _ _ (KahnInv.init edge nodes hnd)
    rw [h] at inv
    have hn := inv.nodup
    rw [List.nodup_append] at hn
    exact ⟨hn.2.1, inv.out_sub, inv.topo, inv.noloop⟩
  · cases h

/-- An edge of the statements is an edge that the sorter orders by. -/
theorem sortEdge_of_hierarchicalForwardEdge {st : Nodeset} {u v : Nat}
    (h : hierarchicalForwardEdge st u v = true) : sortEdge st u v = true := by
  unfold hierarchicalForwardEdge at h
  unfold sortEdge
  cases hu : st.heap[u]? with
  | none => simp [hu] at h
  | some nu =>
    cases hv : st.heap[v]? with
    | none => simp [hu, hv] at h
    | some nv =>
      simp only [hu, hv, List.any_eq_true] at h
      obtain ⟨r, hr, hc⟩ := h
      simp only [Bool.or_eq_true, List.any_eq_true]
      refine Or.inl ⟨r, hr, ?_⟩
      cases href : st.countedRefs[r]? with
      | none => simp [href] at hc
      | some ref =>
        simp only [href, Bool.and_eq_true, decide_eq_true_eq] at hc ⊢
        exact ⟨⟨hc.1.1, hc.1.2⟩, by simp [staysHierarchical, hc.2]⟩

theorem phaseNodes_nodup {st : Nodeset} (hnd : st.sortNodes.Nodup) (c : TNodeClass) :
    (phaseNodes st c).Nodup := hnd.filter _

/-- The nodes that a successful walk over the phases `cs` hands over: each is of a class in
`cs`, none has an edge to itself, and none has an edge to a node of its class before it. -/
theorem sortPhases_order (st : Nodeset) (hnd : st.sortNodes.Nodup) :
    ∀ (cs : List TNodeClass) (D : List Nat), cs.Nodup → sortPhases st cs = some D →
      D.Pairwise (fun a b => classOf st.heap a = classOf st.heap b → sortEdge st b a = false) ∧
      (∀ x ∈ D, sortEdge st x x = false) ∧
      (∀ x ∈ D, ∃ c ∈ cs, classOf st.heap x = some c)
  | [], D, _, h => by
    simp only [sortPhases, Option.some.injEq] at h
    subst h
    simp
  | c :: cs, D, hcs, h => by
    simp only [sortPhases, Option.bind_eq_bind] at h
    cases ho : sortPhase (sortEdge st) (phaseNodes st c) with
    | none => simp [ho] at h
    | some out =>
      cases hr : sortPhases st cs with
      | none => simp [ho, hr] at h
      | some rest =>
        simp only [ho, hr, Option.some_bind, Option.some.injEq] at h
        subst h
        rw [List.nodup_cons] at hcs
        obtain ⟨_, hsub, htopo, hloop⟩ := sortPhase_order (phaseNodes_nodup hnd c) ho
        obtain ⟨ih1, ih2, ih3⟩ := sortPhases_order st hnd cs rest hcs.2 hr
        have hclass : ∀ x ∈ out, classOf st.heap x = some c := fun x hx => by
          simpa using (List.mem_filter.mp (hsub x hx)).2
        refine ⟨?_, ?_, ?_⟩
        · rw [List.pairwise_append]
          refine ⟨List.Pairwise.imp (R := fun a b => sortEdge st b a = false)
            (S := fun a b => classOf st.heap a = classOf st.heap b → sortEdge st b a = false)
            (fun hab _ => hab) htopo, ih1, fun a ha b hb hab => ?_⟩
          obtain ⟨c', hc', hb'⟩ := ih3 b hb
          rw [hclass a ha, hb'] at hab
          cases hab
          exact absurd hc' hcs.1
        · intro x hx
          rcases List.mem_append.mp hx with hx | hx
          · exact hloop x hx
          · exact ih2 x hx
        · intro x hx
          rcases List.mem_append.mp hx with hx | hx
          · exact ⟨c, by simp, hclass x hx⟩
          · obtain ⟨c', hc', hx'⟩ := ih3 x hx
            exact ⟨c', by simp [hc'], hx'⟩

/-- The sorter on the scenarios of the spec: the two ObjectTypes of `cycleEvents` that point
to each other make it fail, as does the inverse reference of `controlsEvents` to a parent
that is no node of the nodeset; the nodes of `machineEvents` are handed over phase by phase,
and those of `speedEvents`, without references, in insertion order within the phases. -/
theorem Sort_start_scenarios :
    Sort_start cycleState = ⟨[], false⟩ ∧
    Sort_start ((step controlsState (Event.newNodeFinish 0)).getD Nodeset_new) = ⟨[], false⟩ ∧
    Sort_start machineState = ⟨[1, 0], true⟩ ∧
    Sort_start speedState = ⟨[1, 0], true⟩ := by
  decide

theorem phase_injective {a b : TNodeClass} (h : phase a = phase b) : a = b := by
  cases a <;> cases b <;> first | rfl | (simp [phase] at h)

/-- C2, amended: for nodes `u` and `v` such that `u` owns a forward reference to `v` in its
hierarchical list with a reference type in the hierarchical set, on a state with empty
containers in which no node was finished twice and for which the sorter succeeds,
`Nodeset_getSortedNodes` returns `true`, and if the phase of `u` is not later than that of `v`
(the two are of the same class, or `u` is of an earlier one), every `addNode` call for `u`
comes before every one for `v`; if the phase of `u` is strictly later (an Object or a Variable
pointing to an ObjectType), every call for `v` comes before every one for `u`. -/
theorem getSortedNodes_parent_before_child (nodeset : Nodeset) (u v : Nat)
    (cu cv : TNodeClass)
    (hempty : ∀ c, nodeset.nodes c = [])
    (hnodup : nodeset.sortNodes.Nodup)
    (hok : (Sort_start nodeset).result = true)
    (hedge : hierarchicalForwardEdge nodeset u v = true)
    (hcu : classOf nodeset.heap u = some cu) (hcv : classOf nodeset.heap v = some cv) :
    ∃ after calls,
      Nodeset_getSortedNodes nodeset (Sort_start nodeset) = some (after, true, calls) ∧
      (phase cu ≤ phase cv → ∀ i j : Nat,
        (emitted calls)[i]? = some u → (emitted calls)[j]? = some v → i < j) ∧
      (phase cv < phase cu → ∀ i j : Nat,
        (emitted calls)[i]? = some u → (emitted calls)[j]? = some v → j < i) := by
  -- what the sorter hands over
  obtain ⟨D, hD, hstart⟩ : ∃ D, sortPhases nodeset phaseOrder = some D ∧
      Sort_start nodeset = ⟨D, true⟩ := by
    unfold Sort_start at hok ⊢
    by_cases hp : parentsPresent nodeset = true
    · simp only [hp, if_true] at hok ⊢
      cases hs : sortPhases nodeset phaseOrder with
      | none => simp [hs] at hok
      | some D => exact ⟨D, rfl, rfl⟩
    · simp [hp] at hok
  obtain ⟨htopo, hloop, hclass⟩ := sortPhases_order nodeset hnodup phaseOrder D (by decide) hD
  have hvalid : ∀ h ∈ D, h < nodeset.heap.length := by
    intro h hh
    obtain ⟨c, _, hc⟩ := hclass h hh
    unfold classOf at hc
    cases hn : nodeset.heap[h]? with
    | none => simp [hn] at hc
    | some n => exact (List.getElem?_eq_some.mp hn).1
  obtain ⟨st', hst'⟩ := foldlM_addNode_isSome D nodeset hvalid
  have hheap := (foldlM_addNode_eq _ _ _ hst').1
  have hwf : classContainers nodeset := fun c h hm => by simp [hempty c] at hm
  have hwf' := classContainers_foldlM hwf hst'
  have hse : sortEdge nodeset u v = true := sortEdge_of_hierarchicalForwardEdge hedge
  rw [hstart]
  refine ⟨st', emit st', by simp [Nodeset_getSortedNodes, hst'], ?_, ?_⟩
  · intro hle i j hi hj
    rcases Nat.lt_or_ge (phase cu) (phase cv) with hlt | hge
    · rw [emitted_emit] at hi hj
      exact phase_positions st' hwf' i j cu cv (by simp [hi, hheap, hcu])
        (by simp [hj, hheap, hcv]) hlt
    · have hcc : cu = cv := phase_injective (Nat.le_antisymm hle hge)
      subst hcc
      have hfilter := emitted_filter_class nodeset st' D hempty hst' cu
      have hpw : ((emitted (emit st')).filter
          (fun h => classOf nodeset.heap h = some cu)).Pairwise
          (fun a b => classOf nodeset.heap a = classOf nodeset.heap b →
            sortEdge nodeset b a = false) := by
        rw [hfilter]
        exact htopo.filter _
      rw [List.pairwise_filter, List.pairwise_iff_getElem] at hpw
      obtain ⟨hi', hui⟩ := List.getElem?_eq_some.mp hi
      obtain ⟨hj', hvj⟩ := List.getElem?_eq_some.mp hj
      by_contra hij
      rcases Nat.lt_or_ge j i with hji | hji
      · have := hpw j i hj' hi' hji
        rw [hui, hvj] at this
        have := this hcv hcu (by rw [hcu, hcv])
        rw [hse] at this
        cases this
      · have hij' : i = j := by omega
        subst hij'
        rw [hui] at hvj
        subst hvj
        have hmem : u ∈ (emitted (emit st')).filter
            (fun h => classOf nodeset.heap h = some cu) :=
          List.mem_filter.mpr ⟨hui ▸ List.getElem_mem hi', by simp [hcu]⟩
        rw [hfilter] at hmem
        have := hloop u (List.mem_filter.mp hmem).1
        rw [hse] at this
        cases this
  · intro hlt i j hi hj
    rw [emitted_emit] at hi hj
    exact phase_positions st' hwf' j i cv cu (by simp [hj, hheap, hcv])
      (by simp [hi, hheap, hcu]) hlt

/-- The amended C2 at the nodeset `parentLastEvents`: the Object node 1 has a forward
reference to the Object node 0, which was finished first; the sorter hands over node 1 and
then node 0, and `addNode` is called in that order. -/
theorem getSortedNodes_parent_before_child_witness :
    Sort_start parentLastState = ⟨[1, 0], true⟩ ∧
    ∃ after calls,
      Nodeset_getSortedNodes parentLastState (Sort_start parentLastState)
        = some (after, true, calls) ∧
      (phase NODECLASS_OBJECT ≤ phase NODECLASS_OBJECT → ∀ i j : Nat,
        (emitted calls)[i]? = some 1 → (emitted calls)[j]? = some 0 → i < j) ∧
      (phase NODECLASS_OBJECT < phase NODECLASS_OBJECT → ∀ i j : Nat,
        (emitted calls)[i]? = some 1 → (emitted calls)[j]? = some 0 → j < i) :=
  ⟨by decide,
    getSortedNodes_parent_before_child parentLastState 1 0 NODECLASS_OBJECT NODECLASS_OBJECT
      (fun _ => rfl) (by decide) (by decide) (by decide) (by decide) (by decide)⟩

/-! ## What the builder operations store -/

/-- The record that `initNode` fills: class, id, browse name, parent id and empty lists. -/
theorem initNode_eq {st : Nodeset} {ns : List TNamespace} {c : TNodeClass}
    {attrs : List XmlAttribute} {node : TNode} (e : initNode st ns c attrs = some node) :
    node.nodeClass = c ∧
    extractNodedId ns (getAttributeValue attrNodeId attrs) = some node.id ∧
    extractBrowseName ns (getAttributeValue attrBrowseName attrs) = some node.browseName ∧
    node.hierachicalRefs = [] ∧ node.nonHierachicalRefs = [] ∧
    (c = NODECLASS_OBJECT ∨ c = NODECLASS_VARIABLE ∨ c = NODECLASS_METHOD →
      extractNodedId ns (getAttributeValue attrParentNodeId attrs) = some node.parentNodeId) := by
  unfold initNode extractAttributes at e
  simp only [Option.bind_eq_bind] at e
  cases h1 : extractNodedId ns (getAttributeValue attrNodeId attrs) with
  | none => simp [h1] at e
  | some id =>
    cases h2 : extractBrowseName ns (getAttributeValue attrBrowseName attrs) with
    | none => simp [h1, h2] at e
    | some bn =>
      simp only [h1, h2, Option.some_bind] at e
      cases c
      case NODECLASS_OBJECT =>
        cases h3 : extractNodedId ns (getAttributeValue attrParentNodeId attrs) with
        | none => simp [h3] at e
        | some p => simp [h3] at e; subst e; simp
      case NODECLASS_OBJECTTYPE => simp at e; subst e; simp
      case NODECLASS_VARIABLE =>
        cases h3 : extractNodedId ns (getAttributeValue attrParentNodeId attrs) with
        | none => simp [h3] at e
        | some p =>
          cases h4 : alias2Id st (getAttributeValue attrDataType attrs) with
          | none => simp [h3, h4] at e
          | some d => simp [h3, h4] at e; subst e; simp
      case NODECLASS_DATATYPE => simp at e; subst e; simp
      case NODECLASS_METHOD =>
        cases h3 : extractNodedId ns (getAttributeValue attrParentNodeId attrs) with
        | none => simp [h3] at e
        | some p => simp [h3] at e; subst e; simp
      case NODECLASS_REFERENCETYPE => simp at e; subst e; simp
      case NODECLASS_VARIABLETYPE =>
        cases h4 : alias2Id st (getAttributeValue attrDataType attrs) with
        | none => simp [h4] at e
        | some d => simp [h4] at e; subst e; simp

theorem Nodeset_newNode_eq {st st' : Nodeset} {c : TNodeClass} {attrs : List XmlAttribute}
    {h : Nat} (e : Nodeset_newNode st c attrs = some (st', h)) :
    ∃ node, initNode st st.namespaceTable c attrs = some node ∧ h = st.heap.length ∧
      st' = { st with heap := st.heap ++ [node] } := by
  unfold Nodeset_newNode at e
  cases hn : initNode st st.namespaceTable c attrs with
  | none => simp [hn] at e
  | some node =>
    simp only [hn, Option.some.injEq, Prod.mk.injEq] at e
    exact ⟨node, rfl, e.2.symm, e.1.symm⟩

theorem Nodeset_newReferenceFinish_eq {st st' : Nodeset} {r : Nat} {t : Option String}
    (e : Nodeset_newReferenceFinish st r t = some st') :
    ∃ record target, st.countedRefs[r]? = some record ∧
      extractNodedId st.namespaceTable t = some target ∧
      st' = { st with countedRefs := st.countedRefs.set r { record with target := target } } := by
  unfold Nodeset_newReferenceFinish at e
  simp only [Option.bind_eq_bind] at e
  cases h1 : st.countedRefs[r]? with
  | none => simp [h1] at e
  | some record =>
    cases h2 : extractNodedId st.namespaceTable t with
    | none => simp [h1, h2] at e
    | some target =>
      simp only [h1, h2, Option.some_bind, Option.some.injEq] at e
      exact ⟨record, target, rfl, rfl, e.symm⟩

theorem Nodeset_newAliasFinish_eq {st st' : Nodeset} {a : Nat} {t : Option String}
    (e : Nodeset_newAliasFinish st a t = some st') :
    ∃ entry id, st.aliasList[a]? = some entry ∧
      extractNodedId st.namespaceTable t = some id ∧
      st' = { st with aliasList := st.aliasList.set a { entry with id := id } } := by
  unfold Nodeset_newAliasFinish at e
  simp only [Option.bind_eq_bind] at e
  cases h1 : st.aliasList[a]? with
  | none => simp [h1] at e
  | some entry =>
    cases h2 : extractNodedId st.namespaceTable t with
    | none => simp [h1, h2] at e
    | some id =>
      simp only [h1, h2, Option.some_bind, Option.some.injEq] at e
      exact ⟨entry, id, rfl, rfl, e.symm⟩

/-- What `extractNodedId` returns for a text is what the operations store for it. -/
theorem storesNodeId_of_extract {st : Nodeset} {text : String} {id : TNodeId}
    (hx : extractNodedId st.namespaceTable (some text) = some id) : storesNodeId st text id := by
  refine ⟨hx, ?_, ?_, ?_, ?_⟩
  · intro c attrs st' h ha e
    obtain ⟨node, hn, hh, hst⟩ := Nodeset_newNode_eq e
    have hid := (initNode_eq hn).2.1
    rw [ha, hx] at hid
    subst hh hst
    simp [← Option.some.inj hid]
  · intro c attrs st' h hc ha e
    obtain ⟨node, hn, hh, hst⟩ := Nodeset_newNode_eq e
    have hid := (initNode_eq hn).2.2.2.2.2 hc
    rw [ha, hx] at hid
    subst hh hst
    simp [← Option.some.inj hid]
  · intro r st' e
    obtain ⟨record, target, h1, h2, hst⟩ := Nodeset_newReferenceFinish_eq e
    rw [hx] at h2
    have hr : r < st.countedRefs.length := (List.getElem?_eq_some.mp h1).1
    subst hst
    simp [List.getElem?_set_self hr, Option.some.inj h2]
  · intro a st' e
    obtain ⟨entry, id', h1, h2, hst⟩ := Nodeset_newAliasFinish_eq e
    rw [hx] at h2
    have hr : a < st.aliasList.length := (List.getElem?_eq_some.mp h1).1
    subst hst
    simp [List.getElem?_set_self hr, Option.some.inj h2]

/-! ## Namespace table -/

theorem toSizeT_natCast (g : Nat) (hg : g < 2 ^ 31) : toSizeT (g : Int) = g := by
  unfold toSizeT
  have : ((g : Int) % 2 ^ 64) = (g : Int) := by omega
  rw [this]; simp

theorem toInt32_of_lt (g : Nat) (hg : g < 2 ^ 31) : toInt32 g = (g : Int) := by
  unfold toInt32
  have h1 : g % 2 ^ 32 = g := by omega
  have h2 : g % 2 ^ 32 < 2 ^ 31 := by omega
  rw [if_pos h2, h1]

theorem run_cons (st : Nodeset) (e : Event) (es : List Event) :
    run st (e :: es) = (step st e).bind (fun st1 => run st1 es) := by
  simp [run, List.foldlM_cons]

theorem run_append (st : Nodeset) (es1 es2 : List Event) :
    run st (es1 ++ es2) = (run st es1).bind (fun st1 => run st1 es2) := by
  simp [run, List.foldlM_append]

/-- A list of namespace declarations appends one entry per declaration, with the index that
the callback returned and the URI, and changes nothing else. -/
theorem run_namespaceEvents : ∀ (decls : List (Nat × String)) (st : Nodeset),
    st.namespaceTable ≠ [] → (∀ d ∈ decls, d.1 < 2 ^ 31) →
    run st (namespaceEvents decls) = some { st with
      namespaceTable := st.namespaceTable ++ decls.map (fun d => ⟨d.1, some d.2⟩) }
  | [], st, _, _ => by simp [namespaceEvents, run]
  | d :: decls, st, hne, hg => by
    have hd : d.1 < 2 ^ 31 := hg d (by simp)
    have hlen : (st.namespaceTable ++ [(⟨0, none⟩ : TNamespace)]).length - 1
        = st.namespaceTable.length := by simp
    have hstep : Nodeset_newNamespaceFinish (Nodeset_newNamespace st) (d.1 : Int) (some d.2)
        = some { st with namespaceTable := st.namespaceTable ++ [⟨d.1, some d.2⟩] } := by
      unfold Nodeset_newNamespaceFinish Nodeset_newNamespace
      simp only [hlen, toSizeT_natCast d.1 hd]
      simp
    have ih := run_namespaceEvents decls
      { st with namespaceTable := st.namespaceTable ++ [⟨d.1, some d.2⟩] }
      (by simp) (fun x hx => hg x (by simp [hx]))
    simp only [namespaceEvents, List.flatMap_cons, List.cons_append, List.nil_append, run_cons,
      step, hstep, Option.some_bind] at ih ⊢
    rw [ih]
    simp

/-- C5: after `Nodeset_new` and namespace declarations for which the host callback returned
the (non-negative `int`) indices `g1..gn`, `n` below the largest `int`, the table is entry 0 `(0, UA URI)` followed by the
entries `(gj, uri_j)`; and in every state with that table, a NodeId text `ns=<j>;<rest>` with
`1 ≤ j ≤ n` is parsed and stored as `(gj, rest)` in a node id, a parent id, a reference
target and an alias value, and one with index 0 is stored as `(0, rest)`. -/
theorem namespace_translation (decls : List (Nat × String))
    (hn : decls.length < 2 ^ 31 - 1) (hg : ∀ d ∈ decls, d.1 < 2 ^ 31) :
    ∃ st, run Nodeset_new (namespaceEvents decls) = some st ∧
      st.namespaceTable = ⟨0, some "http://opcfoundation.org/UA/"⟩ ::
        decls.map (fun d => ⟨d.1, some d.2⟩) ∧
      ∀ (st' : Nodeset) (ds rest : String), st'.namespaceTable = st.namespaceTable →
        allDigits ds.data →
        (decimalValue ds.data = 0 →
          storesNodeId st' ("ns=" ++ ds ++ ";" ++ rest) ⟨0, some rest⟩) ∧
        (∀ d, 1 ≤ decimalValue ds.data → decls[decimalValue ds.data - 1]? = some d →
          storesNodeId st' ("ns=" ++ ds ++ ";" ++ rest) ⟨(d.1 : Int), some rest⟩) := by
  refine ⟨_, run_namespaceEvents decls Nodeset_new (by simp [Nodeset_new]) hg, rfl, ?_⟩
  intro st' ds rest htab hds
  have htab' : st'.namespaceTable = ⟨0, some "http://opcfoundation.org/UA/"⟩ ::
      decls.map (fun d => ⟨d.1, some d.2⟩) := htab
  constructor
  · intro h0
    apply storesNodeId_of_extract
    have := (extractNodedId_forms st'.namespaceTable "" ds rest
      ⟨0, some "http://opcfoundation.org/UA/"⟩ (by decide) hds (by omega)
      (by rw [htab', h0]; simp)).2
    simpa [h0] using this
  · intro d h1 hd
    apply storesNodeId_of_extract
    obtain ⟨hlt, hget⟩ := List.getElem?_eq_some.mp hd
    have hmem : d ∈ decls := hget ▸ List.getElem_mem hlt
    have hdg := hg d hmem
    have hk : decimalValue ds.data < 2 ^ 31 := by omega
    have := (extractNodedId_forms st'.namespaceTable "" ds rest ⟨d.1, some d.2⟩
      (by decide) hds hk (by
        rw [htab']
        obtain ⟨k, hk'⟩ : ∃ k, decimalValue ds.data = k + 1 := ⟨decimalValue ds.data - 1, by omega⟩
        rw [hk'] at hd ⊢
        simpa using hd)).2
    simpa [show 0 < decimalValue ds.data from h1, toInt32_of_lt d.1 hdg] using this

/-- C5 at the scenario of the spec: the URI `urn:acme` declared at file-local index 1, the
host callback returning 7, and the NodeId text `ns=1;i=10`. -/
theorem namespace_translation_witness :
    ∃ st, run Nodeset_new (namespaceEvents [(7, "urn:acme")]) = some st ∧
      st.namespaceTable
        = [⟨0, some "http://opcfoundation.org/UA/"⟩, ⟨7, some "urn:acme"⟩] ∧
      storesNodeId st "ns=1;i=10" ⟨7, some "i=10"⟩ := by
  obtain ⟨st, h1, h2, h3⟩ := namespace_translation [(7, "urn:acme")] (by decide) (by decide)
  exact ⟨st, h1, h2, (h3 st "1" "i=10" rfl (by decide)).2 (7, "urn:acme") (by decide)
    (by decide)⟩

/-! ## Alias table -/

theorem alias2Id_found (st : Nodeset) (s : String) (a : Alias) (ha : a ∈ st.aliasList)
    (hname : a.name = some s) (huniq : ∀ b ∈ st.aliasList, b.name = some s → b = a) :
    alias2Id st (some s) = some a.id := by
  unfold alias2Id AliasList_getNodeId
  cases hf : st.aliasList.find? (fun x => x.name = some s) with
  | none =>
    rw [List.find?_eq_none] at hf
    exact absurd hname (by simpa using hf a ha)
  | some b =>
    have hb : b.name = some s := by simpa using List.find?_some hf
    have := huniq b (List.mem_of_find?_eq_some hf) hb
    subst this
    simp [hf]

theorem alias2Id_not_found (st : Nodeset) (s : String)
    (hno : ∀ b ∈ st.aliasList, b.name ≠ some s) :
    alias2Id st (some s) = extractNodedId st.namespaceTable (some s) := by
  unfold alias2Id AliasList_getNodeId
  have hf : st.aliasList.find? (fun x => x.name = some s) = none := by
    rw [List.find?_eq_none]
    intro b hb
    simpa using hno b hb
  simp [hf]

/-- C6: `alias2Id` returns the NodeId stored for the alias named `s` when the alias table
holds an alias `a` of that name (the only one of that name), and for a text `t` that is no
alias name it returns what `extractNodedId` parses from `t` with the current namespace
table. -/
theorem alias2Id_lookup (nodeset : Nodeset) (s t : String) (a : Alias)
    (ha : a ∈ nodeset.aliasList) (hname : a.name = some s)
    (huniq : ∀ b ∈ nodeset.aliasList, b.name = some s → b = a)
    (hno : ∀ b ∈ nodeset.aliasList, b.name ≠ some t) :
    alias2Id nodeset (some s) = some a.id ∧
    alias2Id nodeset (some t) = extractNodedId nodeset.namespaceTable (some t) :=
  ⟨alias2Id_found nodeset s a ha hname huniq, alias2Id_not_found nodeset t hno⟩

/-- C6 with the alias `HasComponent = i=47` in the table: the alias name resolves to its id,
the text `i=85` is parsed. -/
theorem alias2Id_lookup_witness :
    alias2Id { Nodeset_new with aliasList := [⟨some "HasComponent", ⟨0, some "i=47"⟩⟩] }
        (some "HasComponent") = some ⟨0, some "i=47"⟩ ∧
    alias2Id { Nodeset_new with aliasList := [⟨some "HasComponent", ⟨0, some "i=47"⟩⟩] }
        (some "i=85")
      = extractNodedId Nodeset_new.namespaceTable (some "i=85") :=
  alias2Id_lookup { Nodeset_new with aliasList := [⟨some "HasComponent", ⟨0, some "i=47"⟩⟩] }
    "HasComponent" "i=85" ⟨some "HasComponent", ⟨0, some "i=47"⟩⟩
    (by simp) rfl (by simp) (by simp)

/-! ## Classification of references -/

theorem TNodeId_cmp_eq_zero (a b : TNodeId) : TNodeId_cmp a b = 0 ↔ a = b := by
  unfold TNodeId_cmp
  by_cases h : a = b <;> simp [h]

theorem isHierachicalReference_iff (st : Nodeset) (id : TNodeId) :
    isHierachicalReference st id = true ↔ inH st id := by
  unfold isHierachicalReference inH
  simp only [List.any_eq_true, decide_eq_true_eq, TNodeId_cmp_eq_zero, List.mem_map]
  constructor
  · rintro ⟨h, hm, e⟩; exact ⟨h, hm, e.symm⟩
  · rintro ⟨h, hm, e⟩; exact ⟨h, hm, e.symm⟩

theorem isKnownReferenceTypeLoop_spec (heap : List TNode) (id : TNodeId) :
    ∀ l : List Nat, (∀ h ∈ l, h < heap.length) →
      ∃ b, isKnownReferenceTypeLoop heap id l = some b ∧
        (b = true ↔ ∃ h ∈ l, ∃ n, heap[h]? = some n ∧ n.id = id)
  | [], _ => ⟨false, rfl, by simp⟩
  | h :: rest, hv => by
    have hh : h < heap.length := hv h (by simp)
    obtain ⟨b, hb, hiff⟩ := isKnownReferenceTypeLoop_spec heap id rest
      (fun x hx => hv x (by simp [hx]))
    unfold isKnownReferenceTypeLoop
    simp only [List.getElem?_eq_getElem hh, TNodeId_cmp_eq_zero]
    by_cases hid : id = heap[h].id
    · refine ⟨true, by simp [hid], ?_⟩
      simp only [true_iff]
      exact ⟨h, by simp, heap[h], List.getElem?_eq_getElem hh, hid.symm⟩
    · refine ⟨b, by simp [hid, hb], ?_⟩
      rw [hiff]
      constructor
      · rintro ⟨x, hx, n, hn, e⟩
        exact ⟨x, by simp [hx], n, hn, e⟩
      · rintro ⟨x, hx, n, hn, e⟩
        simp only [List.mem_cons] at hx
        rcases hx with hx | hx
        · subst hx
          rw [List.getElem?_eq_getElem hh] at hn
          cases hn
          exact absurd e.symm hid
        · exact ⟨x, hx, n, hn, e⟩

theorem isKnownReferenceType_spec (st : Nodeset) (id : TNodeId)
    (hv : ∀ h ∈ st.nodes NODECLASS_REFERENCETYPE, h < st.heap.length) :
    ∃ b, isKnownReferenceType st id = some b ∧
      (b = false ↔ id.nsIdx ≠ 0 ∧ ¬ inReferenceTypeContainer st id) := by
  unfold isKnownReferenceType
  by_cases h0 : id.nsIdx = 0
  · exact ⟨true, by simp [h0], by simp [h0]⟩
  · obtain ⟨b, hb, hiff⟩ := isKnownReferenceTypeLoop_spec st.heap id _ hv
    refine ⟨b, by simp [h0, hb], ?_⟩
    unfold inReferenceTypeContainer
    rw [← hiff]
    cases b <;> simp [h0]

/-- What `Nodeset_newReference` does when it returns. -/
theorem Nodeset_newReference_eq {st st' : Nodeset} {node r : Nat} {attrs : List XmlAttribute}
    (e : Nodeset_newReference st node attrs = some (st', r)) :
    ∃ text refType known owner,
      getAttributeValue attrIsForward attrs = some text ∧
      alias2Id st (getAttributeValue attrReferenceType attrs) = some refType ∧
      isKnownReferenceType st refType = some known ∧
      st.heap[node]? = some owner ∧ r = st.countedRefs.length ∧
      st' = { st with
        countedRefs := st.countedRefs ++ [⟨decide (text = "true"), refType, ⟨0, none⟩⟩]
        heap := st.heap.set node
          (if (isHierachicalReference st refType || !known) = true then
            { owner with hierachicalRefs := st.countedRefs.length :: owner.hierachicalRefs }
          else
            { owner with
              nonHierachicalRefs := st.countedRefs.length :: owner.nonHierachicalRefs }) } := by
  unfold Nodeset_newReference at e
  simp only [Option.bind_eq_bind] at e
  cases h1 : getAttributeValue attrIsForward attrs with
  | none => simp [h1] at e
  | some text =>
    cases h2 : alias2Id st (getAttributeValue attrReferenceType attrs) with
    | none => simp [h1, h2] at e
    | some refType =>
      cases h3 : isKnownReferenceType st refType with
      | none => simp [h1, h2, h3] at e
      | some known =>
        cases h4 : st.heap[node]? with
        | none => simp [h1, h2, h3, h4] at e
        | some owner =>
          simp only [h1, h2, h3, h4, Option.some_bind, Option.some.injEq, Prod.mk.injEq] at e
          exact ⟨text, refType, known, owner, rfl, rfl, h3, rfl, e.2.symm, e.1.symm⟩

/-- `Nodeset_newReference` returns when the owner is allocated, the reference type resolves
and the ReferenceType container holds allocated nodes. -/
theorem Nodeset_newReference_isSome (st : Nodeset) (node : Nat) (attrs : List XmlAttribute)
    (owner : TNode) (refType : TNodeId) (hnode : st.heap[node]? = some owner)
    (hres : alias2Id st (getAttributeValue attrReferenceType attrs) = some refType)
    (hv : ∀ h ∈ st.nodes NODECLASS_REFERENCETYPE, h < st.heap.length) :
    ∃ st', Nodeset_newReference st node attrs = some (st', st.countedRefs.length) := by
  obtain ⟨b, hb, _⟩ := isKnownReferenceType_spec st refType hv
  have hf : ∃ text, getAttributeValue attrIsForward attrs = some text := by
    unfold getAttributeValue
    cases attrs.find? (fun a => a.localname = attrIsForward.name) with
    | none => exact ⟨"true", rfl⟩
    | some a => exact ⟨a.value, rfl⟩
  obtain ⟨text, hf⟩ := hf
  unfold Nodeset_newReference
  simp [hf, hres, hb, hnode]

/-- C8: for every builder state, owner node and attribute list (the owner allocated, the
reference type resolving to `refType`, the ReferenceType container holding allocated nodes),
`Nodeset_newReference` creates the reference `r` with that type and pushes it on the owner's
hierarchical list if and only if `refType` is in the hierarchical set `H`, or
`refType.nsIdx ≠ 0` and `refType` is not the id of a node in the ReferenceType container;
otherwise on the non-hierarchical list. In particular a `refType` in namespace 0 that is not
in `H` goes to the non-hierarchical list. -/
theorem newReference_classification (nodeset : Nodeset) (node : Nat)
    (attrs : List XmlAttribute) (before : TNode) (refType : TNodeId)
    (hnode : nodeset.heap[node]? = some before)
    (hres : alias2Id nodeset (getAttributeValue attrReferenceType attrs) = some refType)
    (hv : ∀ h ∈ nodeset.nodes NODECLASS_REFERENCETYPE, h < nodeset.heap.length) :
    ∃ after r ref owner, Nodeset_newReference nodeset node attrs = some (after, r) ∧
      r = nodeset.countedRefs.length ∧
      after.countedRefs[r]? = some ref ∧ ref.refType = refType ∧
      after.heap[node]? = some owner ∧
      ((owner.hierachicalRefs = r :: before.hierachicalRefs ∧
          owner.nonHierachicalRefs = before.nonHierachicalRefs) ↔
        (inH nodeset refType ∨
          (refType.nsIdx ≠ 0 ∧ ¬ inReferenceTypeContainer nodeset refType))) ∧
      ((owner.nonHierachicalRefs = r :: before.nonHierachicalRefs ∧
          owner.hierachicalRefs = before.hierachicalRefs) ↔
        ¬ (inH nodeset refType ∨
          (refType.nsIdx ≠ 0 ∧ ¬ inReferenceTypeContainer nodeset refType))) ∧
      (refType.nsIdx = 0 → ¬ inH nodeset refType →
        owner.nonHierachicalRefs = r :: before.nonHierachicalRefs ∧
          owner.hierachicalRefs = before.hierachicalRefs) := by
  obtain ⟨after, hafter⟩ := Nodeset_newReference_isSome nodeset node attrs before refType
    hnode hres hv
  obtain ⟨text, refType', known, owner0, _, hres', hknown, hnode', _, hst⟩ :=
    Nodeset_newReference_eq hafter
  rw [hres] at hres'
  cases hres'
  rw [hnode] at hnode'
  cases hnode'
  obtain ⟨b, hb, hbiff⟩ := isKnownReferenceType_spec nodeset refType hv
  rw [hknown] at hb
  cases hb
  have hlt : node < nodeset.heap.length := (List.getElem?_eq_some.mp hnode).1
  have hcond : (isHierachicalReference nodeset refType || !known) = true ↔
      (inH nodeset refType ∨
        (refType.nsIdx ≠ 0 ∧ ¬ inReferenceTypeContainer nodeset refType)) := by
    rw [← hbiff, ← isHierachicalReference_iff]
    cases known <;> simp
  have hne1 : ∀ l : List Nat, l ≠ nodeset.countedRefs.length :: l := fun l h => by
    have := congrArg List.length h
    simp at this
  by_cases hc : (isHierachicalReference nodeset refType || !known) = true
  · have hP := hcond.mp hc
    refine ⟨after, _, ⟨decide (text = "true"), refType, ⟨0, none⟩⟩,
      { before with hierachicalRefs := nodeset.countedRefs.length :: before.hierachicalRefs },
      hafter, rfl, by simp [hst], rfl, by simp [hst, hc, List.getElem?_set_self hlt], ?_, ?_, ?_⟩
    · simp [hP]
    · simp only [hP, not_true_eq_false, iff_false, not_and]
      intro h; exact absurd h (hne1 _)
    · intro h0 hnH
      rcases hP with hP | hP
      · exact absurd hP hnH
      · exact absurd h0 hP.1
  · have hP : ¬ _ := fun h => hc (hcond.mpr h)
    refine ⟨after, _, ⟨decide (text = "true"), refType, ⟨0, none⟩⟩,
      { before with
        nonHierachicalRefs := nodeset.countedRefs.length :: before.nonHierachicalRefs },
      hafter, rfl, by simp [hst], rfl, by simp [hst, hc, List.getElem?_set_self hlt], ?_, ?_, ?_⟩
    · simp only [hP, iff_false, not_and]
      intro h; exact absurd h (hne1 _)
    · simp [hP]
    · intro _ _; exact ⟨rfl, rfl⟩

/-- C8 in the state `machineState`: a second `Organizes` (`i=35`) reference of node 0 is
pushed on its hierarchical list. -/
theorem newReference_classification_witness :
    ∃ after r, Nodeset_newReference machineState 0 [attr "ReferenceType" "i=35"]
        = some (after, r) ∧
      (after.heap[0]?).map (fun n => n.hierachicalRefs) = some [1, 0] := by
  obtain ⟨after, r, ref, owner, h1, h2, _, _, h5, h6, _, _⟩ :=
    newReference_classification machineState 0 [attr "ReferenceType" "i=35"] machineNode
      ⟨0, some "i=35"⟩ (by decide) (by decide) (fun h hm => by simp [machineState_nodes] at hm)
  have hr : r = 1 := by rw [h2]; decide
  have := (h6.mpr (Or.inl (by decide))).1
  exact ⟨after, r, h1, by rw [h5, hr] at *; simp [this]; rfl⟩

/-! ## How the state grows along the events -/

theorem Extends.of_same {st st' : Nodeset} (hrefs : st'.countedRefs = st.countedRefs)
    (hheap : st'.heap = st.heap)
    (hH : ∃ added, st'.hierachicalRefs = st.hierachicalRefs ++ added)
    (hnodes : st'.nodes = st.nodes) : Extends st st' where
  refs_len := by rw [hrefs]
  refs_keep := fun i ref h => ⟨ref, by rw [hrefs]; exact h, rfl, rfl⟩
  heap_len := by rw [hheap]
  heap_keep := fun k n h => ⟨n, [], [], by rw [hheap]; exact h, rfl, rfl, rfl, rfl, by simp⟩
  heap_new := fun k n' hk h => by
    rw [hheap] at h
    have := (List.getElem?_eq_some.mp h).1
    omega
  h_keep := hH
  nodes_keep := hnodes

theorem Extends.refl (st : Nodeset) : Extends st st :=
  Extends.of_same rfl rfl ⟨[], by simp⟩ rfl

theorem Extends.trans {a b c : Nodeset} (h1 : Extends a b) (h2 : Extends b c) :
    Extends a c where
  refs_len := Nat.le_trans h1.refs_len h2.refs_len
  refs_keep := fun i ref h => by
    obtain ⟨r1, hr1, e1, f1⟩ := h1.refs_keep i ref h
    obtain ⟨r2, hr2, e2, f2⟩ := h2.refs_keep i r1 hr1
    exact ⟨r2, hr2, e2.trans e1, f2.trans f1⟩
  heap_len := Nat.le_trans h1.heap_len h2.heap_len
  heap_keep := fun k n h => by
    obtain ⟨n1, a1, a2, hn1, c1, i1, l1, m1, b1⟩ := h1.heap_keep k n h
    obtain ⟨n2, d1, d2, hn2, c2, i2, l2, m2, b2⟩ := h2.heap_keep k n1 hn1
    refine ⟨n2, d1 ++ a1, d2 ++ a2, hn2, c2.trans c1, i2.trans i1, ?_, ?_, ?_⟩
    · rw [l2, l1, List.append_assoc]
    · rw [m2, m1, List.append_assoc]
    · intro x hx
      have hl1 := h1.refs_len
      have hl2 := h2.refs_len
      simp only [List.mem_append] at hx
      rcases hx with (hx | hx) | (hx | hx)
      · have := b2 x (Or.inl hx); omega
      · have := b1 x (Or.inl hx); omega
      · have := b2 x (Or.inr hx); omega
      · have := b1 x (Or.inr hx); omega
  heap_new := fun k n2 hk h x hx => by
    have hl1 := h1.refs_len
    have hl2 := h2.refs_len
    rcases Nat.lt_or_ge k b.heap.length with hkb | hkb
    · obtain ⟨n1, hn1⟩ : ∃ n1, b.heap[k]? = some n1 := ⟨_, List.getElem?_eq_getElem hkb⟩
      obtain ⟨n2', d1, d2, hn2, _, _, l2, m2, b2⟩ := h2.heap_keep k n1 hn1
      rw [h] at hn2
      cases hn2
      rw [l2, m2] at hx
      simp only [List.mem_append] at hx
      rcases hx with (hx | hx) | (hx | hx)
      · have := b2 x (Or.inl hx); omega
      · have := h1.heap_new k n1 hk hn1 x (Or.inl hx); omega
      · have := b2 x (Or.inr hx); omega
      · have := h1.heap_new k n1 hk hn1 x (Or.inr hx); omega
    · have := h2.heap_new k n2 hkb h x hx
      omega
  h_keep := by
    obtain ⟨x, hx⟩ := h1.h_keep
    obtain ⟨y, hy⟩ := h2.h_keep
    exact ⟨x ++ y, by rw [hy, hx, List.append_assoc]⟩
  nodes_keep := h2.nodes_keep.trans h1.nodes_keep

theorem addIfHierachicalReferenceTypeLoop_eq (refs : List Reference) (node : TNode) :
    ∀ (l : List Nat) (H H' : List TNode),
      addIfHierachicalReferenceTypeLoop refs node l H = some H' →
      ∃ k, H' = H ++ List.replicate k node
  | [], H, H', e => by
    simp only [addIfHierachicalReferenceTypeLoop, Option.some.injEq] at e
    exact ⟨0, by simp [e]⟩
  | r :: l, H, H', e => by
    unfold addIfHierachicalReferenceTypeLoop at e
    cases hr : refs[r]? with
    | none => simp [hr] at e
    | some ref =>
      simp only [hr] at e
      split at e
      · obtain ⟨k, hk⟩ := addIfHierachicalReferenceTypeLoop_eq refs node l _ H' e
        exact ⟨k + 1, by rw [hk, List.append_assoc]; rfl⟩
      · exact addIfHierachicalReferenceTypeLoop_eq refs node l H H' e

/-- What `Nodeset_newNodeFinish` does when it returns. -/
theorem Nodeset_newNodeFinish_eq {st st' : Nodeset} {node : Nat}
    (e : Nodeset_newNodeFinish st node = some st') :
    ∃ n H, st.heap[node]? = some n ∧
      st' = { st with sortNodes := st.sortNodes ++ [node], hierachicalRefs := H } ∧
      (n.nodeClass ≠ NODECLASS_REFERENCETYPE → H = st.hierachicalRefs) ∧
      (n.nodeClass = NODECLASS_REFERENCETYPE →
        addIfHierachicalReferenceTypeLoop st.countedRefs n n.hierachicalRefs st.hierachicalRefs
          = some H) := by
  unfold Nodeset_newNodeFinish at e
  simp only [Option.bind_eq_bind] at e
  cases hn : st.heap[node]? with
  | none => simp [hn] at e
  | some n =>
    simp only [hn, Option.some_bind] at e
    by_cases hc : n.nodeClass = NODECLASS_REFERENCETYPE
    · simp only [hc, if_true, addIfHierachicalReferenceType, Option.bind_eq_bind, hn,
        Option.some_bind] at e
      cases hl : addIfHierachicalReferenceTypeLoop st.countedRefs n n.hierachicalRefs
          st.hierachicalRefs with
      | none => simp [hl] at e
      | some H =>
        simp only [hl, Option.some_bind, Option.some.injEq] at e
        exact ⟨n, H, rfl, e.symm, fun h => absurd hc h, fun _ => hl⟩
    · simp only [hc, if_false, Option.some.injEq] at e
      exact ⟨n, st.hierachicalRefs, rfl, e.symm, fun _ => rfl, fun h => absurd h hc⟩

theorem Extends.newNode {st st' : Nodeset} {c : TNodeClass} {attrs : List XmlAttribute}
    {h : Nat} (e : Nodeset_newNode st c attrs = some (st', h)) : Extends st st' := by
  obtain ⟨node, hn, _, hst⟩ := Nodeset_newNode_eq e
  obtain ⟨_, _, _, hl1, hl2, _⟩ := initNode_eq hn
  subst hst
  exact {
    refs_len := Nat.le_refl _
    refs_keep := fun i ref h => ⟨ref, h, rfl, rfl⟩
    heap_len := by simp
    heap_keep := fun k n h => by
      have hk := (List.getElem?_eq_some.mp h).1
      exact ⟨n, [], [], by simp [List.getElem?_append_left hk, h], rfl, rfl, rfl, rfl, by simp⟩
    heap_new := fun k n' hk h x hx => by
      simp only [List.getElem?_append_right hk] at h
      have : n' = node := by
        cases hkk : k - st.heap.length with
        | zero => rw [hkk] at h; simpa using h.symm
        | succ m => rw [hkk] at h; simp at h
      subst this
      rw [hl1, hl2] at hx
      simp at hx
    h_keep := ⟨[], by simp⟩
    nodes_keep := rfl }

theorem Extends.newNodeFinish {st st' : Nodeset} {node : Nat}
    (e : Nodeset_newNodeFinish st node = some st') : Extends st st' := by
  obtain ⟨n, H, _, hst, h1, h2⟩ := Nodeset_newNodeFinish_eq e
  subst hst
  refine Extends.of_same rfl rfl ?_ rfl
  by_cases hc : n.nodeClass = NODECLASS_REFERENCETYPE
  · obtain ⟨k, hk⟩ := addIfHierachicalReferenceTypeLoop_eq _ _ _ _ _ (h2 hc)
    exact ⟨_, hk⟩
  · exact ⟨[], by simp [h1 hc]⟩

theorem Extends.newReference {st st' : Nodeset} {node r : Nat} {attrs : List XmlAttribute}
    (e : Nodeset_newReference st node attrs = some (st', r)) : Extends st st' := by
  obtain ⟨text, refType, known, owner, _, _, _, hnode, _, hst⟩ := Nodeset_newReference_eq e
  have hlt : node < st.heap.length := (List.getElem?_eq_some.mp hnode).1
  subst hst
  exact {
    refs_len := by simp
    refs_keep := fun i ref h => by
      have hi := (List.getElem?_eq_some.mp h).1
      exact ⟨ref, by simp [List.getElem?_append_left hi, h], rfl, rfl⟩
    heap_len := by simp
    heap_keep := fun k n h => by
      by_cases hk : node = k
      · subst hk
        rw [hnode] at h
        cases h
        by_cases hc : (isHierachicalReference st refType || !known) = true
        · exact ⟨{ owner with
              hierachicalRefs := st.countedRefs.length :: owner.hierachicalRefs },
            [st.countedRefs.length], [], by
            simp [hc, List.getElem?_set_self hlt], rfl, rfl, rfl, rfl, by simp⟩
        · exact ⟨{ owner with
              nonHierachicalRefs := st.countedRefs.length :: owner.nonHierachicalRefs },
            [], [st.countedRefs.length], by
            simp [hc, List.getElem?_set_self hlt], rfl, rfl, rfl, rfl, by simp⟩
      · exact ⟨n, [], [], by simp [List.getElem?_set_ne hk, h], rfl, rfl, rfl, rfl, by simp⟩
    heap_new := fun k n' hk h x hx => by
      have := (List.getElem?_eq_some.mp h).1
      simp only [List.length_set] at this
      omega
    h_keep := ⟨[], by simp⟩
    nodes_keep := rfl }

theorem Extends.newReferenceFinish {st st' : Nodeset} {r : Nat} {t : Option String}
    (e : Nodeset_newReferenceFinish st r t = some st') : Extends st st' := by
  obtain ⟨record, target, hrec, _, hst⟩ := Nodeset_newReferenceFinish_eq e
  have hlt : r < st.countedRefs.length := (List.getElem?_eq_some.mp hrec).1
  subst hst
  exact {
    refs_len := by simp
    refs_keep := fun i ref h => by
      by_cases hi : r = i
      · subst hi
        rw [hrec] at h
        cases h
        exact ⟨{ record with target := target }, by simp [List.getElem?_set_self hlt],
          rfl, rfl⟩
      · exact ⟨ref, by simp [List.getElem?_set_ne hi, h], rfl, rfl⟩
    heap_len := Nat.le_refl _
    heap_keep := fun k n h => ⟨n, [], [], h, rfl, rfl, rfl, rfl, by simp⟩
    heap_new := fun k n' hk h x hx => by
      have : k < st.heap.length := (List.getElem?_eq_some.mp h).1
      omega
    h_keep := ⟨[], by simp⟩
    nodes_keep := rfl }

theorem step_extends {st st' : Nodeset} {ev : Event} (e : step st ev = some st') :
    Extends st st' := by
  cases ev with
  | newNode c attrs =>
    simp only [step, Option.map_eq_some'] at e
    obtain ⟨⟨st1, h⟩, e1, rfl⟩ := e
    exact Extends.newNode e1
  | newNodeFinish n => exact Extends.newNodeFinish e
  | newReference n attrs =>
    simp only [step, Option.map_eq_some'] at e
    obtain ⟨⟨st1, r⟩, e1, rfl⟩ := e
    exact Extends.newReference e1
  | newReferenceFinish r t => exact Extends.newReferenceFinish e
  | newAlias attrs =>
    simp only [step, Option.some.injEq] at e
    subst e
    exact Extends.of_same rfl rfl ⟨[], by simp [Nodeset_newAlias]⟩ rfl
  | newAliasFinish a t =>
    obtain ⟨_, _, _, _, hst⟩ := Nodeset_newAliasFinish_eq e
    subst hst
    exact Extends.of_same rfl rfl ⟨[], by simp⟩ rfl
  | newNamespace =>
    simp only [step, Option.some.injEq] at e
    subst e
    exact Extends.of_same rfl rfl ⟨[], by simp [Nodeset_newNamespace]⟩ rfl
  | newNamespaceFinish g uri =>
    simp only [step, Nodeset_newNamespaceFinish] at e
    split at e
    · cases e
    · cases e
      exact Extends.of_same rfl rfl ⟨[], by simp⟩ rfl

theorem run_extends : ∀ (es : List Event) (st st' : Nodeset),
    run st es = some st' → Extends st st'
  | [], st, st', e => by
    simp only [run, List.foldlM_nil, pure, Option.some.injEq] at e
    subst e
    exact Extends.refl _
  | ev :: es, st, st', e => by
    rw [run_cons] at e
    cases h1 : step st ev with
    | none => simp [h1] at e
    | some st1 =>
      simp only [h1, Option.some_bind] at e
      exact (step_extends h1).trans (run_extends es st1 st' e)

/-- The builder events leave the containers empty: they are filled by `Nodeset_addNode`
only, so they hold nodes of their class in every state reached from `Nodeset_new`. -/
theorem run_classContainers {es : List Event} {st : Nodeset}
    (h : run Nodeset_new es = some st) : classContainers st := by
  intro c x hx
  rw [(run_extends es _ _ h).nodes_keep] at hx
  simp [Nodeset_new] at hx

/-! ## The two reference lists of a node -/

/-- In a state reached from `Nodeset_new`, the lists of a node hold allocated references. -/
theorem run_refs_bounded {es : List Event} {st : Nodeset} (h : run Nodeset_new es = some st)
    {k : Nat} {n : TNode} (hn : st.heap[k]? = some n) :
    ∀ x, x ∈ n.hierachicalRefs ∨ x ∈ n.nonHierachicalRefs → x < st.countedRefs.length :=
  fun x hx => ((run_extends es _ _ h).heap_new k n (Nat.zero_le _) hn x hx).2

/-- C9: in every sequence of builder events from `Nodeset_new`, a reference `r` created by
`Nodeset_newReference` for a node occurs, after any further events, exactly once in the
concatenation of that node's hierarchical and non-hierarchical lists, and not in both. -/
theorem reference_in_exactly_one_list (es1 es2 : List Event) (node : Nat)
    (attrs : List XmlAttribute) (st1 st2 st3 : Nodeset) (r : Nat)
    (h1 : run Nodeset_new es1 = some st1)
    (h2 : Nodeset_newReference st1 node attrs = some (st2, r))
    (h3 : run st2 es2 = some st3) :
    ∃ owner, st3.heap[node]? = some owner ∧
      (owner.hierachicalRefs ++ owner.nonHierachicalRefs).count r = 1 ∧
      ¬ (r ∈ owner.hierachicalRefs ∧ r ∈ owner.nonHierachicalRefs) := by
  obtain ⟨text, refType, known, owner0, _, _, _, hnode, hr, hst⟩ := Nodeset_newReference_eq h2
  have hlt : node < st1.heap.length := (List.getElem?_eq_some.mp hnode).1
  have hb := run_refs_bounded h1 hnode
  have hc1 : owner0.hierachicalRefs.count r = 0 := by
    rw [List.count_eq_zero]
    intro hm
    have := hb r (Or.inl hm)
    omega
  have hc2 : owner0.nonHierachicalRefs.count r = 0 := by
    rw [List.count_eq_zero]
    intro hm
    have := hb r (Or.inr hm)
    omega
  have hlen2 : st2.countedRefs.length = r + 1 := by rw [hst, hr]; simp
  have hown : ∃ owner1, st2.heap[node]? = some owner1 ∧
      owner1.hierachicalRefs.count r + owner1.nonHierachicalRefs.count r = 1 := by
    by_cases hc : (isHierachicalReference st1 refType || !known) = true
    · refine ⟨{ owner0 with hierachicalRefs := r :: owner0.hierachicalRefs }, ?_, ?_⟩
      · rw [hst, hr]; simp [hc, List.getElem?_set_self hlt]
      · simp [List.count_cons, hc1, hc2]
    · refine ⟨{ owner0 with nonHierachicalRefs := r :: owner0.nonHierachicalRefs }, ?_, ?_⟩
      · rw [hst, hr]; simp [hc, List.getElem?_set_self hlt]
      · simp [List.count_cons, hc1, hc2]
  obtain ⟨owner1, ho1, hcount⟩ := hown
  obtain ⟨owner, new1, new2, ho, _, _, hl1, hl2, hnew⟩ :=
    (run_extends es2 st2 st3 h3).heap_keep node owner1 ho1
  have hn1 : new1.count r = 0 := by
    rw [List.count_eq_zero]
    intro hm
    have := hnew r (Or.inl hm)
    omega
  have hn2 : new2.count r = 0 := by
    rw [List.count_eq_zero]
    intro hm
    have := hnew r (Or.inr hm)
    omega
  have htotal : (owner.hierachicalRefs ++ owner.nonHierachicalRefs).count r = 1 := by
    rw [hl1, hl2]
    simp only [List.count_append, hn1, hn2]
    omega
  refine ⟨owner, ho, htotal, ?_⟩
  rintro ⟨ha, hb'⟩
  have p1 : 0 < owner.hierachicalRefs.count r := List.count_pos_iff.mpr ha
  have p2 : 0 < owner.nonHierachicalRefs.count r := List.count_pos_iff.mpr hb'
  rw [List.count_append] at htotal
  omega

/-- C9 in the nodeset `machineEvents`: the reference 0 of node 0, after the later events. -/
theorem reference_in_exactly_one_list_witness :
    ∃ owner, machineState.heap[0]? = some owner ∧
      (owner.hierachicalRefs ++ owner.nonHierachicalRefs).count 0 = 1 ∧
      ¬ (0 ∈ owner.hierachicalRefs ∧ 0 ∈ owner.nonHierachicalRefs) :=
  reference_in_exactly_one_list (machineEvents.take 1) (machineEvents.drop 2) 0
    [attr "ReferenceType" "i=35"]
    ((run Nodeset_new (machineEvents.take 1)).getD Nodeset_new)
    ((run Nodeset_new (machineEvents.take 2)).getD Nodeset_new)
    machineState 0 rfl rfl rfl

/-! ## Aliases and the order of the events -/

/-- C7, as stated, fails: with the alias `HasComponent = i=47` declared before the reference
that names it, the reference type is stored as `(0, "i=47")`; with the declaration moved
behind the use it is stored as `(0, "HasComponent")`. -/
theorem alias_declared_after_use :
    (run Nodeset_new aliasBeforeUse).map (fun st => st.countedRefs.map (fun r => r.refType))
      = some [⟨0, some "i=47"⟩] ∧
    (run Nodeset_new aliasAfterUse).map (fun st => st.countedRefs.map (fun r => r.refType))
      = some [⟨0, some "HasComponent"⟩] := by
  decide

/-- C7, amended: a use of an alias is resolved when it is parsed, against the alias table of
that moment, and no later event changes the stored NodeId. A reference created with the
`ReferenceType` text `s` has, after any further events, the reference type that `alias2Id`
gave in the state of its creation: the id of the alias named `s` if that alias was declared
before, and the NodeId parsed from `s` itself if no alias of that name was declared yet. -/
theorem alias_resolution_at_use (st st' st'' : Nodeset) (node r : Nat)
    (attrs : List XmlAttribute) (s : String) (es : List Event)
    (hattr : getAttributeValue attrReferenceType attrs = some s)
    (hnew : Nodeset_newReference st node attrs = some (st', r))
    (hrun : run st' es = some st'') :
    (st''.countedRefs[r]?).map (fun x => x.refType) = alias2Id st (some s) ∧
    (∀ a ∈ st.aliasList, a.name = some s →
      (∀ b ∈ st.aliasList, b.name = some s → b = a) →
      (st''.countedRefs[r]?).map (fun x => x.refType) = some a.id) ∧
    ((∀ b ∈ st.aliasList, b.name ≠ some s) →
      (st''.countedRefs[r]?).map (fun x => x.refType)
        = extractNodedId st.namespaceTable (some s)) := by
  obtain ⟨text, refType, known, owner, _, hres, _, _, hr, hst⟩ := Nodeset_newReference_eq hnew
  rw [hattr] at hres
  have h0 : st'.countedRefs[r]? = some ⟨decide (text = "true"), refType, ⟨0, none⟩⟩ := by
    rw [hst, hr]; simp
  obtain ⟨ref', href', hty, _⟩ := (run_extends es st' st'' hrun).refs_keep r _ h0
  have hmain : (st''.countedRefs[r]?).map (fun x => x.refType) = alias2Id st (some s) := by
    rw [href', hres]; simp [hty]
  refine ⟨hmain, ?_, ?_⟩
  · intro a ha hname huniq
    rw [hmain, alias2Id_found st s a ha hname huniq]
  · intro hno
    rw [hmain, alias2Id_not_found st s hno]

/-- The amended C7 at the events `aliasBeforeUse`, taking the last event as the use. -/
theorem alias_resolution_at_use_witness :
    (((run Nodeset_new (aliasBeforeUse ++ [Event.newNodeFinish 0])).getD
        Nodeset_new).countedRefs[0]?).map (fun x => x.refType)
      = alias2Id ((run Nodeset_new (aliasBeforeUse.take 3)).getD Nodeset_new)
          (some "HasComponent") :=
  (alias_resolution_at_use ((run Nodeset_new (aliasBeforeUse.take 3)).getD Nodeset_new)
    ((run Nodeset_new aliasBeforeUse).getD Nodeset_new)
    ((run Nodeset_new (aliasBeforeUse ++ [Event.newNodeFinish 0])).getD Nodeset_new)
    0 0 [attr "ReferenceType" "HasComponent"] "HasComponent" [Event.newNodeFinish 0]
    rfl rfl rfl).1

/-! ## Promotion into the hierarchical set -/

theorem Extends.inH {a b : Nodeset} (E : Extends a b) {id : TNodeId} (h : inH a id) :
    inH b id := by
  obtain ⟨added, hadd⟩ := E.h_keep
  unfold NodesetLoader.inH at h ⊢
  rw [hadd, List.map_append, List.mem_append]
  exact Or.inl h

theorem addIfHierachicalReferenceTypeLoop_isSome (refs : List Reference) (node : TNode) :
    ∀ (l : List Nat) (H : List TNode), (∀ x ∈ l, x < refs.length) →
      ∃ H', addIfHierachicalReferenceTypeLoop refs node l H = some H'
  | [], H, _ => ⟨H, rfl⟩
  | r :: l, H, hv => by
    have hr : r < refs.length := hv r (by simp)
    have hl : ∀ x ∈ l, x < refs.length := fun x hx => hv x (by simp [hx])
    unfold addIfHierachicalReferenceTypeLoop
    simp only [List.getElem?_eq_getElem hr]
    split
    · exact addIfHierachicalReferenceTypeLoop_isSome refs node l _ hl
    · exact addIfHierachicalReferenceTypeLoop_isSome refs node l _ hl

/-- An inverse reference on the list whose target is in the table makes the loop append the
node. -/
theorem addIfHierachicalReferenceTypeLoop_promotes (refs : List Reference) (node : TNode)
    (r : Nat) (ref : Reference) (href : refs[r]? = some ref) (hinv : ref.isForward = false) :
    ∀ (l : List Nat) (H H' : List TNode),
      addIfHierachicalReferenceTypeLoop refs node l H = some H' → r ∈ l →
      ref.target ∈ H.map (fun h => h.id) → node ∈ H'
  | [], _, _, _, hr, _ => by simp at hr
  | x :: l, H, H', e, hr, ht => by
    unfold addIfHierachicalReferenceTypeLoop at e
    cases hx : refs[x]? with
    | none => simp [hx] at e
    | some rx =>
      simp only [hx] at e
      split at e
      · obtain ⟨k, hk⟩ := addIfHierachicalReferenceTypeLoop_eq refs node l _ H' e
        rw [hk]
        simp
      · rename_i hcond
        simp only [List.mem_cons] at hr
        rcases hr with hr | hr
        · exfalso
          subst hr
          rw [href] at hx
          cases hx
          apply hcond
          simp only [hinv, Bool.not_false, Bool.true_and, List.any_eq_true, decide_eq_true_eq,
            TNodeId_cmp_eq_zero]
          obtain ⟨h, hm, he⟩ := List.mem_map.mp ht
          exact ⟨h, hm, he⟩
        · exact addIfHierachicalReferenceTypeLoop_promotes refs node r ref href hinv l H H' e
            hr ht

/-- In a state reached from `Nodeset_new`, a reference on a non-hierarchical list does not
have one of the built-in hierarchical reference types. -/
theorem nonHierachical_not_builtin : ∀ (es : List Event) (st : Nodeset),
    run Nodeset_new es = some st →
    ∀ (k : Nat) (n : TNode), st.heap[k]? = some n → ∀ r ∈ n.nonHierachicalRefs,
      ∀ ref, st.countedRefs[r]? = some ref → ¬ inH Nodeset_new ref.refType := by
  intro es
  induction es using List.reverseRecOn with
  | nil =>
    intro st h k n hn
    simp only [run, List.foldlM_nil, pure, Option.some.injEq] at h
    subst h
    simp [Nodeset_new] at hn
  | append_singleton es ev ih =>
    intro st h k n hn r hr ref href
    rw [run_append] at h
    cases h1 : run Nodeset_new es with
    | none => simp [h1] at h
    | some st1 =>
      simp only [h1, Option.some_bind, run_cons] at h
      have hstep : step st1 ev = some st := by
        cases h2 : step st1 ev with
        | none => simp [h2] at h
        | some st2 => simpa [h2, run] using h
      have ih1 := ih st1 h1
      have hb1 := fun k n (hn : st1.heap[k]? = some n) => run_refs_bounded h1 hn
      cases ev with
      | newNode c attrs =>
        simp only [step, Option.map_eq_some'] at hstep
        obtain ⟨⟨st2, h'⟩, e1, rfl⟩ := hstep
        obtain ⟨node, hinit, _, hst⟩ := Nodeset_newNode_eq e1
        obtain ⟨_, _, _, _, hl2, _⟩ := initNode_eq hinit
        subst hst
        rcases Nat.lt_or_ge k st1.heap.length with hk | hk
        · rw [show ({ st1 with heap := st1.heap ++ [node] } : Nodeset).heap[k]?
            = st1.heap[k]? from List.getElem?_append_left hk] at hn
          exact ih1 k n hn r hr ref href
        · rw [show ({ st1 with heap := st1.heap ++ [node] } : Nodeset).heap[k]?
            = [node][k - st1.heap.length]? from List.getElem?_append_right hk] at hn
          have : n = node := by
            cases hkk : k - st1.heap.length with
            | zero => rw [hkk] at hn; simpa using hn.symm
            | succ m => rw [hkk] at hn; simp at hn
          subst this
          rw [hl2] at hr
          simp at hr
      | newNodeFinish x =>
        obtain ⟨_, _, _, hst, _, _⟩ := Nodeset_newNodeFinish_eq hstep
        subst hst
        exact ih1 k n hn r hr ref href
      | newReference x attrs =>
        simp only [step, Option.map_eq_some'] at hstep
        obtain ⟨⟨st2, r0⟩, e1, rfl⟩ := hstep
        obtain ⟨text, refType, known, owner, _, _, _, hnode, _, hst⟩ :=
          Nodeset_newReference_eq e1
        have hlt : x < st1.heap.length := (List.getElem?_eq_some.mp hnode).1
        subst hst
        have hold : ∀ n0, st1.heap[k]? = some n0 → r ∈ n0.nonHierachicalRefs →
            ¬ inH Nodeset_new ref.refType := by
          intro n0 hn0 hr0
          have hrlt := hb1 k n0 hn0 r (Or.inr hr0)
          rw [show ({ st1 with countedRefs := st1.countedRefs ++ [_] } : Nodeset).countedRefs[r]?
            = st1.countedRefs[r]? from List.getElem?_append_left hrlt] at href
          exact ih1 k n0 hn0 r hr0 ref href
        by_cases hk : x = k
        · subst hk
          simp only [List.getElem?_set_self hlt, Option.some.injEq] at hn
          by_cases hc : (isHierachicalReference st1 refType || !known) = true
          · simp only [hc, if_true] at hn
            subst hn
            exact hold owner hnode hr
          · simp only [hc, if_false] at hn
            subst hn
            rcases List.mem_cons.mp hr with hr | hr
            · subst hr
              simp only [List.getElem?_concat_length, Option.some.injEq] at href
              subst href
              intro hin
              have hin1 : inH st1 refType := (run_extends es _ _ h1).inH hin
              rw [← isHierachicalReference_iff] at hin1
              simp [hin1] at hc
            · exact hold owner hnode hr
        · rw [show ({ st1 with heap := st1.heap.set x _ } : Nodeset).heap[k]?
            = st1.heap[k]? from List.getElem?_set_ne hk] at hn
          exact hold n hn hr
      | newReferenceFinish r0 t =>
        obtain ⟨record, target, hrec, _, hst⟩ := Nodeset_newReferenceFinish_eq hstep
        have hlt : r0 < st1.countedRefs.length := (List.getElem?_eq_some.mp hrec).1
        subst hst
        by_cases hk : r0 = r
        · subst hk
          simp only [List.getElem?_set_self hlt, Option.some.injEq] at href
          subst href
          exact ih1 k n hn r0 hr record hrec
        · rw [show ({ st1 with countedRefs := st1.countedRefs.set r0 _ } : Nodeset).countedRefs[r]?
            = st1.countedRefs[r]? from List.getElem?_set_ne hk] at href
          exact ih1 k n hn r hr ref href
      | newAlias attrs =>
        simp only [step, Option.some.injEq] at hstep
        subst hstep
        exact ih1 k n hn r hr ref href
      | newAliasFinish a t =>
        obtain ⟨_, _, _, _, hst⟩ := Nodeset_newAliasFinish_eq hstep
        subst hst
        exact ih1 k n hn r hr ref href
      | newNamespace =>
        simp only [step, Option.some.injEq] at hstep
        subst hstep
        exact ih1 k n hn r hr ref href
      | newNamespaceFinish g uri =>
        simp only [step, Nodeset_newNamespaceFinish] at hstep
        split at hstep
        · cases hstep
        · cases hstep
          exact ih1 k n hn r hr ref href

/-- C10, as stated, fails: after `subtypeFirstEvents` the ReferenceType `ns=1;i=5000`
(node 1) is in `H`, the finished ReferenceType `ns=1;i=5001` (node 0) owns an inverse
`HasSubtype` (`i=45`) reference targeting it, on its hierarchical list, and `ns=1;i=5001`
is not in `H`: its target was promoted only after it was finished. -/
theorem subtype_finished_before_supertype :
    (run Nodeset_new subtypeFirstEvents).isSome = true ∧
    (subtypeFirstState.heap[0]?).map (fun n => (n.nodeClass, n.id, n.hierachicalRefs))
      = some (NODECLASS_REFERENCETYPE, ⟨1, some "i=5001"⟩, [0]) ∧
    subtypeFirstState.countedRefs[0]?
      = some ⟨false, ⟨0, some "i=45"⟩, ⟨1, some "i=5000"⟩⟩ ∧
    0 ∈ subtypeFirstState.sortNodes ∧
    inH subtypeFirstState ⟨1, some "i=5000"⟩ ∧
    ¬ inH subtypeFirstState ⟨1, some "i=5001"⟩ := by
  decide

/-- C10, amended: in every state reached from `Nodeset_new`, if a ReferenceType node `R'`
owns an inverse `HasSubtype` (`i=45`) reference whose target is in `H` at the time `R'` is
finished, then `Nodeset_newNodeFinish` puts `R'.id` into `H`, and it is in `H` after any
further events, so also when `Nodeset_getSortedNodes` is called. (A target that gets into
`H` only after `R'` was finished does not promote `R'`.) -/
theorem subtype_promotion (es1 : List Event) (st : Nodeset) (node : Nat) (n : TNode) (r : Nat)
    (ref : Reference)
    (hrun : run Nodeset_new es1 = some st)
    (hn : st.heap[node]? = some n) (hc : n.nodeClass = NODECLASS_REFERENCETYPE)
    (hr : r ∈ n.hierachicalRefs ∨ r ∈ n.nonHierachicalRefs)
    (href : st.countedRefs[r]? = some ref) (hinv : ref.isForward = false)
    (hsub : ref.refType = ⟨0, some "i=45"⟩) (ht : inH st ref.target) :
    ∃ st', Nodeset_newNodeFinish st node = some st' ∧ inH st' n.id ∧
      ∀ es2 st'', run st' es2 = some st'' → inH st'' n.id := by
  have hb := run_refs_bounded hrun hn
  have hhier : r ∈ n.hierachicalRefs := by
    rcases hr with hr | hr
    · exact hr
    · exfalso
      apply nonHierachical_not_builtin es1 st hrun node n hn r hr ref href
      rw [hsub]
      decide
  obtain ⟨H', hH'⟩ := addIfHierachicalReferenceTypeLoop_isSome st.countedRefs n
    n.hierachicalRefs st.hierachicalRefs (fun x hx => hb x (Or.inl hx))
  have hmem := addIfHierachicalReferenceTypeLoop_promotes st.countedRefs n r ref href hinv
    n.hierachicalRefs st.hierachicalRefs H' hH' hhier ht
  have hfin : Nodeset_newNodeFinish st node
      = some { st with sortNodes := st.sortNodes ++ [node], hierachicalRefs := H' } := by
    unfold Nodeset_newNodeFinish addIfHierachicalReferenceType
    simp [hn, hc, hH']
  have hin : inH { st with sortNodes := st.sortNodes ++ [node], hierachicalRefs := H' } n.id :=
    List.mem_map.mpr ⟨n, hmem, rfl⟩
  exact ⟨_, hfin, hin, fun es2 st'' h2 => (run_extends es2 _ _ h2).inH hin⟩

/-- The amended C10 at the scenario of the spec: the ReferenceType `ns=1;i=5000` with an
inverse `HasSubtype` reference to `i=47` is in `H` after its finish. -/
theorem subtype_promotion_witness :
    ∃ st', Nodeset_newNodeFinish controlsState 0 = some st' ∧ inH st' ⟨1, some "i=5000"⟩ := by
  obtain ⟨st', h1, h2, _⟩ := subtype_promotion controlsEvents controlsState 0
    { nodeClass := NODECLASS_REFERENCETYPE, id := ⟨1, some "i=5000"⟩,
      browseName := ⟨1, some "Controls"⟩, hierachicalRefs := [0], symmetric := some "false" }
    0 ⟨false, ⟨0, some "i=45"⟩, ⟨0, some "i=47"⟩⟩ rfl (by decide) rfl (by decide) (by decide)
    rfl rfl (by decide)
  exact ⟨st', h1, h2⟩

/-! ## The hierarchical set after `Nodeset_new` -/

/-- C11: right after `Nodeset_new` the hierarchical set has exactly eight entries, all in
namespace 0, with the ids `i=35`, `i=36`, `i=48`, `i=44`, `i=45`, `i=47`, `i=46`, `i=47`, the
last being the entry named HasEncoding; so the ids that `isHierachicalReference` accepts in
that state are exactly `i=35`, `i=36`, `i=44`, `i=45`, `i=46`, `i=47`, `i=48` of namespace 0. -/
theorem Nodeset_new_hierachicalRefs :
    Nodeset_new.hierachicalRefs.length = 8 ∧
    Nodeset_new.hierachicalRefs.map (fun h => h.id)
      = [⟨0, some "i=35"⟩, ⟨0, some "i=36"⟩, ⟨0, some "i=48"⟩, ⟨0, some "i=44"⟩,
         ⟨0, some "i=45"⟩, ⟨0, some "i=47"⟩, ⟨0, some "i=46"⟩, ⟨0, some "i=47"⟩] ∧
    Nodeset_new.hierachicalRefs.map (fun h => h.browseName.name)
      = [some "Organizes", some "HasEventSource", some "HasNotifier", some "Aggregates",
         some "HasSubtype", some "HasComponent", some "HasProperty", some "HasEncoding"] ∧
    ∀ id : TNodeId, isHierachicalReference Nodeset_new id = true ↔
      id ∈ [(⟨0, some "i=35"⟩ : TNodeId), ⟨0, some "i=36"⟩, ⟨0, some "i=44"⟩,
            ⟨0, some "i=45"⟩, ⟨0, some "i=46"⟩, ⟨0, some "i=47"⟩, ⟨0, some "i=48"⟩] := by
  have hids : Nodeset_new.hierachicalRefs.map (fun h => h.id)
      = [⟨0, some "i=35"⟩, ⟨0, some "i=36"⟩, ⟨0, some "i=48"⟩, ⟨0, some "i=44"⟩,
         ⟨0, some "i=45"⟩, ⟨0, some "i=47"⟩, ⟨0, some "i=46"⟩, ⟨0, some "i=47"⟩] := by decide
  refine ⟨by decide, hids, by decide, fun id => ?_⟩
  rw [isHierachicalReference_iff]
  unfold inH
  rw [hids]
  simp only [List.mem_cons, List.mem_singleton, List.not_mem_nil, or_false]
  tauto

/-- C12 evaluated on the code: right after `Nodeset_new` the id `(0, "i=38")` is not in the
hierarchical set, the entry named HasEncoding carries the id `i=47` of HasComponent, and a
reference created with the reference type `i=38` is stored with that type on the
non-hierarchical list of its owner. -/
theorem hasEncoding_seed_id :
    ¬ inH Nodeset_new ⟨0, some "i=38"⟩ ∧
    (Nodeset_new.hierachicalRefs.filter
        (fun h => h.browseName.name = some "HasEncoding")).map (fun h => h.id)
      = [⟨0, some "i=47"⟩] ∧
    (run Nodeset_new encodingEvents).map (fun st => st.countedRefs.map (fun r => r.refType))
      = some [⟨0, some "i=38"⟩] ∧
    ((run Nodeset_new encodingEvents).bind (fun st => st.heap[0]?)).map
        (fun n => (n.hierachicalRefs, n.nonHierachicalRefs))
      = some ([], [0]) := by
  decide

/-! ## Attributes and their defaults -/

theorem getAttributeValue_eq (attr : NodeAttribute) (attrs : List XmlAttribute) :
    getAttributeValue attr attrs
      = match suppliedValue attr.name attrs with
        | some v => some v
        | none => attr.defaultValue := by
  unfold getAttributeValue suppliedValue
  cases attrs.find? (fun a => a.localname = attr.name) <;> rfl

theorem getAttributeValue_default (name dflt : String) (attrs : List XmlAttribute) :
    getAttributeValue ⟨name, some dflt⟩ attrs = some (valueOrDefault name dflt attrs) := by
  rw [getAttributeValue_eq]
  unfold valueOrDefault
  cases suppliedValue name attrs <;> rfl

/-- C13: for every attribute list given to `Nodeset_newReference` (the owner allocated, the
reference type resolving, the ReferenceType container holding allocated nodes), the created
reference has `isForward = true` when the list has no `IsForward` attribute or its value is
the text `true`, and `isForward = false` for every other value. -/
theorem newReference_isForward (nodeset : Nodeset) (node : Nat) (attrs : List XmlAttribute)
    (before : TNode) (refType : TNodeId)
    (hnode : nodeset.heap[node]? = some before)
    (hres : alias2Id nodeset (getAttributeValue attrReferenceType attrs) = some refType)
    (hv : ∀ h ∈ nodeset.nodes NODECLASS_REFERENCETYPE, h < nodeset.heap.length) :
    ∃ after r ref, Nodeset_newReference nodeset node attrs = some (after, r) ∧
      after.countedRefs[r]? = some ref ∧
      (suppliedValue "IsForward" attrs = none → ref.isForward = true) ∧
      (suppliedValue "IsForward" attrs = some "true" → ref.isForward = true) ∧
      (∀ v, suppliedValue "IsForward" attrs = some v → v ≠ "true" →
        ref.isForward = false) := by
  obtain ⟨after, hafter⟩ := Nodeset_newReference_isSome nodeset node attrs before refType
    hnode hres hv
  obtain ⟨text, refType', known, owner0, htext, _, _, _, _, hst⟩ :=
    Nodeset_newReference_eq hafter
  have htext' := getAttributeValue_eq attrIsForward attrs
  rw [htext] at htext'
  refine ⟨after, _, ⟨decide (text = "true"), refType', ⟨0, none⟩⟩, hafter, by simp [hst],
    ?_, ?_, ?_⟩
  · intro h
    have hn : suppliedValue attrIsForward.name attrs = none := h
    rw [hn] at htext'
    have : text = "true" := Option.some.inj htext'
    simp [this]
  · intro h
    have hn : suppliedValue attrIsForward.name attrs = some "true" := h
    rw [hn] at htext'
    have : text = "true" := Option.some.inj htext'
    simp [this]
  · intro v h hne
    have hn : suppliedValue attrIsForward.name attrs = some v := h
    rw [hn] at htext'
    have : text = v := Option.some.inj htext'
    simp [this, hne]

/-- C13 in the state `machineState`: the value `True` of `IsForward` gives
`isForward = false`. -/
theorem newReference_isForward_witness :
    ∃ after r ref,
      Nodeset_newReference machineState 0
          [attr "ReferenceType" "i=35", attr "IsForward" "True"] = some (after, r) ∧
      after.countedRefs[r]? = some ref ∧ ref.isForward = false := by
  obtain ⟨after, r, ref, h1, h2, _, _, h5⟩ :=
    newReference_isForward machineState 0
      [attr "ReferenceType" "i=35", attr "IsForward" "True"] machineNode
      ⟨0, some "i=35"⟩ (by decide) (by decide) (fun h hm => by simp [machineState_nodes] at hm)
  exact ⟨after, r, ref, h1, h2, h5 "True" (by decide) (by decide)⟩

/-- The class-specific fields that `initNode` fills. -/
theorem initNode_attributes {st : Nodeset} {ns : List TNamespace} {c : TNodeClass}
    {attrs : List XmlAttribute} {node : TNode} (e : initNode st ns c attrs = some node) :
    (c = NODECLASS_OBJECTTYPE → node.isAbstract = getAttributeValue attrIsAbstract attrs) ∧
    (c = NODECLASS_VARIABLE →
      alias2Id st (getAttributeValue attrDataType attrs) = some node.datatype ∧
      node.valueRank = getAttributeValue attrValueRank attrs ∧
      node.arrayDimensions = getAttributeValue attrArrayDimensions attrs ∧
      node.accessLevel = getAttributeValue attrAccessLevel attrs ∧
      node.userAccessLevel = getAttributeValue attrUserAccessLevel attrs) ∧
    (c = NODECLASS_VARIABLETYPE →
      alias2Id st (getAttributeValue attrDataType attrs) = some node.datatype ∧
      node.valueRank = getAttributeValue attrValueRank attrs ∧
      node.arrayDimensions = getAttributeValue attrArrayDimensions attrs ∧
      node.isAbstract = getAttributeValue attrIsAbstract attrs) ∧
    (c = NODECLASS_METHOD →
      node.executable = getAttributeValue attrExecutable attrs ∧
      node.userExecutable = getAttributeValue attrUserExecutable attrs) ∧
    (c = NODECLASS_REFERENCETYPE →
      node.symmetric = getAttributeValue attrSymmetric attrs) := by
  unfold initNode extractAttributes at e
  simp only [Option.bind_eq_bind] at e
  cases h1 : extractNodedId ns (getAttributeValue attrNodeId attrs) with
  | none => simp [h1] at e
  | some id =>
    cases h2 : extractBrowseName ns (getAttributeValue attrBrowseName attrs) with
    | none => simp [h1, h2] at e
    | some bn =>
      simp only [h1, h2, Option.some_bind] at e
      cases c
      case NODECLASS_OBJECT =>
        cases h3 : extractNodedId ns (getAttributeValue attrParentNodeId attrs) with
        | none => simp [h3] at e
        | some p => simp [h3] at e; subst e; simp
      case NODECLASS_OBJECTTYPE => simp at e; subst e; simp
      case NODECLASS_VARIABLE =>
        cases h3 : extractNodedId ns (getAttributeValue attrParentNodeId attrs) with
        | none => simp [h3] at e
        | some p =>
          cases h4 : alias2Id st (getAttributeValue attrDataType attrs) with
          | none => simp [h3, h4] at e
          | some d => simp [h3, h4] at e; subst e; simp
      case NODECLASS_DATATYPE => simp at e; subst e; simp
      case NODECLASS_METHOD =>
        cases h3 : extractNodedId ns (getAttributeValue attrParentNodeId attrs) with
        | none => simp [h3] at e
        | some p => simp [h3] at e; subst e; simp
      case NODECLASS_REFERENCETYPE => simp at e; subst e; simp
      case NODECLASS_VARIABLETYPE =>
        cases h4 : alias2Id st (getAttributeValue attrDataType attrs) with
        | none => simp [h4] at e
        | some d => simp [h4] at e; subst e; simp

/-- `Nodeset_newNode` returns when the texts of the attributes can be parsed. -/
theorem Nodeset_newNode_isSome (st : Nodeset) (c : TNodeClass) (attrs : List XmlAttribute)
    (id p d : TNodeId) (bn : TBrowseName)
    (hid : extractNodedId st.namespaceTable (getAttributeValue attrNodeId attrs) = some id)
    (hbn : extractBrowseName st.namespaceTable (getAttributeValue attrBrowseName attrs)
      = some bn)
    (hp : extractNodedId st.namespaceTable (getAttributeValue attrParentNodeId attrs) = some p)
    (hd : alias2Id st (getAttributeValue attrDataType attrs) = some d) :
    ∃ after node, Nodeset_newNode st c attrs = some (after, st.heap.length) ∧
      initNode st st.namespaceTable c attrs = some node ∧
      after.heap[st.heap.length]? = some node := by
  have hinit : ∃ node, initNode st st.namespaceTable c attrs = some node := by
    unfold initNode extractAttributes
    cases c <;> simp [hid, hbn, hp, hd]
  obtain ⟨node, hnode⟩ := hinit
  exact ⟨{ st with heap := st.heap ++ [node] }, node, by simp [Nodeset_newNode, hnode], hnode,
    by simp⟩

/-- C14: for every node class and attribute list whose texts can be parsed, `Nodeset_newNode`
returns a node whose class-specific fields hold the supplied value of the attribute, or the
default when the list omits it: IsAbstract `false` (ObjectType, VariableType), ValueRank `-1`
and ArrayDimensions the empty text (Variable, VariableType), AccessLevel and UserAccessLevel
`1` (Variable), Executable and UserExecutable `true` (Method), Symmetric `false`
(ReferenceType), and the data type of a Variable or VariableType is what `alias2Id` resolves
from the supplied DataType or from `i=24`, which is `(0, "i=24")` when no alias has the name
`i=24`. -/
theorem newNode_defaults (nodeset : Nodeset) (c : TNodeClass) (attrs : List XmlAttribute)
    (id p d : TNodeId) (bn : TBrowseName)
    (hid : extractNodedId nodeset.namespaceTable (getAttributeValue attrNodeId attrs) = some id)
    (hbn : extractBrowseName nodeset.namespaceTable (getAttributeValue attrBrowseName attrs)
      = some bn)
    (hp : extractNodedId nodeset.namespaceTable (getAttributeValue attrParentNodeId attrs)
      = some p)
    (hd : alias2Id nodeset (getAttributeValue attrDataType attrs) = some d) :
    ∃ after h node, Nodeset_newNode nodeset c attrs = some (after, h) ∧
      after.heap[h]? = some node ∧
      (c = NODECLASS_OBJECTTYPE →
        node.isAbstract = some (valueOrDefault "IsAbstract" "false" attrs)) ∧
      (c = NODECLASS_VARIABLE →
        alias2Id nodeset (some (valueOrDefault "DataType" "i=24" attrs)) = some node.datatype ∧
        node.valueRank = some (valueOrDefault "ValueRank" "-1" attrs) ∧
        node.arrayDimensions = some (valueOrDefault "ArrayDimensions" "" attrs) ∧
        node.accessLevel = some (valueOrDefault "AccessLevel" "1" attrs) ∧
        node.userAccessLevel = some (valueOrDefault "UserAccessLevel" "1" attrs)) ∧
      (c = NODECLASS_VARIABLETYPE →
        alias2Id nodeset (some (valueOrDefault "DataType" "i=24" attrs)) = some node.datatype ∧
        node.valueRank = some (valueOrDefault "ValueRank" "-1" attrs) ∧
        node.arrayDimensions = some (valueOrDefault "ArrayDimensions" "" attrs) ∧
        node.isAbstract = some (valueOrDefault "IsAbstract" "false" attrs)) ∧
      (c = NODECLASS_METHOD →
        node.executable = some (valueOrDefault "Executable" "true" attrs) ∧
        node.userExecutable = some (valueOrDefault "UserExecutable" "true" attrs)) ∧
      (c = NODECLASS_REFERENCETYPE →
        node.symmetric = some (valueOrDefault "Symmetric" "false" attrs)) ∧
      (c = NODECLASS_VARIABLE ∨ c = NODECLASS_VARIABLETYPE →
        suppliedValue "DataType" attrs = none →
        (∀ a ∈ nodeset.aliasList, a.name ≠ some "i=24") →
        node.datatype = ⟨0, some "i=24"⟩) := by
  obtain ⟨after, node, hnew, hinit, hheap⟩ :=
    Nodeset_newNode_isSome nodeset c attrs id p d bn hid hbn hp hd
  obtain ⟨h1, h2, h3, h4, h5⟩ := initNode_attributes hinit
  have e1 : getAttributeValue attrIsAbstract attrs
      = some (valueOrDefault "IsAbstract" "false" attrs) := getAttributeValue_default _ _ _
  have e2 : getAttributeValue attrDataType attrs
      = some (valueOrDefault "DataType" "i=24" attrs) := getAttributeValue_default _ _ _
  have e3 : getAttributeValue attrValueRank attrs
      = some (valueOrDefault "ValueRank" "-1" attrs) := getAttributeValue_default _ _ _
  have e4 : getAttributeValue attrArrayDimensions attrs
      = some (valueOrDefault "ArrayDimensions" "" attrs) := getAttributeValue_default _ _ _
  have e5 : getAttributeValue attrAccessLevel attrs
      = some (valueOrDefault "AccessLevel" "1" attrs) := getAttributeValue_default _ _ _
  have e6 : getAttributeValue attrUserAccessLevel attrs
      = some (valueOrDefault "UserAccessLevel" "1" attrs) := getAttributeValue_default _ _ _
  have e7 : getAttributeValue attrExecutable attrs
      = some (valueOrDefault "Executable" "true" attrs) := getAttributeValue_default _ _ _
  have e8 : getAttributeValue attrUserExecutable attrs
      = some (valueOrDefault "UserExecutable" "true" attrs) := getAttributeValue_default _ _ _
  have e9 : getAttributeValue attrSymmetric attrs
      = some (valueOrDefault "Symmetric" "false" attrs) := getAttributeValue_default _ _ _
  rw [e1] at h1 h3
  rw [e2, e3, e4] at h2 h3
  rw [e5, e6] at h2
  rw [e7, e8] at h4
  rw [e9] at h5
  refine ⟨after, _, node, hnew, hheap, h1, h2, h3, h4, h5, ?_⟩
  intro hc hno hal
  have hdt : alias2Id nodeset (some (valueOrDefault "DataType" "i=24" attrs))
      = some node.datatype := by
    rcases hc with hc | hc
    · exact (h2 hc).1
    · exact (h3 hc).1
  have hval : valueOrDefault "DataType" "i=24" attrs = "i=24" := by
    unfold valueOrDefault
    rw [hno]
    rfl
  rw [hval, alias2Id_not_found nodeset "i=24" hal] at hdt
  have hx : extractNodedId nodeset.namespaceTable (some "i=24") = some ⟨0, some "i=24"⟩ := by
    simp [extractNodedId, strchr_eq_none (show ';' ∉ "i=24".data by decide)]
  rw [hx] at hdt
  exact (Option.some.inj hdt).symm

/-- C14 right after `Nodeset_new`: a Variable with only NodeId, BrowseName and ValueRank gets
the supplied ValueRank and the defaults of the other attributes. -/
theorem newNode_defaults_witness :
    ∃ after h node,
      Nodeset_newNode Nodeset_new NODECLASS_VARIABLE
          [attr "NodeId" "i=1001", attr "BrowseName" "Speed", attr "ValueRank" "1"]
        = some (after, h) ∧
      after.heap[h]? = some node ∧
      node.datatype = ⟨0, some "i=24"⟩ ∧ node.valueRank = some "1" ∧
      node.arrayDimensions = some "" ∧ node.accessLevel = some "1" ∧
      node.userAccessLevel = some "1" := by
  obtain ⟨after, h, node, h1, h2, _, h4, _, _, _, h8⟩ :=
    newNode_defaults Nodeset_new NODECLASS_VARIABLE
      [attr "NodeId" "i=1001", attr "BrowseName" "Speed", attr "ValueRank" "1"]
      ⟨0, some "i=1001"⟩ ⟨0, none⟩ ⟨0, some "i=24"⟩ ⟨0, some "Speed"⟩
      (by decide) (by decide) (by decide) (by decide)
  obtain ⟨_, v1, v2, v3, v4⟩ := h4 rfl
  exact ⟨after, h, node, h1, h2, h8 (Or.inl rfl) (by decide) (by simp [Nodeset_new]),
    v1, v2, v3, v4⟩

/-- C15, as stated, fails: for the Object attribute list with a BrowseName and no NodeId,
`Nodeset_newNode` returns a constructed node, handle 0, whose id is the unset id
`(0, NULL)`. -/
theorem newNode_without_NodeId :
    suppliedValue "NodeId" [attr "BrowseName" "Machine"] = none ∧
    (Nodeset_newNode Nodeset_new NODECLASS_OBJECT [attr "BrowseName" "Machine"]).map
        (fun r => (r.2, r.1.heap.map (fun n => (n.nodeClass, n.id, n.browseName))))
      = some (0, [(NODECLASS_OBJECT, ⟨0, none⟩, ⟨0, some "Machine"⟩)]) := by
  decide

/-- C15, amended: for every node class and every attribute list that lacks the NodeId
attribute and whose other texts can be parsed, `Nodeset_newNode` reports no error: it returns
a constructed node of that class whose id is the unset id `(0, NULL)`. -/
theorem newNode_missing_NodeId (nodeset : Nodeset) (c : TNodeClass) (attrs : List XmlAttribute)
    (p d : TNodeId) (bn : TBrowseName)
    (hno : suppliedValue "NodeId" attrs = none)
    (hbn : extractBrowseName nodeset.namespaceTable (getAttributeValue attrBrowseName attrs)
      = some bn)
    (hp : extractNodedId nodeset.namespaceTable (getAttributeValue attrParentNodeId attrs)
      = some p)
    (hd : alias2Id nodeset (getAttributeValue attrDataType attrs) = some d) :
    ∃ after h node, Nodeset_newNode nodeset c attrs = some (after, h) ∧
      after.heap[h]? = some node ∧ node.nodeClass = c ∧ node.id = ⟨0, none⟩ ∧
      node.browseName = bn := by
  have hattr : getAttributeValue attrNodeId attrs = none := by
    rw [getAttributeValue_eq]
    have : suppliedValue attrNodeId.name attrs = none := hno
    rw [this]
    rfl
  have hid : extractNodedId nodeset.namespaceTable (getAttributeValue attrNodeId attrs)
      = some ⟨0, none⟩ := by
    rw [hattr]; rfl
  obtain ⟨after, node, hnew, hinit, hheap⟩ :=
    Nodeset_newNode_isSome nodeset c attrs ⟨0, none⟩ p d bn hid hbn hp hd
  obtain ⟨hc, hid', hbn', _⟩ := initNode_eq hinit
  rw [hid] at hid'
  rw [hbn] at hbn'
  exact ⟨after, _, node, hnew, hheap, hc, (Option.some.inj hid').symm,
    (Option.some.inj hbn').symm⟩

/-- The amended C15 right after `Nodeset_new`, for a ReferenceType without NodeId. -/
theorem newNode_missing_NodeId_witness :
    ∃ after h node,
      Nodeset_newNode Nodeset_new NODECLASS_REFERENCETYPE [attr "BrowseName" "Controls"]
        = some (after, h) ∧
      after.heap[h]? = some node ∧ node.nodeClass = NODECLASS_REFERENCETYPE ∧
      node.id = ⟨0, none⟩ ∧ node.browseName = ⟨0, some "Controls"⟩ :=
  newNode_missing_NodeId Nodeset_new NODECLASS_REFERENCETYPE [attr "BrowseName" "Controls"]
    ⟨0, none⟩ ⟨0, some "i=24"⟩ ⟨0, some "Controls"⟩ (by decide) (by decide) (by decide)
    (by decide)

/-! ## The result and the calls of `Nodeset_getSortedNodes` -/

/-- C16: `Nodeset_getSortedNodes` (the sorter handing over allocated nodes) returns the result
of the sort step, `false` exactly when `Sort_start` fails and `true` when it succeeds, and
when it fails neither `addNode` nor `deleteValue` is called. -/
theorem getSortedNodes_result (nodeset : Nodeset) (sort : SortRun)
    (hvalid : ∀ h ∈ sort.delivered, h < nodeset.heap.length) :
    ∃ after result calls, Nodeset_getSortedNodes nodeset sort = some (after, result, calls) ∧
      (result = false ↔ sort.result = false) ∧ (result = true ↔ sort.result = true) ∧
      (sort.result = false → calls = []) := by
  obtain ⟨st', hst'⟩ := foldlM_addNode_isSome sort.delivered nodeset hvalid
  cases hr : sort.result with
  | false =>
    exact ⟨st', false, [], by simp [Nodeset_getSortedNodes, hst', hr], by simp, by simp,
      fun _ => rfl⟩
  | true =>
    exact ⟨st', true, emit st', by simp [Nodeset_getSortedNodes, hst', hr], by simp, by simp,
      fun h => absurd h (by simp)⟩

/-- C16 at the nodeset `machineEvents` with a sort step that hands over node 0 and fails. -/
theorem getSortedNodes_result_witness :
    ∃ after, Nodeset_getSortedNodes machineState ⟨[0], false⟩ = some (after, false, []) := by
  obtain ⟨after, result, calls, h1, h2, _, h4⟩ :=
    getSortedNodes_result machineState ⟨[0], false⟩
      (fun h hm => by
        rw [machineState_heap_length]
        simp only [List.mem_singleton] at hm
        omega)
  have hr : result = false := h2.mpr rfl
  have hc : calls = [] := h4 rfl
  subst hr hc
  exact ⟨after, h1⟩

/-- C17: on a successful `Nodeset_getSortedNodes` the nodes passed to `addNode` are the
entries of the seven containers, each container in its stored order and the containers in the
order of the phases, so there are as many calls as the seven counts add up to; the containers
hold what they held before and the nodes of their class handed over by the sort step; and
with all containers empty nothing is called. -/
theorem getSortedNodes_calls_each_node (nodeset : Nodeset) (sort : SortRun)
    (hvalid : ∀ h ∈ sort.delivered, h < nodeset.heap.length)
    (hok : sort.result = true) :
    ∃ after calls, Nodeset_getSortedNodes nodeset sort = some (after, true, calls) ∧
      emitted calls
        = after.nodes NODECLASS_REFERENCETYPE ++ after.nodes NODECLASS_DATATYPE
          ++ after.nodes NODECLASS_OBJECTTYPE ++ after.nodes NODECLASS_OBJECT
          ++ after.nodes NODECLASS_METHOD ++ after.nodes NODECLASS_VARIABLETYPE
          ++ after.nodes NODECLASS_VARIABLE ∧
      (emitted calls).length
        = (after.nodes NODECLASS_REFERENCETYPE).length + (after.nodes NODECLASS_DATATYPE).length
          + (after.nodes NODECLASS_OBJECTTYPE).length + (after.nodes NODECLASS_OBJECT).length
          + (after.nodes NODECLASS_METHOD).length + (after.nodes NODECLASS_VARIABLETYPE).length
          + (after.nodes NODECLASS_VARIABLE).length ∧
      (∀ c, after.nodes c
        = nodeset.nodes c
          ++ sort.delivered.filter (fun h => classOf nodeset.heap h = some c)) ∧
      ((∀ c, after.nodes c = []) → calls = []) := by
  obtain ⟨st', hst'⟩ := foldlM_addNode_isSome sort.delivered nodeset hvalid
  have hem : emitted (emit st')
      = st'.nodes NODECLASS_REFERENCETYPE ++ st'.nodes NODECLASS_DATATYPE
        ++ st'.nodes NODECLASS_OBJECTTYPE ++ st'.nodes NODECLASS_OBJECT
        ++ st'.nodes NODECLASS_METHOD ++ st'.nodes NODECLASS_VARIABLETYPE
        ++ st'.nodes NODECLASS_VARIABLE := by
    rw [emitted_emit]
    simp [phaseOrder, List.flatMap_cons]
  refine ⟨st', emit st', by simp [Nodeset_getSortedNodes, hst', hok], hem, ?_,
    (foldlM_addNode_eq _ _ _ hst').2, ?_⟩
  · rw [hem]
    simp only [List.length_append]
  · intro hempty
    simp [emit, hempty]

/-- C17 for the empty nodeset: right after `Nodeset_new`, with a sort step that succeeds and
hands over nothing, `Nodeset_getSortedNodes` returns `true` and calls nothing. -/
theorem getSortedNodes_calls_each_node_witness :
    ∃ after, Nodeset_getSortedNodes Nodeset_new ⟨[], true⟩ = some (after, true, []) := by
  obtain ⟨after, calls, h1, _, _, h4, h5⟩ :=
    getSortedNodes_calls_each_node Nodeset_new ⟨[], true⟩ (fun h hm => by simp at hm) rfl
  have hc : calls = [] := h5 (fun c => by rw [h4 c]; rfl)
  subst hc
  exact ⟨after, h1⟩

/-- In a list of `addNode` calls for other nodes followed by the pairs `addNode n`,
`deleteValue n` of the variables, every `deleteValue` directly follows the `addNode` of the
same variable, and every `addNode` of a variable is directly followed by its `deleteValue`. -/
theorem calls_paired (isVar : Nat → Prop) (pre : List Call)
    (hpre : ∀ c ∈ pre, ∃ n, c = Call.addNode n ∧ ¬ isVar n) :
    ∀ V : List Nat, (∀ n ∈ V, isVar n) →
      (∀ (i n : Nat),
        (pre ++ V.flatMap (fun n => [Call.addNode n, Call.deleteValue n]))[i]?
          = some (Call.deleteValue n) →
        isVar n ∧ ∃ j, i = j + 1 ∧
          (pre ++ V.flatMap (fun n => [Call.addNode n, Call.deleteValue n]))[j]?
            = some (Call.addNode n)) ∧
      (∀ (i n : Nat),
        (pre ++ V.flatMap (fun n => [Call.addNode n, Call.deleteValue n]))[i]?
          = some (Call.addNode n) → isVar n →
        (pre ++ V.flatMap (fun n => [Call.addNode n, Call.deleteValue n]))[i + 1]?
          = some (Call.deleteValue n)) := by
  intro V
  have hmem : ∀ {L : List Call} {i : Nat} {c : Call}, L[i]? = some c → c ∈ L := fun h => by
    obtain ⟨hlt, heq⟩ := List.getElem?_eq_some.mp h
    exact heq ▸ List.getElem_mem hlt
  induction V using List.reverseRecOn with
  | nil =>
    intro _
    simp only [List.flatMap_nil, List.append_nil]
    constructor
    · intro i n h
      obtain ⟨m, hm, _⟩ := hpre _ (hmem h)
      cases hm
    · intro i n h hv
      obtain ⟨m, hm, hnv⟩ := hpre _ (hmem h)
      cases hm
      exact absurd hv hnv
  | append_singleton V x ih =>
    intro hV
    have hVx : isVar x := hV x (by simp)
    obtain ⟨ihD, ihA⟩ := ih (fun n hn => hV n (by simp [hn]))
    have hL : pre ++ (V ++ [x]).flatMap (fun n => [Call.addNode n, Call.deleteValue n])
        = (pre ++ V.flatMap (fun n => [Call.addNode n, Call.deleteValue n]))
          ++ [Call.addNode x, Call.deleteValue x] := by
      simp [List.flatMap_append, List.append_assoc]
    rw [hL]
    generalize pre ++ V.flatMap (fun n => [Call.addNode n, Call.deleteValue n]) = L at ihD ihA
    constructor
    · intro i n h
      rcases Nat.lt_or_ge i L.length with hi | hi
      · rw [List.getElem?_append_left hi] at h
        obtain ⟨hv, j, hj, hjA⟩ := ihD i n h
        exact ⟨hv, j, hj, by rw [List.getElem?_append_left (by omega)]; exact hjA⟩
      · rw [List.getElem?_append_right hi] at h
        cases hk : i - L.length with
        | zero => rw [hk] at h; simp at h
        | succ k =>
          rw [hk] at h
          cases k with
          | zero =>
            simp only [zero_add, List.getElem?_cons_succ, List.getElem?_cons_zero,
              Option.some.injEq, Call.deleteValue.injEq] at h
            subst h
            refine ⟨hVx, L.length, by omega, ?_⟩
            rw [List.getElem?_append_right (Nat.le_refl _)]
            simp
          | succ k => simp at h
    · intro i n h hv
      rcases Nat.lt_or_ge i L.length with hi | hi
      · rw [List.getElem?_append_left hi] at h
        have hnext := ihA i n h hv
        have hlt : i + 1 < L.length := (List.getElem?_eq_some.mp hnext).1
        rw [List.getElem?_append_left hlt]
        exact hnext
      · rw [List.getElem?_append_right hi] at h
        cases hk : i - L.length with
        | zero =>
          rw [hk] at h
          simp only [List.getElem?_cons_zero, Option.some.injEq, Call.addNode.injEq] at h
          subst h
          rw [List.getElem?_append_right (by omega)]
          have : i + 1 - L.length = 1 := by omega
          rw [this]
          rfl
        | succ k =>
          rw [hk] at h
          cases k with
          | zero => simp at h
          | succ k => simp at h

/-- C18: in the calls of a successful `Nodeset_getSortedNodes` (containers holding nodes of
their class, the sorter handing over allocated nodes), `deleteValue` is called once for every
entry of the Variable container, in its order; every `deleteValue` call is for a Variable
node and directly follows the `addNode` call for the same node; and every `addNode` call for
a Variable node is directly followed by the `deleteValue` call for it. -/
theorem getSortedNodes_deleteValue (nodeset : Nodeset) (sort : SortRun)
    (hwf : classContainers nodeset)
    (hvalid : ∀ h ∈ sort.delivered, h < nodeset.heap.length)
    (hok : sort.result = true) :
    ∃ after calls, Nodeset_getSortedNodes nodeset sort = some (after, true, calls) ∧
      deleted calls = after.nodes NODECLASS_VARIABLE ∧
      (∀ (i n : Nat), calls[i]? = some (Call.deleteValue n) →
        classOf nodeset.heap n = some NODECLASS_VARIABLE ∧
        ∃ j, i = j + 1 ∧ calls[j]? = some (Call.addNode n)) ∧
      (∀ (i n : Nat), calls[i]? = some (Call.addNode n) →
        classOf nodeset.heap n = some NODECLASS_VARIABLE →
        calls[i + 1]? = some (Call.deleteValue n)) := by
  obtain ⟨st', hst'⟩ := foldlM_addNode_isSome sort.delivered nodeset hvalid
  have hheap := (foldlM_addNode_eq _ _ _ hst').1
  have hwf' : ∀ c h, h ∈ st'.nodes c → classOf nodeset.heap h = some c :=
    fun c h hm => hheap ▸ classContainers_foldlM hwf hst' c h hm
  refine ⟨st', emit st', by simp [Nodeset_getSortedNodes, hst', hok], ?_, ?_⟩
  · have hv : ∀ l : List Nat, List.filterMap (fun c => match c with
        | Call.addNode _ => none
        | Call.deleteValue n => some n)
        (l.flatMap (fun n => [Call.addNode n, Call.deleteValue n])) = l := by
      intro l
      induction l with
      | nil => rfl
      | cons a l ih => simp [List.flatMap_cons, List.filterMap_cons, ih]
    have hm : ∀ l : List Nat, List.filterMap (fun c => match c with
        | Call.addNode _ => none
        | Call.deleteValue n => some n) (l.map Call.addNode) = [] := by
      intro l
      induction l with
      | nil => rfl
      | cons a l ih => simp [List.filterMap_cons, ih]
    simp only [deleted, emit, List.filterMap_append, hv, hm, List.nil_append]
  · have hpre : ∀ c ∈
        (st'.nodes NODECLASS_REFERENCETYPE).map Call.addNode
        ++ (st'.nodes NODECLASS_DATATYPE).map Call.addNode
        ++ (st'.nodes NODECLASS_OBJECTTYPE).map Call.addNode
        ++ (st'.nodes NODECLASS_OBJECT).map Call.addNode
        ++ (st'.nodes NODECLASS_METHOD).map Call.addNode
        ++ (st'.nodes NODECLASS_VARIABLETYPE).map Call.addNode,
        ∃ n, c = Call.addNode n ∧ ¬ classOf nodeset.heap n = some NODECLASS_VARIABLE := by
      intro c hc
      simp only [List.mem_append, List.mem_map] at hc
      rcases hc with ((((⟨n, hn, rfl⟩ | ⟨n, hn, rfl⟩) | ⟨n, hn, rfl⟩) | ⟨n, hn, rfl⟩)
        | ⟨n, hn, rfl⟩) | ⟨n, hn, rfl⟩ <;>
      exact ⟨n, rfl, by rw [hwf' _ n hn]; simp⟩
    exact calls_paired (fun n => classOf nodeset.heap n = some NODECLASS_VARIABLE) _ hpre
      (st'.nodes NODECLASS_VARIABLE) (fun n hn => hwf' _ n hn)

theorem speedState_run : run Nodeset_new speedEvents = some speedState := rfl

theorem speedState_heap_length : speedState.heap.length = 2 := by decide

/-- C18 at the nodeset `speedEvents` with the sorter handing over the Variable, then the
Object. -/
theorem getSortedNodes_deleteValue_witness :
    ∃ after calls, Nodeset_getSortedNodes speedState ⟨[0, 1], true⟩
        = some (after, true, calls) ∧
      deleted calls = after.nodes NODECLASS_VARIABLE ∧
      (∀ (i n : Nat), calls[i]? = some (Call.deleteValue n) →
        classOf speedState.heap n = some NODECLASS_VARIABLE ∧
        ∃ j, i = j + 1 ∧ calls[j]? = some (Call.addNode n)) ∧
      (∀ (i n : Nat), calls[i]? = some (Call.addNode n) →
        classOf speedState.heap n = some NODECLASS_VARIABLE →
        calls[i + 1]? = some (Call.deleteValue n)) :=
  getSortedNodes_deleteValue speedState ⟨[0, 1], true⟩
    (run_classContainers speedState_run)
    (fun h hm => by
      rw [speedState_heap_length]
      simp only [List.mem_cons, List.mem_singleton, List.not_mem_nil, or_false] at hm
      omega)
    rfl

/-! ## Growth of the hierarchical set -/

/-- C19: every builder operation keeps every id that is in the hierarchical set (the table is
only extended at its end), and every operation other than `Nodeset_newNodeFinish` on a
ReferenceType node leaves the table unchanged. -/
theorem hierarchical_set_monotone (nodeset after : Nodeset) (ev : Event)
    (e : step nodeset ev = some after) :
    (∀ id, inH nodeset id → inH after id) ∧
    (∃ added, after.hierachicalRefs = nodeset.hierachicalRefs ++ added) ∧
    ((∀ node, ev = Event.newNodeFinish node →
        classOf nodeset.heap node ≠ some NODECLASS_REFERENCETYPE) →
      after.hierachicalRefs = nodeset.hierachicalRefs) := by
  have E := step_extends e
  refine ⟨fun id h => E.inH h, E.h_keep, ?_⟩
  intro hne
  cases ev with
  | newNode c attrs =>
    simp only [step, Option.map_eq_some'] at e
    obtain ⟨⟨st1, h⟩, e1, rfl⟩ := e
    obtain ⟨_, _, _, hst⟩ := Nodeset_newNode_eq e1
    subst hst
    rfl
  | newNodeFinish x =>
    obtain ⟨n, H, hn, hst, h1, _⟩ := Nodeset_newNodeFinish_eq e
    subst hst
    have hc : n.nodeClass ≠ NODECLASS_REFERENCETYPE := by
      intro hc
      apply hne x rfl
      simp [classOf, hn, hc]
    exact h1 hc
  | newReference x attrs =>
    simp only [step, Option.map_eq_some'] at e
    obtain ⟨⟨st1, r⟩, e1, rfl⟩ := e
    obtain ⟨_, _, _, _, _, _, _, _, _, hst⟩ := Nodeset_newReference_eq e1
    subst hst
    rfl
  | newReferenceFinish r t =>
    obtain ⟨_, _, _, _, hst⟩ := Nodeset_newReferenceFinish_eq e
    subst hst
    rfl
  | newAlias attrs =>
    simp only [step, Option.some.injEq] at e
    subst e
    rfl
  | newAliasFinish a t =>
    obtain ⟨_, _, _, _, hst⟩ := Nodeset_newAliasFinish_eq e
    subst hst
    rfl
  | newNamespace =>
    simp only [step, Option.some.injEq] at e
    subst e
    rfl
  | newNamespaceFinish g uri =>
    simp only [step, Nodeset_newNamespaceFinish] at e
    split at e
    · cases e
    · cases e
      rfl

/-- C19 at the finish of the ReferenceType `ns=1;i=5000` of `controlsEvents`. -/
theorem hierarchical_set_monotone_witness :
    (∀ id, inH controlsState id →
      inH ((step controlsState (Event.newNodeFinish 0)).getD Nodeset_new) id) ∧
    (∃ added, ((step controlsState (Event.newNodeFinish 0)).getD Nodeset_new).hierachicalRefs
      = controlsState.hierachicalRefs ++ added) ∧
    ((∀ node, Event.newNodeFinish 0 = Event.newNodeFinish node →
        classOf controlsState.heap node ≠ some NODECLASS_REFERENCETYPE) →
      ((step controlsState (Event.newNodeFinish 0)).getD Nodeset_new).hierachicalRefs
        = controlsState.hierachicalRefs) :=
  hierarchical_set_monotone controlsState
    ((step controlsState (Event.newNodeFinish 0)).getD Nodeset_new) (Event.newNodeFinish 0) rfl

/-- Without an inverse reference whose target is in the table, the loop leaves the table as
it is. -/
theorem addIfHierachicalReferenceTypeLoop_unchanged (refs : List Reference) (node : TNode) :
    ∀ (l : List Nat) (H H' : List TNode),
      addIfHierachicalReferenceTypeLoop refs node l H = some H' →
      (∀ r ∈ l, ∀ ref, refs[r]? = some ref →
        ref.isForward = true ∨ ref.target ∉ H.map (fun h => h.id)) →
      H' = H
  | [], H, H', e, _ => by
    simp only [addIfHierachicalReferenceTypeLoop, Option.some.injEq] at e
    exact e.symm
  | x :: l, H, H', e, hno => by
    unfold addIfHierachicalReferenceTypeLoop at e
    cases hx : refs[x]? with
    | none => simp [hx] at e
    | some rx =>
      simp only [hx] at e
      have hcond : ¬ ((!rx.isForward && H.any (fun h => TNodeId_cmp h.id rx.target = 0))
          = true) := by
        intro hc
        simp only [Bool.and_eq_true, Bool.not_eq_true', List.any_eq_true, decide_eq_true_eq,
          TNodeId_cmp_eq_zero] at hc
        obtain ⟨hf, h, hm, he⟩ := hc
        rcases hno x (by simp) rx hx with h1 | h1
        · rw [hf] at h1; cases h1
        · exact h1 (List.mem_map.mpr ⟨h, hm, he⟩)
      rw [if_neg hcond] at e
      exact addIfHierachicalReferenceTypeLoop_unchanged refs node l H H' e
        (fun r hr ref href => hno r (by simp [hr]) ref href)

/-- C20: for every state and every ReferenceType node `R` (its hierarchical list holding
allocated references), `Nodeset_newNodeFinish` returns, and afterwards `R.id` is in the
hierarchical set if and only if it was in it before or the hierarchical list of `R` holds an
inverse reference whose target was in the set; when every reference on the hierarchical list
is a forward one or has a target outside the set, the table is unchanged, whatever the
non-hierarchical list holds. -/
theorem promotion_iff (nodeset : Nodeset) (node : Nat) (n : TNode)
    (hn : nodeset.heap[node]? = some n) (hc : n.nodeClass = NODECLASS_REFERENCETYPE)
    (hb : ∀ x ∈ n.hierachicalRefs, x < nodeset.countedRefs.length) :
    ∃ after, Nodeset_newNodeFinish nodeset node = some after ∧
      (inH after n.id ↔
        inH nodeset n.id ∨
        ∃ r ∈ n.hierachicalRefs, ∃ ref, nodeset.countedRefs[r]? = some ref ∧
          ref.isForward = false ∧ inH nodeset ref.target) ∧
      ((∀ r ∈ n.hierachicalRefs, ∀ ref, nodeset.countedRefs[r]? = some ref →
          ref.isForward = true ∨ ¬ inH nodeset ref.target) →
        after.hierachicalRefs = nodeset.hierachicalRefs) := by
  obtain ⟨H', hH'⟩ := addIfHierachicalReferenceTypeLoop_isSome nodeset.countedRefs n
    n.hierachicalRefs nodeset.hierachicalRefs hb
  have hfin : Nodeset_newNodeFinish nodeset node
      = some { nodeset with sortNodes := nodeset.sortNodes ++ [node], hierachicalRefs := H' } := by
    unfold Nodeset_newNodeFinish addIfHierachicalReferenceType
    simp [hn, hc, hH']
  obtain ⟨k, hk⟩ := addIfHierachicalReferenceTypeLoop_eq _ _ _ _ _ hH'
  refine ⟨_, hfin, ?_, ?_⟩
  · constructor
    · intro hin
      by_cases hex : ∃ r ∈ n.hierachicalRefs, ∃ ref, nodeset.countedRefs[r]? = some ref ∧
          ref.isForward = false ∧ inH nodeset ref.target
      · exact Or.inr hex
      · left
        have hsame := addIfHierachicalReferenceTypeLoop_unchanged _ _ _ _ _ hH'
          (fun r hr ref href => by
            cases hf : ref.isForward with
            | true => exact Or.inl rfl
            | false => exact Or.inr (fun ht => hex ⟨r, hr, ref, href, hf, ht⟩))
        change n.id ∈ H'.map (fun h => h.id) at hin
        rw [hsame] at hin
        exact hin
    · rintro (hin | ⟨r, hr, ref, href, hinv, ht⟩)
      · change n.id ∈ H'.map (fun h => h.id)
        rw [hk, List.map_append, List.mem_append]
        exact Or.inl hin
      · exact List.mem_map.mpr
          ⟨n, addIfHierachicalReferenceTypeLoop_promotes _ n r ref href hinv _ _ _ hH' hr ht,
            rfl⟩
  · intro hno
    exact addIfHierachicalReferenceTypeLoop_unchanged _ _ _ _ _ hH' hno

/-- C20 at the finish of the ReferenceType `ns=1;i=5000` of `controlsEvents`, whose inverse
reference targets `i=47`. -/
theorem promotion_iff_witness :
    ∃ after, Nodeset_newNodeFinish controlsState 0 = some after ∧
      inH after ⟨1, some "i=5000"⟩ := by
  obtain ⟨after, h1, h2, _⟩ := promotion_iff controlsState 0
    { nodeClass := NODECLASS_REFERENCETYPE, id := ⟨1, some "i=5000"⟩,
      browseName := ⟨1, some "Controls"⟩, hierachicalRefs := [0], symmetric := some "false" }
    (by decide) rfl (by decide)
  exact ⟨after, h1, h2.mpr (Or.inr ⟨0, by decide, ⟨false, ⟨0, some "i=45"⟩, ⟨0, some "i=47"⟩⟩,
    by decide, rfl, by decide⟩)⟩

/-! ## Reference types that are parsed already -/

/-- The builder events never fill a container: in every state reached from `Nodeset_new`
all of them, the ReferenceType container among them, are empty. -/
theorem run_nodes_empty {es : List Event} {st : Nodeset} (h : run Nodeset_new es = some st)
    (c : TNodeClass) : st.nodes c = [] := by
  rw [(run_extends es _ _ h).nodes_keep]
  rfl

/-- C21 evaluated on the code: after `parsedTypeEvents` the ReferenceType `ns=1;i=6000`
(node 0) is parsed and finished and not in the hierarchical set, the ReferenceType container
is still empty, and the reference of that type created afterwards for node 1 is on the
hierarchical list of its owner, not on the non-hierarchical one. -/
theorem finished_type_still_unknown :
    (run Nodeset_new parsedTypeEvents).isSome = true ∧
    (parsedTypeState.heap[0]?).map (fun n => (n.nodeClass, n.id))
      = some (NODECLASS_REFERENCETYPE, ⟨1, some "i=6000"⟩) ∧
    0 ∈ parsedTypeState.sortNodes ∧
    ¬ inH parsedTypeState ⟨1, some "i=6000"⟩ ∧
    parsedTypeState.nodes NODECLASS_REFERENCETYPE = [] ∧
    (parsedTypeState.countedRefs[0]?).map (fun r => r.refType) = some ⟨1, some "i=6000"⟩ ∧
    (parsedTypeState.heap[1]?).map (fun n => (n.hierachicalRefs, n.nonHierachicalRefs))
      = some ([0], []) := by
  decide

/-- C22, as stated, fails: the finish of the ReferenceType `ns=1;i=5000` of
`twoParentsEvents`, which has two inverse references with a target in the hierarchical set,
takes the table from 8 to 10 entries, and the two new entries are both for that node. -/
theorem finish_appends_twice :
    (run Nodeset_new (twoParentsEvents.take 7)).map (fun st => st.hierachicalRefs.length)
      = some 8 ∧
    (run Nodeset_new twoParentsEvents).map (fun st => st.hierachicalRefs.length) = some 10 ∧
    (run Nodeset_new twoParentsEvents).map
        (fun st => (st.hierachicalRefs.drop 8).map (fun h => h.id))
      = some [⟨1, some "i=5000"⟩, ⟨1, some "i=5000"⟩] := by
  decide

/-- The loop started on the table `H` of `st` followed by `j` entries for `node`: it appends
an entry for every reference that is inverse with a target in `H`, and besides only for an
inverse reference to `node` itself when `node` is new in the table. -/
theorem addIfHierachicalReferenceTypeLoop_count (st : Nodeset) (node : TNode) :
    ∀ (l : List Nat) (j : Nat) (H' : List TNode),
      addIfHierachicalReferenceTypeLoop st.countedRefs node l
        (st.hierachicalRefs ++ List.replicate j node) = some H' →
      ∃ k, H' = st.hierachicalRefs ++ List.replicate k node ∧
        j + (l.filter (promotes st)).length ≤ k ∧ k ≤ j + l.length ∧
        ((inH st node.id ∨ ∀ r ∈ l, ∀ ref, st.countedRefs[r]? = some ref →
            ref.isForward = false → ref.target ≠ node.id) →
          k = j + (l.filter (promotes st)).length)
  | [], j, H', e => by
    simp only [addIfHierachicalReferenceTypeLoop, Option.some.injEq] at e
    exact ⟨j, e.symm, by simp, by simp, fun _ => by simp⟩
  | x :: l, j, H', e => by
    unfold addIfHierachicalReferenceTypeLoop at e
    cases hx : st.countedRefs[x]? with
    | none => simp [hx] at e
    | some rx =>
      simp only [hx] at e
      have hp : promotes st x = (!rx.isForward && decide (inH st rx.target)) := by
        simp only [promotes, hx]
      have hinH : ∀ id, inH st id → (st.hierachicalRefs ++ List.replicate j node).any
          (fun h => TNodeId_cmp h.id id = 0) = true := by
        intro id hid
        obtain ⟨h, hm, he⟩ := List.mem_map.mp hid
        simp only [List.any_eq_true, decide_eq_true_eq, TNodeId_cmp_eq_zero]
        exact ⟨h, List.mem_append.mpr (Or.inl hm), he⟩
      split at e
      · rename_i hcond
        rw [List.append_assoc, ← List.replicate_succ'] at e
        obtain ⟨k, hk, hlo, hhi, hex⟩ :=
          addIfHierachicalReferenceTypeLoop_count st node l (j + 1) H' e
        have hle : ((x :: l).filter (promotes st)).length
            ≤ (l.filter (promotes st)).length + 1 := by
          rw [List.filter_cons]
          split <;> simp
        refine ⟨k, hk, by omega, by simp only [List.length_cons]; omega, ?_⟩
        intro hself
        have hpx : promotes st x = true := by
          simp only [Bool.and_eq_true, Bool.not_eq_true', List.any_eq_true, decide_eq_true_eq,
            TNodeId_cmp_eq_zero] at hcond
          obtain ⟨hf, h, hm, he⟩ := hcond
          rw [hp, hf]
          simp only [Bool.not_false, Bool.true_and, decide_eq_true_eq]
          rcases List.mem_append.mp hm with hm | hm
          · exact List.mem_map.mpr ⟨h, hm, he⟩
          · have hh : h = node := List.eq_of_mem_replicate hm
            subst hh
            rcases hself with hs | hs
            · rw [← he]; exact hs
            · exact absurd he.symm (hs x (by simp) rx hx hf)
        have hk2 := hex (hself.imp id (fun hs r hr => hs r (by simp [hr])))
        rw [List.filter_cons, if_pos hpx, List.length_cons]
        omega
      · rename_i hcond
        obtain ⟨k, hk, hlo, hhi, hex⟩ :=
          addIfHierachicalReferenceTypeLoop_count st node l j H' e
        have hpx : ¬ (promotes st x = true) := by
          intro hpx
          rw [hp] at hpx
          simp only [Bool.and_eq_true, Bool.not_eq_true', decide_eq_true_eq] at hpx
          apply hcond
          rw [hpx.1, hinH _ hpx.2]
          rfl
        refine ⟨k, hk, ?_, by simp only [List.length_cons]; omega, ?_⟩
        · rw [List.filter_cons, if_neg hpx]; exact hlo
        · intro hself
          rw [List.filter_cons, if_neg hpx]
          exact hex (hself.imp id (fun hs r hr => hs r (by simp [hr])))

/-- C22, amended: the finish of a ReferenceType node `R` whose hierarchical list holds
allocated references returns, and it appends to the hierarchical table entries for `R` only:
at least one for every inverse reference on the list whose target is in the table before the
finish, at most one for every reference on the list, and exactly one for every such inverse
reference when the id of `R` is in the table before or no inverse reference on the list has
`R` itself as its target. -/
theorem finish_appends_per_reference (nodeset : Nodeset) (node : Nat) (n : TNode)
    (hn : nodeset.heap[node]? = some n) (hc : n.nodeClass = NODECLASS_REFERENCETYPE)
    (hb : ∀ r ∈ n.hierachicalRefs, r < nodeset.countedRefs.length) :
    ∃ after k, Nodeset_newNodeFinish nodeset node = some after ∧
      after.hierachicalRefs = nodeset.hierachicalRefs ++ List.replicate k n ∧
      (promotingRefs nodeset n).length ≤ k ∧ k ≤ n.hierachicalRefs.length ∧
      ((inH nodeset n.id ∨ ∀ r ∈ n.hierachicalRefs, ∀ ref,
          nodeset.countedRefs[r]? = some ref → ref.isForward = false → ref.target ≠ n.id) →
        k = (promotingRefs nodeset n).length) := by
  obtain ⟨H', hH'⟩ := addIfHierachicalReferenceTypeLoop_isSome nodeset.countedRefs n
    n.hierachicalRefs nodeset.hierachicalRefs hb
  have e : addIfHierachicalReferenceTypeLoop nodeset.countedRefs n n.hierachicalRefs
      (nodeset.hierachicalRefs ++ List.replicate 0 n) = some H' := by
    simpa using hH'
  obtain ⟨k, hk, hlo, hhi, hex⟩ :=
    addIfHierachicalReferenceTypeLoop_count nodeset n n.hierachicalRefs 0 H' e
  refine ⟨{ nodeset with sortNodes := nodeset.sortNodes ++ [node], hierachicalRefs := H' }, k,
    ?_, hk, by simpa [promotingRefs] using hlo, by simpa using hhi, ?_⟩
  · simp [Nodeset_newNodeFinish, addIfHierachicalReferenceType, hn, hc, hH']
  · intro hself
    simpa [promotingRefs] using hex hself

/-- The amended C22 at the state of `twoParentsEvents` before the finish of node 0: both
inverse references of the node have their target in the table, and the finish appends two
entries for the node. -/
theorem finish_appends_per_reference_witness :
    promotingRefs twoParentsState twoParentsNode = [1, 0] ∧
    ∃ after, Nodeset_newNodeFinish twoParentsState 0 = some after ∧
      after.hierachicalRefs
        = twoParentsState.hierachicalRefs ++ [twoParentsNode, twoParentsNode] := by
  have hp : promotingRefs twoParentsState twoParentsNode = [1, 0] := by decide
  obtain ⟨after, k, h1, h2, h3, h4, _⟩ :=
    finish_appends_per_reference twoParentsState 0 twoParentsNode (by decide) rfl (by decide)
  rw [hp] at h3
  have hk : k = 2 := by
    have : twoParentsNode.hierachicalRefs.length = 2 := rfl
    rw [this] at h4
    simp only [List.length_cons, List.length_nil] at h3
    omega
  subst hk
  exact ⟨hp, after, h1, h2⟩

/-! ## Capacity of the hierarchical table -/

set_option maxRecDepth 200000

/-- C23 evaluated on the code: with 42 user-defined subtypes of `HasComponent` parsed and
finished the table holds 50 entries, the capacity `MAX_HIERACHICAL_REFS`, and the finish of
the 43rd writes entry 50 and leaves `hierachicalRefsSize = 51`. -/
theorem hierarchical_table_overflow :
    MAX_HIERACHICAL_REFS = 50 ∧
    (run Nodeset_new (manySubtypesEvents 42)).map (fun st => st.hierachicalRefs.length)
      = some 50 ∧
    (run Nodeset_new (manySubtypesEvents 43)).map (fun st => st.hierachicalRefs.length)
      = some 51 ∧
    (run Nodeset_new (manySubtypesEvents 43)).map
        (fun st => (st.hierachicalRefs[50]?).map (fun h => h.id))
      = some (some ⟨1, some "i=5042"⟩) := by
  decide

end NodesetLoader
